import Mathlib

/-!
# KVDB: a shallow embedding of `kvdb.c` / `kvdb.h`

The database file is a list of bytes.  Multi-byte integers are laid out in
little-endian order (the host order of the platforms the code is used on),
`unsigned long` and `uint64_t` are 64 bits wide, `off_t` is a signed 64-bit
integer (`_FILE_OFFSET_BITS 64`).

The stream position of the C `FILE` is re-established by an `fseeko` at the
start of every operation, so it is threaded through each function as a local
value and is not part of the handle.

The file substrate is deterministic: a read fails when it runs past the end of
the file, a write fails on a stream opened read-only or when it would pass the
largest `off_t`, a seek fails on an offset that is negative as an `off_t`, and
an `fread`/`fwrite` of one item of size zero does not return 1.  `malloc`
fails on a request of more than `PTRDIFF_MAX` bytes, which no object can have,
and succeeds otherwise; `realloc` succeeds, except that the page loading loop
of `KVDB_open` is given the number of pages `realloc` can provide, which
bounds the loop on a cyclic chain.  Key and value buffers hold `key_size` and
`value_size` bytes.
-/

namespace Kvdb

/-! ## Bytes, integers and the file substrate -/

abbrev Byte := Fin 256

/-- Result of running a C function: it returns, it loops forever, or it runs
into undefined behaviour (an access outside an allocated buffer). -/
inductive Outcome (α : Type) where
  | ret (a : α)
  | hang
  | ub
  deriving DecidableEq

/-- Largest value of `off_t`. -/
def OFF_MAX : Nat := 2 ^ 63 - 1

/-- Modulus of `uint64_t` and `unsigned long` arithmetic. -/
def U64 : Nat := 2 ^ 64

/-- Largest size of an object: `malloc` provides no more bytes than this. -/
def PTRDIFF_MAX : Nat := 2 ^ 63 - 1

/-- The `n` low bytes of `x`, least significant first. -/
def le_bytes : Nat → Nat → List Byte
  | 0, _ => []
  | n + 1, x => Fin.ofNat (x % 256) :: le_bytes n (x / 256)

/-- Value of a little-endian byte string. -/
def le_value : List Byte → Nat
  | [] => 0
  | b :: bs => b.val + 256 * le_value bs

/-- In-memory image of one `uint64_t`. -/
def u64_bytes (x : Nat) : List Byte := le_bytes 8 x

/-- In-memory image of an array of `uint64_t`. -/
def cells_bytes : List Nat → List Byte
  | [] => []
  | x :: xs => u64_bytes x ++ cells_bytes xs

/-- The first `n` `uint64_t` cells held by a byte buffer. -/
def bytes_cells : Nat → List Byte → List Nat
  | 0, _ => []
  | n + 1, bs => le_value (bs.take 8) :: bytes_cells n (bs.drop 8)

/-- A stdio stream on the database file: the bytes of the file and whether
the stream was opened for writing. -/
structure FILE where
  data : List Byte
  writable : Bool
  deriving DecidableEq

/-- The `n` bytes of `d` from offset `a` on (fewer at the end of the file). -/
def fslice (d : List Byte) (a n : Nat) : List Byte := (d.drop a).take n

/-- Outcome of `fread(buf, size, 1, f)` at position `pos`: the item, or
`none` when the call does not return 1 (a zero size, or fewer than `size`
bytes left in the file). -/
def fread_item (f : FILE) (pos size : Nat) : Option (List Byte) :=
  if 0 < size ∧ pos + size ≤ f.data.length then some (fslice f.data pos size) else none

/-- Outcome of `fread(buf, 1, count, f)` at position `pos`: the bytes read, as
many as the file still has, at most `count`. -/
def fread_bytes (f : FILE) (pos count : Nat) : List Byte := fslice f.data pos count

/-- The file bytes after writing `bs` at offset `pos` (a gap beyond the end of
the file is filled with zero bytes). -/
def pwrite (d : List Byte) (pos : Nat) (bs : List Byte) : List Byte :=
  (d ++ List.replicate (pos - d.length) 0).take pos ++ bs ++ d.drop (pos + bs.length)

/-- Outcome of `fwrite(buf, size, 1, f)` at position `pos`: the stream after
the write, or `none` when the call does not return 1 (stream not writable, a
zero size, or the write would pass the largest file offset). -/
def fwrite_item (f : FILE) (pos : Nat) (buf : List Byte) (size : Nat) : Option FILE :=
  if f.writable = true ∧ 0 < size ∧ pos + size ≤ OFF_MAX then
    some { f with data := pwrite f.data pos (buf.take size) }
  else none

/-! ## Constants of `kvdb.h` -/

def KVDB_VERSION : Nat := 1
def KVDB_HEADER_SIZE : Nat := 8 * 3 + 4
def KVDB_ERROR_IO : Int := -1
def KVDB_ERROR_MALLOC : Int := -2
def KVDB_ERROR_INVALID_PARAMETERS : Int := -3
def KVDB_ERROR_CORRUPT_DBFILE : Int := -4

/-- Modelled from the spec: `kvdb.c` returns `KVDB_ERROR_CORRUPT_KVDBFILE`,
a name `kvdb.h` does not declare (it declares `KVDB_ERROR_CORRUPT_DBFILE`);
the spec gives the corruption code as `-4`. -/
def KVDB_ERROR_CORRUPT_KVDBFILE : Int := -4

def KVDB_OPEN_MODE_RDONLY : Int := 1
def KVDB_OPEN_MODE_RDWR : Int := 2
def KVDB_OPEN_MODE_RWCREAT : Int := 3
def KVDB_OPEN_MODE_RWREPLACE : Int := 4

/-- The database handle.  `hash_tables` is the flat array of 64-bit cells,
`hash_table_size + 1` per page. -/
structure KVDB where
  hash_table_size : Nat
  key_size : Nat
  value_size : Nat
  hash_table_size_bytes : Nat
  num_hash_tables : Nat
  hash_tables : List Nat
  f : FILE
  deriving DecidableEq

/-! ## `KVDB_hash` -/

/-- Loop body of `KVDB_hash` run over the bytes, in 64-bit arithmetic. -/
def hash_loop : List Byte → Nat → Nat
  | [], hash => hash
  | b :: bs, hash => hash_loop bs ((((hash <<< 5) % U64 + hash) % U64 + b.val) % U64)

def KVDB_hash (b : List Byte) (len : Nat) : Nat := hash_loop (b.take len) 5381

/-! ## `KVDB_open` and `KVDB_close` -/

/-- The two `fopen` calls of `KVDB_open`: `file` is the content of the file at
`path` (`none` when there is no such file). -/
def KVDB_fopen (file : Option (List Byte)) (mode : Int) : Option FILE :=
  if mode = KVDB_OPEN_MODE_RWREPLACE then some ⟨[], true⟩
  else if mode = KVDB_OPEN_MODE_RDWR ∨ mode = KVDB_OPEN_MODE_RWCREAT then
    match file with
    | some d => some ⟨d, true⟩
    | none => if mode = KVDB_OPEN_MODE_RWCREAT then some ⟨[], true⟩ else none
  else
    match file with
    | some d => some ⟨d, false⟩
    | none => none

/-- The handle after `KVDB_close`: every field cleared.  The `FILE` component
is kept as the record of the bytes left on disk. -/
def KVDB_close (db : KVDB) : KVDB :=
  { hash_table_size := 0, key_size := 0, value_size := 0, hash_table_size_bytes := 0,
    num_hash_tables := 0, hash_tables := [], f := db.f }

/-- The page loading loop of `KVDB_open` (lines 147-167).  `mem` is the number
of pages `realloc` can still provide, `pos` the stream position. -/
def load_pages : Nat → KVDB → Nat → Outcome (Int × KVDB)
  | 0, db, pos =>
    match fread_item db.f pos db.hash_table_size_bytes with
    | none => .ret (0, db)
    | some _ => .ret (KVDB_ERROR_MALLOC, KVDB_close db)
  | mem + 1, db, pos =>
    match fread_item db.f pos db.hash_table_size_bytes with
    | none => .ret (0, db)
    | some page =>
      if db.hash_table_size_bytes ≠ 8 * (db.hash_table_size + 1) then .ub
      else
        let httmp := bytes_cells (db.hash_table_size + 1) page
        let db1 := { db with hash_tables := db.hash_tables ++ httmp,
                             num_hash_tables := db.num_hash_tables + 1 }
        let next := httmp.getD db.hash_table_size 0
        if next ≠ 0 then
          if next ≤ OFF_MAX then load_pages mem db1 next
          else .ret ( KVDB_ERROR_IO, KVDB_close db1)
        else .ret (0, db1)

/-- Lines 135-170 of `KVDB_open`: fill the handle, allocate the buffer of one
page (lines 140-144) and load the page chain.  When the allocation fails the
fields `num_hash_tables` and `hash_tables` have not been set yet; they are
reported as 0 and empty. -/
def open_finish (f : FILE) (hash_table_size key_size value_size mem : Nat) :
    Outcome (Int × KVDB) :=
  let db : KVDB :=
    { hash_table_size := hash_table_size, key_size := key_size, value_size := value_size,
      hash_table_size_bytes := (8 * ((hash_table_size + 1) % U64)) % U64,
      num_hash_tables := 0, hash_tables := [], f := f }
  if PTRDIFF_MAX < db.hash_table_size_bytes then .ret (KVDB_ERROR_MALLOC, db)
  else load_pages mem db KVDB_HEADER_SIZE

/-- The handle reported together with an error code before any field but `f`
has been set. -/
def failed_handle (f : FILE) : KVDB :=
  { hash_table_size := 0, key_size := 0, value_size := 0, hash_table_size_bytes := 0,
    num_hash_tables := 0, hash_tables := [], f := f }

/-- `KVDB_open`.  `file` is the content of the file at `path` before the call
(`none`: no such file); the bytes on disk after the call are `f.data` of the
returned handle.  `mem` bounds the pages `realloc` provides. -/
def KVDB_open (file : Option (List Byte)) (mode : Int)
    (hash_table_size key_size value_size mem : Nat) : Outcome (Int × KVDB) :=
  match KVDB_fopen file mode with
  | none => .ret ( KVDB_ERROR_IO, failed_handle ⟨[], false⟩)
  | some f =>
    if f.data.length < KVDB_HEADER_SIZE then
      if hash_table_size ≠ 0 ∧ key_size ≠ 0 ∧ value_size ≠ 0 then
        match fwrite_item f 0 [75, 86, 66, Fin.ofNat KVDB_VERSION] 4 with
        | none => .ret ( KVDB_ERROR_IO, failed_handle f)
        | some f1 =>
        match fwrite_item f1 4 (u64_bytes hash_table_size) 8 with
        | none => .ret ( KVDB_ERROR_IO, failed_handle f1)
        | some f2 =>
        match fwrite_item f2 12 (u64_bytes key_size) 8 with
        | none => .ret ( KVDB_ERROR_IO, failed_handle f2)
        | some f3 =>
        match fwrite_item f3 20 (u64_bytes value_size) 8 with
        | none => .ret ( KVDB_ERROR_IO, failed_handle f3)
        | some f4 => open_finish f4 hash_table_size key_size value_size mem
      else .ret (KVDB_ERROR_INVALID_PARAMETERS, failed_handle f)
    else
      match fread_item f 0 4 with
      | none => .ret ( KVDB_ERROR_IO, failed_handle f)
      | some tmp2 =>
      if tmp2.getD 0 0 ≠ 75 ∨ tmp2.getD 1 0 ≠ 86 ∨ tmp2.getD 2 0 ≠ 66
          ∨ tmp2.getD 3 0 ≠ Fin.ofNat KVDB_VERSION then
        .ret (KVDB_ERROR_CORRUPT_KVDBFILE, failed_handle f)
      else
      match fread_item f 4 8 with
      | none => .ret ( KVDB_ERROR_IO, failed_handle f)
      | some t1 =>
      if le_value t1 = 0 then .ret (KVDB_ERROR_CORRUPT_KVDBFILE, failed_handle f)
      else
      match fread_item f 12 8 with
      | none => .ret ( KVDB_ERROR_IO, failed_handle f)
      | some t2 =>
      if le_value t2 = 0 then .ret (KVDB_ERROR_CORRUPT_KVDBFILE, failed_handle f)
      else
      match fread_item f 20 8 with
      | none => .ret ( KVDB_ERROR_IO, failed_handle f)
      | some t3 =>
      if le_value t3 = 0 then .ret (KVDB_ERROR_CORRUPT_KVDBFILE, failed_handle f)
      else open_finish f (le_value t1) (le_value t2) (le_value t3) mem

/-! ## Key comparison, `KVDB_get` -/

/-- Result of a chunked key comparison loop. -/
inductive Cmp where
  | matched (pos : Nat)
  | differs
  | short
  deriving DecidableEq

/-- The `while (klen)` loop shared by `KVDB_get` (lines 202-212) and
`_kvdb_put` (lines 258-266): read the stored key in chunks of at most 255
bytes from position `pos` and compare each chunk with the caller's key.
`matched pos` gives the stream position after the last chunk; `short` is the
case `n <= 0` of a read that returns nothing.  The first argument bounds the
number of iterations; `klen` iterations always suffice since each one
consumes at least one byte. -/
def key_compare (f : FILE) : Nat → Nat → List Byte → Nat → Cmp
  | 0, pos, _, klen => if klen = 0 then .matched pos else .short
  | fuel + 1, pos, kptr, klen =>
    if klen = 0 then .matched pos
    else
      let chunk := fread_bytes f pos (if klen > 255 then 255 else klen)
      let n := chunk.length
      if n > 0 then
        if kptr.take n ≠ chunk then .differs
        else key_compare f fuel (pos + n) (kptr.drop n) (klen - n)
      else .short

/-- The `for` loop of `KVDB_get` from page `i` on, `fuel` pages left. -/
def get_pages (db : KVDB) (key vbuf : List Byte) (hash : Nat) : Nat → Nat → Int × List Byte
  | 0, _ => (1, vbuf)
  | fuel + 1, i =>
    let offset := db.hash_tables.getD (i * (db.hash_table_size + 1) + hash) 0
    if offset ≠ 0 then
      if ¬ offset ≤ OFF_MAX then ( KVDB_ERROR_IO, vbuf)
      else
      match fread_item db.f offset 1 with
      | none => ( KVDB_ERROR_IO, vbuf)
      | some tmp0 =>
      match key_compare db.f db.key_size (offset + 1) key db.key_size with
      | .short => (1, vbuf)
      | .differs => get_pages db key vbuf hash fuel (i + 1)
      | .matched pos =>
        if tmp0.getD 0 0 = 0 then (1, vbuf)
        else
          match fread_item db.f pos db.value_size with
          | some v => (0, v)
          | none => ( KVDB_ERROR_IO, vbuf)
    else (1, vbuf)

/-- `KVDB_get`: the return code and the content of `vbuf` after the call. -/
def KVDB_get (db : KVDB) (key vbuf : List Byte) : Int × List Byte :=
  get_pages db key vbuf (KVDB_hash key db.key_size % db.hash_table_size) db.num_hash_tables 0

/-! ## `_kvdb_put`, `KVDB_put`, `KVDB_delete` -/

/-- The handle with its stream replaced. -/
def with_file (db : KVDB) (f : FILE) : KVDB := { db with f := f }

/-- Lines 268-298 of `_kvdb_put`: the record at `offset` is taken to be the
key's record; `tmp0` is its status byte, `pos` the stream position after the
key comparison. -/
def put_found (db : KVDB) (key value : List Byte) (delete : Bool)
    (offset : Nat) (tmp0 : Byte) (pos : Nat) : Outcome (Int × KVDB) :=
  if delete then
    match fwrite_item db.f offset [0] 1 with
    | none => .ret ( KVDB_ERROR_IO, db)
    | some f1 => .ret (0, with_file db f1)
  else if tmp0 = 0 then
    match fwrite_item db.f offset [1] 1 with
    | none => .ret ( KVDB_ERROR_IO, db)
    | some f1 =>
    match fwrite_item f1 (offset + 1) key db.key_size with
    | none => .ret ( KVDB_ERROR_IO, with_file db f1)
    | some f2 =>
    match fwrite_item f2 (offset + 1 + db.key_size) value db.value_size with
    | none => .ret ( KVDB_ERROR_IO, with_file db f2)
    | some f3 => .ret (0, with_file db f3)
  else
    match fwrite_item db.f pos value db.value_size with
    | none => .ret ( KVDB_ERROR_IO, db)
    | some f1 => .ret (0, with_file db f1)

/-- Lines 300-326 of `_kvdb_put`: slot `hash` of page `i` is empty; `htoffset`
is the file offset of that page. -/
def put_empty (db : KVDB) (key value : List Byte) (delete : Bool)
    (hash i htoffset : Nat) : Outcome (Int × KVDB) :=
  if delete then .ret ( KVDB_ERROR_IO, db)
  else
    let endoffset := db.f.data.length
    match fwrite_item db.f endoffset [1] 1 with
    | none => .ret ( KVDB_ERROR_IO, db)
    | some f1 =>
    match fwrite_item f1 (endoffset + 1) key db.key_size with
    | none => .ret ( KVDB_ERROR_IO, with_file db f1)
    | some f2 =>
    match fwrite_item f2 (endoffset + 1 + db.key_size) value db.value_size with
    | none => .ret ( KVDB_ERROR_IO, with_file db f2)
    | some f3 =>
    let slotpos := (htoffset + 8 * hash) % U64
    if ¬ slotpos ≤ OFF_MAX then .ret ( KVDB_ERROR_IO, with_file db f3)
    else
    match fwrite_item f3 slotpos (u64_bytes endoffset) 8 with
    | none => .ret ( KVDB_ERROR_IO, with_file db f3)
    | some f4 =>
      .ret (0, { db with
        hash_tables := db.hash_tables.set (i * (db.hash_table_size + 1) + hash) endoffset,
        f := f4 })

/-- Lines 333-373 of `_kvdb_put`: no page had a usable slot; `lasthtoffset`
is the file offset of the last page of the chain.  The zeroed new page takes
`hash_table_size_bytes` bytes of the reallocated array; writing slot `hash`
of it is inside that array only when the byte count has not wrapped. -/
def put_new_page (db : KVDB) (key value : List Byte) (delete : Bool)
    (hash lasthtoffset : Nat) : Outcome (Int × KVDB) :=
  if delete then .ret ( KVDB_ERROR_IO, db)
  else
    let endoffset := db.f.data.length
    if db.hash_table_size_bytes ≠ 8 * (db.hash_table_size + 1) then .ub
    else
    let page := (List.replicate (db.hash_table_size + 1) 0).set hash
      ((endoffset + db.hash_table_size_bytes) % U64)
    let db1 := { db with hash_tables :=
      db.hash_tables.take ((db.hash_table_size + 1) * db.num_hash_tables) ++ page }
    match fwrite_item db1.f endoffset (cells_bytes page) db.hash_table_size_bytes with
    | none => .ret ( KVDB_ERROR_IO, db1)
    | some f1 =>
    match fwrite_item f1 (endoffset + db.hash_table_size_bytes) [1] 1 with
    | none => .ret ( KVDB_ERROR_IO, with_file db1 f1)
    | some f2 =>
    match fwrite_item f2 (endoffset + db.hash_table_size_bytes + 1) key db.key_size with
    | none => .ret ( KVDB_ERROR_IO, with_file db1 f2)
    | some f3 =>
    match fwrite_item f3 (endoffset + db.hash_table_size_bytes + 1 + db.key_size)
        value db.value_size with
    | none => .ret ( KVDB_ERROR_IO, with_file db1 f3)
    | some f4 =>
    if db.num_hash_tables ≠ 0 then
      let nextpos := (lasthtoffset + 8 * db.hash_table_size) % U64
      if ¬ nextpos ≤ OFF_MAX then .ret ( KVDB_ERROR_IO, with_file db1 f4)
      else
      match fwrite_item f4 nextpos (u64_bytes endoffset) 8 with
      | none => .ret ( KVDB_ERROR_IO, with_file db1 f4)
      | some f5 =>
        .ret (0, { db1 with
          hash_tables := db1.hash_tables.set
            ((db.hash_table_size + 1) * (db.num_hash_tables - 1) + db.hash_table_size)
            endoffset,
          num_hash_tables := db.num_hash_tables + 1,
          f := f5 })
    else
      .ret (0, { db1 with num_hash_tables := db.num_hash_tables + 1, f := f4 })

/-- The `for` loop of `_kvdb_put` from page `i` on, `fuel` pages left, followed
by the code after the loop. -/
def put_pages (db : KVDB) (key value : List Byte) (delete : Bool) (hash : Nat) :
    Nat → Nat → Nat → Nat → Outcome (Int × KVDB)
  | 0, _, _, lasthtoffset => put_new_page db key value delete hash lasthtoffset
  | fuel + 1, i, htoffset, _ =>
    let offset := db.hash_tables.getD (i * (db.hash_table_size + 1) + hash) 0
    if offset ≠ 0 then
      if ¬ offset ≤ OFF_MAX then .ret ( KVDB_ERROR_IO, db)
      else
      match fread_item db.f offset 1 with
      | none => .ret ( KVDB_ERROR_IO, db)
      | some tmp =>
        let tmp0 := tmp.getD 0 0
        match (if tmp0 ≠ 0 then key_compare db.f db.key_size (offset + 1) key db.key_size
               else Cmp.matched (offset + 1)) with
        | .short => .hang
        | .differs =>
          put_pages db key value delete hash fuel (i + 1)
            (db.hash_tables.getD (i * (db.hash_table_size + 1) + db.hash_table_size) 0)
            htoffset
        | .matched pos => put_found db key value delete offset tmp0 pos
    else put_empty db key value delete hash i htoffset

def _kvdb_put (db : KVDB) (key value : List Byte) (delete : Bool) : Outcome (Int × KVDB) :=
  put_pages db key value delete (KVDB_hash key db.key_size % db.hash_table_size)
    db.num_hash_tables 0 KVDB_HEADER_SIZE KVDB_HEADER_SIZE

def KVDB_put (db : KVDB) (key value : List Byte) : Outcome (Int × KVDB) :=
  _kvdb_put db key value false

def KVDB_delete (db : KVDB) (key : List Byte) : Outcome (Int × KVDB) :=
  _kvdb_put db key [] true

/-! ## Iteration -/

structure KVDB_ITERATOR where
  db : KVDB
  h_no : Nat
  h_idx : Nat
  deriving DecidableEq

def KVDB_iterator_init (db : KVDB) : KVDB_ITERATOR := { db := db, h_no := 0, h_idx := 0 }

/-- Result of `KVDB_iterator_next`: return code, iterator and the two buffers
after the call. -/
structure IterResult where
  code : Int
  dbi : KVDB_ITERATOR
  kbuf : List Byte
  vbuf : List Byte
  deriving DecidableEq

/-- The loops of `KVDB_iterator_next`; each round either steps over an empty
slot (inner `while`) or reads the record of a filled one (outer `while`).  The
cursor advances in every round, so `num_hash_tables * hash_table_size + 1`
rounds always suffice. -/
def iterator_loop (db : KVDB) (kbuf vbuf : List Byte) : Nat → Nat → Nat → IterResult
  | 0, h_no, h_idx => ⟨0, ⟨db, h_no, h_idx⟩, kbuf, vbuf⟩
  | fuel + 1, h_no, h_idx =>
    if h_no < db.num_hash_tables ∧ h_idx < db.hash_table_size then
      let offset := db.hash_tables.getD ((db.hash_table_size + 1) * h_no + h_idx) 0
      if offset = 0 then
        if h_idx + 1 ≥ db.hash_table_size then
          if h_no + 1 ≥ db.num_hash_tables then ⟨0, ⟨db, h_no + 1, 0⟩, kbuf, vbuf⟩
          else iterator_loop db kbuf vbuf fuel (h_no + 1) 0
        else iterator_loop db kbuf vbuf fuel h_no (h_idx + 1)
      else
        if ¬ offset ≤ OFF_MAX then ⟨ KVDB_ERROR_IO, ⟨db, h_no, h_idx⟩, kbuf, vbuf⟩
        else
        match fread_item db.f offset 1 with
        | none => ⟨ KVDB_ERROR_IO, ⟨db, h_no, h_idx⟩, kbuf, vbuf⟩
        | some tmp =>
        match fread_item db.f (offset + 1) db.key_size with
        | none => ⟨ KVDB_ERROR_IO, ⟨db, h_no, h_idx⟩, kbuf, vbuf⟩
        | some k =>
        match fread_item db.f (offset + 1 + db.key_size) db.value_size with
        | none => ⟨ KVDB_ERROR_IO, ⟨db, h_no, h_idx⟩, k, vbuf⟩
        | some v =>
          let h_no1 := if h_idx + 1 ≥ db.hash_table_size then h_no + 1 else h_no
          let h_idx1 := if h_idx + 1 ≥ db.hash_table_size then 0 else h_idx + 1
          if tmp.getD 0 0 = 0 then iterator_loop db k v fuel h_no1 h_idx1
          else ⟨1, ⟨db, h_no1, h_idx1⟩, k, v⟩
    else ⟨0, ⟨db, h_no, h_idx⟩, kbuf, vbuf⟩

def KVDB_iterator_next (dbi : KVDB_ITERATOR) (kbuf vbuf : List Byte) : IterResult :=
  iterator_loop dbi.db kbuf vbuf (dbi.db.num_hash_tables * dbi.db.hash_table_size + 1)
    dbi.h_no dbi.h_idx

/-- Call `KVDB_iterator_next` until it stops returning 1, at most `fuel`
times, collecting the pairs it hands out. -/
def iterate_from : Nat → KVDB_ITERATOR → List Byte → List Byte → List (List Byte × List Byte)
  | 0, _, _, _ => []
  | fuel + 1, dbi, kbuf, vbuf =>
    let r := KVDB_iterator_next dbi kbuf vbuf
    if r.code = 1 then (r.kbuf, r.vbuf) :: iterate_from fuel r.dbi r.kbuf r.vbuf else []

/-- A full iteration: `KVDB_iterator_init`, then `KVDB_iterator_next` until it
no longer returns 1.  Every call that returns 1 moves the cursor past one
slot, so `num_hash_tables * hash_table_size + 1` calls reach the end. -/
def iterate_all (db : KVDB) : List (List Byte × List Byte) :=
  iterate_from (db.num_hash_tables * db.hash_table_size + 1) (KVDB_iterator_init db) [] []


/-! ## Notions used to state the properties -/

/-- Return code of a call that returns. -/
def ret_code : Outcome (Int × KVDB) → Option Int
  | .ret r => some r.1
  | _ => none

/-- The 28-byte header for geometry `S`, `K`, `V`. -/
def header_bytes (S K V : Nat) : List Byte :=
  [75, 86, 66, 1] ++ u64_bytes S ++ u64_bytes K ++ u64_bytes V

/-- Some byte of the magic or the version byte is wrong, or one of the three
geometry integers at bytes 4..27 is zero. -/
def header_bad (d : List Byte) : Prop :=
  d.getD 0 0 ≠ 75 ∨ d.getD 1 0 ≠ 86 ∨ d.getD 2 0 ≠ 66 ∨ d.getD 3 0 ≠ 1 ∨
  le_value (fslice d 4 8) = 0 ∨ le_value (fslice d 12 8) = 0 ∨ le_value (fslice d 20 8) = 0

/-- The handle `KVDB_open` fills in when it has created a database with
geometry `S`, `K`, `V`. -/
def fresh_handle (S K V : Nat) : KVDB :=
  { hash_table_size := S, key_size := K, value_size := V,
    hash_table_size_bytes := (8 * ((S + 1) % U64)) % U64,
    num_hash_tables := 0, hash_tables := [], f := ⟨header_bytes S K V, true⟩ }

instance (d : List Byte) : Decidable (header_bad d) := by
  unfold header_bad; infer_instance

/-- A freshly created database: `KVDB_open` found a stream shorter than the
header, wrote the header and returned 0.  The geometry arguments are
`unsigned long` values. -/
def Fresh (db : KVDB) : Prop :=
  ∃ file mode S K V mem f, S < U64 ∧ K < U64 ∧ V < U64 ∧
    KVDB_fopen file mode = some f ∧ f.data.length < KVDB_HEADER_SIZE ∧
    KVDB_open file mode S K V mem = .ret (0, db)

/-- Database states reached from a freshly created database by `KVDB_put` and
`KVDB_delete` calls that return 0, on key and value buffers of `key_size` and
`value_size` bytes. -/
inductive Reachable : KVDB → Prop where
  | fresh {db : KVDB} : Fresh db → Reachable db
  | put {db db1 : KVDB} {key value : List Byte} : Reachable db →
      key.length = db.key_size → value.length = db.value_size →
      KVDB_put db key value = .ret (0, db1) → Reachable db1
  | delete {db db1 : KVDB} {key : List Byte} : Reachable db →
      key.length = db.key_size →
      KVDB_delete db key = .ret (0, db1) → Reachable db1

/-- Cell `c` of page `i` in a flat array of pages of `S + 1` cells. -/
def cell_at (ht : List Nat) (S i c : Nat) : Nat := ht.getD (i * (S + 1) + c) 0

/-- File offset of page `i` as `_kvdb_put` tracks it in `htoffset`: the header
size for the first page, the next-pointer cell of the page before otherwise. -/
def page_at (ht : List Nat) (S : Nat) : Nat → Nat
  | 0 => KVDB_HEADER_SIZE
  | i + 1 => cell_at ht S i S

/-- How the page array `ht` of `n` pages and the file bytes `d` fit together
in a database of geometry `S`, `K`, `V`. -/
structure Layout (S K V n : Nat) (ht : List Nat) (d : List Byte) : Prop where
  ht_len : ht.length = n * (S + 1)
  len_max : d.length ≤ OFF_MAX
  len_min : 28 ≤ d.length
  header : fslice d 0 28 = header_bytes S K V
  empty_len : n = 0 → d.length = 28
  page_in : ∀ i, i < n → 28 ≤ page_at ht S i ∧ page_at ht S i + 8 * (S + 1) ≤ d.length
  page_disk : ∀ i c, i < n → c ≤ S →
    fslice d (page_at ht S i + 8 * c) 8 = u64_bytes (cell_at ht S i c)
  last_next : ∀ i, i + 1 = n → cell_at ht S i S = 0
  page_mono : ∀ i j, i < j → j < n → page_at ht S i + 8 * (S + 1) ≤ page_at ht S j
  slot_in : ∀ i h, i < n → h < S → cell_at ht S i h ≠ 0 →
    28 ≤ cell_at ht S i h ∧ cell_at ht S i h + (1 + K + V) ≤ d.length
  slot_status : ∀ i h, i < n → h < S → cell_at ht S i h ≠ 0 →
    fslice d (cell_at ht S i h) 1 = [0] ∨ fslice d (cell_at ht S i h) 1 = [1]
  slot_page : ∀ i h j, i < n → h < S → j < n → cell_at ht S i h ≠ 0 →
    cell_at ht S i h + (1 + K + V) ≤ page_at ht S j ∨
      page_at ht S j + 8 * (S + 1) ≤ cell_at ht S i h
  slot_slot : ∀ i h j g, i < n → h < S → j < n → g < S → (i ≠ j ∨ h ≠ g) →
    cell_at ht S i h ≠ 0 → cell_at ht S j g ≠ 0 →
    cell_at ht S i h + (1 + K + V) ≤ cell_at ht S j g ∨
      cell_at ht S j g + (1 + K + V) ≤ cell_at ht S i h
  slot_prefix : ∀ i j h, i < j → j < n → h < S → cell_at ht S j h ≠ 0 → cell_at ht S i h ≠ 0

/-- The invariant of database handles: the geometry is non-zero and fits
`unsigned long`, the stream is writable, and memory and file fit together. -/
structure Inv (db : KVDB) : Prop where
  S_pos : 0 < db.hash_table_size
  K_pos : 0 < db.key_size
  V_pos : 0 < db.value_size
  S_lt : db.hash_table_size < U64
  K_lt : db.key_size < U64
  V_lt : db.value_size < U64
  writable : db.f.writable = true
  psize : db.hash_table_size_bytes = (8 * ((db.hash_table_size + 1) % U64)) % U64
  layout : Layout db.hash_table_size db.key_size db.value_size db.num_hash_tables
    db.hash_tables db.f.data

/-- Status byte of the record at offset `o`. -/
def rec_status (d : List Byte) (o : Nat) : Byte := (fslice d o 1).getD 0 0

/-- Key field of the record at offset `o`. -/
def rec_key (d : List Byte) (K o : Nat) : List Byte := fslice d (o + 1) K

/-- Value field of the record at offset `o`. -/
def rec_value (d : List Byte) (K V o : Nat) : List Byte := fslice d (o + 1 + K) V

/-- The slot index `KVDB_get` and `_kvdb_put` compute for a key. -/
def slot_of (db : KVDB) (key : List Byte) : Nat :=
  KVDB_hash key db.key_size % db.hash_table_size

/-- The slot offset `KVDB_get` and `_kvdb_put` find for a key in page `i`. -/
def slot_off (db : KVDB) (key : List Byte) (i : Nat) : Nat :=
  cell_at db.hash_tables db.hash_table_size i (slot_of db key)

/-- Both `KVDB_get` and `_kvdb_put` step over page `j` when they look for
`key`: the slot is filled with a live record of another key. -/
def Skips (db : KVDB) (key : List Byte) (j : Nat) : Prop :=
  slot_off db key j ≠ 0 ∧ rec_status db.f.data (slot_off db key j) ≠ 0 ∧
    rec_key db.f.data db.key_size (slot_off db key j) ≠ key

/-- Page `i` is the first page whose slot holds a record with key `key`, and
the pages before it hold live records of other keys. -/
structure Located (db : KVDB) (key : List Byte) (i : Nat) : Prop where
  lt : i < db.num_hash_tables
  skips : ∀ j, j < i → Skips db key j
  filled : slot_off db key i ≠ 0
  key_eq : rec_key db.f.data db.key_size (slot_off db key i) = key

/-- Bytes written by `KVDB_put` on a filled slot that it takes for the key's:
the whole record when it was a tombstone, the value alone otherwise. -/
def put_found_data (d : List Byte) (K o : Nat) (st : Byte) (key value : List Byte) :
    List Byte :=
  if st = 0 then pwrite (pwrite (pwrite d o [1]) (o + 1) key) (o + 1 + K) value
  else pwrite d (o + 1 + K) value

/-- The handle after `KVDB_put` has appended a record for an empty slot of
page `i`. -/
def filled_handle (db : KVDB) (key value : List Byte) (i : Nat) : KVDB :=
  { db with
    hash_tables := db.hash_tables.set (i * (db.hash_table_size + 1) + slot_of db key)
      db.f.data.length,
    f := ⟨pwrite (db.f.data ++ (1 :: (key ++ value)))
      (page_at db.hash_tables db.hash_table_size i + 8 * slot_of db key)
      (u64_bytes db.f.data.length), true⟩ }

/-- The page `_kvdb_put` builds in memory when it extends the chain. -/
def new_page (db : KVDB) (key : List Byte) : List Nat :=
  (List.replicate (db.hash_table_size + 1) 0).set (slot_of db key)
    (db.f.data.length + 8 * (db.hash_table_size + 1))

/-- The handle after `KVDB_put` has appended a page and a record. -/
def grown_handle (db : KVDB) (key value : List Byte) : KVDB :=
  if db.num_hash_tables = 0 then
    { db with
      hash_tables := db.hash_tables ++ new_page db key,
      num_hash_tables := db.num_hash_tables + 1,
      f := ⟨db.f.data ++ cells_bytes (new_page db key) ++ (1 :: (key ++ value)), true⟩ }
  else
    { db with
      hash_tables := (db.hash_tables ++ new_page db key).set
        ((db.num_hash_tables - 1) * (db.hash_table_size + 1) + db.hash_table_size)
        db.f.data.length,
      num_hash_tables := db.num_hash_tables + 1,
      f := ⟨pwrite (db.f.data ++ cells_bytes (new_page db key) ++ (1 :: (key ++ value)))
        (page_at db.hash_tables db.hash_table_size (db.num_hash_tables - 1)
          + 8 * db.hash_table_size)
        (u64_bytes db.f.data.length), true⟩ }

/-- The three ways a `KVDB_put` that returns 0 ends, with the handle `db1` it
leaves: it rewrites the record of the first page whose slot holds a tombstone
or the key, it appends a record for the first empty slot, or it appends a new
page. -/
inductive PutCase (db : KVDB) (key value : List Byte) (db1 : KVDB) : Prop where
  | found (i : Nat) (hi : i < db.num_hash_tables) (skips : ∀ j, j < i → Skips db key j)
      (filled : slot_off db key i ≠ 0)
      (stop : rec_status db.f.data (slot_off db key i) = 0 ∨
        rec_key db.f.data db.key_size (slot_off db key i) = key)
      (eq : db1 = with_file db ⟨put_found_data db.f.data db.key_size (slot_off db key i)
        (rec_status db.f.data (slot_off db key i)) key value, true⟩)
  | empty (i : Nat) (hi : i < db.num_hash_tables) (skips : ∀ j, j < i → Skips db key j)
      (free : slot_off db key i = 0)
      (fit : db.f.data.length + (1 + db.key_size + db.value_size) ≤ OFF_MAX)
      (eq : db1 = filled_handle db key value i)
  | grown (skips : ∀ j, j < db.num_hash_tables → Skips db key j)
      (fit : db.f.data.length + 8 * (db.hash_table_size + 1)
        + (1 + db.key_size + db.value_size) ≤ OFF_MAX)
      (eq : db1 = grown_handle db key value)

/-- The handle `KVDB_open` has built when it has loaded the first `k` pages of
the chain of `db` through the stream `f`. -/
def loaded (db : KVDB) (f : FILE) (k : Nat) : KVDB :=
  { db with num_hash_tables := k,
            hash_tables := db.hash_tables.take (k * (db.hash_table_size + 1)),
            f := f }

/-- An iterator result with the handle of its iterator replaced. -/
def retarget (db : KVDB) (r : IterResult) : IterResult :=
  ⟨r.code, ⟨db, r.dbi.h_no, r.dbi.h_idx⟩, r.kbuf, r.vbuf⟩

/-- A call of the write interface. -/
inductive Op where
  | put (key value : List Byte)
  | delete (key : List Byte)

/-- The call `op` on the handle `db`. -/
def apply_op (db : KVDB) : Op → Outcome (Int × KVDB)
  | .put key value => KVDB_put db key value
  | .delete key => KVDB_delete db key

/-- Run the calls in order as long as each returns 0; the handle after the
last one, or `none` when one of them did not return 0. -/
def run_ops : KVDB → List Op → Option KVDB
  | db, [] => some db
  | db, op :: ops =>
    match apply_op db op with
    | .ret (code, db1) => if code = 0 then run_ops db1 ops else none
    | _ => none

/-- The hash as the specification words it: start from 5381 and, for each
byte in order, replace `h` by `(h * 33 + byte) mod 2 ^ 64`. -/
def djb2_spec : List Byte → Nat → Nat
  | [], h => h
  | b :: bs, h => djb2_spec bs ((h * 33 + b.val) % 2 ^ 64)

/-- Number of filled slots, over all pages, whose record is live (status 1)
and has the key bytes `key`. -/
def live_slots (db : KVDB) (key : List Byte) : Nat :=
  ((List.range db.num_hash_tables).map fun i =>
    (List.range db.hash_table_size).countP fun h =>
      decide (cell_at db.hash_tables db.hash_table_size i h ≠ 0 ∧
        rec_status db.f.data (cell_at db.hash_tables db.hash_table_size i h) = 1 ∧
        rec_key db.f.data db.key_size (cell_at db.hash_tables db.hash_table_size i h)
          = key)).sum

/-- What a put that returns an error code leaves of the handle `db` in `db1`:
the geometry, the number of pages and every cell of those pages are the same,
and the file has at most grown at its end. -/
def Kept (db db1 : KVDB) : Prop :=
  db1.hash_table_size = db.hash_table_size ∧ db1.key_size = db.key_size ∧
  db1.value_size = db.value_size ∧ db1.num_hash_tables = db.num_hash_tables ∧
  (∀ j c, j < db.num_hash_tables → c ≤ db.hash_table_size →
    cell_at db1.hash_tables db.hash_table_size j c
      = cell_at db.hash_tables db.hash_table_size j c) ∧
  ∃ e, db1.f.data = db.f.data ++ e

/-- The outcomes of `KVDB_put` on the handle `db`: it returns 0; or it returns
the I/O code because the file cannot take a page and a record more below the
largest offset; or the byte count of a page has wrapped and the first page
cannot be built. -/
def PutOutcome (db : KVDB) (r : Outcome (Int × KVDB)) : Prop :=
  (∃ db1, r = .ret (0, db1)) ∨
  (∃ db1, r = .ret ( KVDB_ERROR_IO, db1) ∧ Kept db db1 ∧
    OFF_MAX < db.f.data.length + 8 * (db.hash_table_size + 1)
      + (1 + db.key_size + db.value_size)) ∨
  (r = .ub ∧ db.num_hash_tables = 0 ∧
    db.hash_table_size_bytes ≠ 8 * (db.hash_table_size + 1))

/-- The result of `m` further calls of `KVDB_iterator_next` after the call
that gave `r`, each on the iterator and buffers the previous call left. -/
def next_calls : Nat → IterResult → IterResult
  | 0, r => r
  | m + 1, r => next_calls m (KVDB_iterator_next r.dbi r.kbuf r.vbuf)

/-- Number of slots from the cursor `(a, b)` to the end of the last page. -/
def slots_left (db : KVDB) (a b : Nat) : Nat :=
  if a < db.num_hash_tables ∧ b < db.hash_table_size then
    db.num_hash_tables * db.hash_table_size - (a * db.hash_table_size + b)
  else 0

/-- A sample state: the database of geometry 1/1/1 after `put [10] [1]`. -/
def sample_db : KVDB := grown_handle (fresh_handle 1 1 1) [10] [1]

/-- A handle whose one slot points at a record cut off after its status
byte: the file ends where the key field should begin. -/
def short_record_db : KVDB :=
  { hash_table_size := 1, key_size := 1, value_size := 1, hash_table_size_bytes := 16,
    num_hash_tables := 1, hash_tables := [44, 0],
    f := ⟨header_bytes 1 1 1 ++ cells_bytes [44, 0] ++ [1], true⟩ }

/-- A sample state with a tombstone: `sample_db` after `delete [10]`. -/
def tombstone_db : KVDB :=
  with_file sample_db ⟨pwrite sample_db.f.data 44 [0], true⟩

/-- A sample state with two pages: `sample_db` after `put [11] [2]`. -/
def two_page_db : KVDB := grown_handle sample_db [11] [2]

/-- The loop of `_kvdb_put` looking for `key` leaves page `j` for the next
page: the slot is filled, its offset can be sought, the status byte is not 0
and the key field differs from `key`. -/
def Passes (db : KVDB) (key : List Byte) (j : Nat) : Prop :=
  slot_off db key j ≠ 0 ∧ slot_off db key j ≤ OFF_MAX ∧
    rec_status db.f.data (slot_off db key j) ≠ 0 ∧
    rec_key db.f.data db.key_size (slot_off db key j) ≠ key

instance (db : KVDB) (key : List Byte) (j : Nat) : Decidable (Passes db key j) := by
  unfold Passes; infer_instance

/-- A handle of two pages: the record of page 0 (key `[10]`) is whole, the
record of page 1 is cut off after its status byte. -/
def cut_tail_db : KVDB :=
  { hash_table_size := 1, key_size := 1, value_size := 1, hash_table_size_bytes := 16,
    num_hash_tables := 2, hash_tables := [44, 47, 63, 0],
    f := ⟨header_bytes 1 1 1 ++ cells_bytes [44, 47] ++ [1, 10, 1]
      ++ cells_bytes [63, 0] ++ [1], true⟩ }

/-! ## Bytes and file ranges -/

theorem getElem?_fslice (d : List Byte) (a m x : Nat) :
    (fslice d a m)[x]? = if x < m then d[a + x]? else none := by
  unfold fslice
  rw [List.getElem?_take]
  split
  · rw [List.getElem?_drop]
  · rfl

theorem length_fslice (d : List Byte) (a m : Nat) :
    (fslice d a m).length = min m (d.length - a) := by
  unfold fslice; simp

theorem length_fslice_of_le {d : List Byte} {a m : Nat} (h : a + m ≤ d.length) :
    (fslice d a m).length = m := by
  rw [length_fslice]; omega

theorem length_pwrite (d : List Byte) (pos : Nat) (bs : List Byte) :
    (pwrite d pos bs).length = max d.length (pos + bs.length) := by
  unfold pwrite; simp; omega

theorem getElem?_pwrite {d : List Byte} {pos : Nat} (bs : List Byte) (h : pos ≤ d.length)
    (x : Nat) :
    (pwrite d pos bs)[x]? =
      if x < pos then d[x]? else if x < pos + bs.length then bs[x - pos]? else d[x]? := by
  unfold pwrite
  have h0 : pos - d.length = 0 := by omega
  simp only [h0, List.replicate_zero, List.append_nil]
  by_cases h1 : x < pos
  · simp only [h1, if_true]
    rw [List.append_assoc, List.getElem?_append_left (by simp; omega)]
    rw [List.getElem?_take]; simp [h1]
  · simp only [h1, if_false]
    rw [List.append_assoc, List.getElem?_append_right (by simp; omega)]
    have h2 : (List.take pos d).length = pos := by simp; omega
    rw [h2]
    by_cases h3 : x < pos + bs.length
    · simp only [h3, if_true]
      rw [List.getElem?_append_left (by omega)]
    · simp only [h3, if_false]
      rw [List.getElem?_append_right (by omega), List.getElem?_drop]
      congr 1; omega

theorem fslice_pwrite_disjoint {d : List Byte} {pos : Nat} (bs : List Byte) (h : pos ≤ d.length)
    {a m : Nat} (hd : a + m ≤ pos ∨ pos + bs.length ≤ a) :
    fslice (pwrite d pos bs) a m = fslice d a m := by
  apply List.ext_getElem?
  intro x
  rw [getElem?_fslice, getElem?_fslice]
  split
  · rw [getElem?_pwrite bs h]
    rcases hd with hd | hd
    · rw [if_pos (by omega)]
    · rw [if_neg (by omega), if_neg (by omega)]
  · rfl

theorem fslice_pwrite_same {d : List Byte} {pos : Nat} (bs : List Byte) (h : pos ≤ d.length) :
    fslice (pwrite d pos bs) pos bs.length = bs := by
  apply List.ext_getElem?
  intro x
  rw [getElem?_fslice]
  split
  · rw [getElem?_pwrite bs h, if_neg (by omega), if_pos (by omega)]
    congr 1; omega
  · rw [List.getElem?_eq_none (by omega)]

theorem pwrite_end (d bs : List Byte) : pwrite d d.length bs = d ++ bs := by
  unfold pwrite; simp

theorem fslice_append_left {d : List Byte} (e : List Byte) {a m : Nat} (h : a + m ≤ d.length) :
    fslice (d ++ e) a m = fslice d a m := by
  apply List.ext_getElem?
  intro x
  rw [getElem?_fslice, getElem?_fslice]
  split
  · rw [List.getElem?_append_left (by omega)]
  · rfl

theorem fslice_append_right (d e : List Byte) (x m : Nat) :
    fslice (d ++ e) (d.length + x) m = fslice e x m := by
  apply List.ext_getElem?
  intro y
  rw [getElem?_fslice, getElem?_fslice]
  split
  · rw [List.getElem?_append_right (by omega)]
    congr 1; omega
  · rfl

theorem fslice_fslice (d : List Byte) (a m x y : Nat) (h : x + y ≤ m) :
    fslice (fslice d a m) x y = fslice d (a + x) y := by
  apply List.ext_getElem?
  intro z
  simp only [getElem?_fslice]
  by_cases hz : z < y
  · rw [if_pos hz, if_pos hz, if_pos (by omega)]
    congr 1; omega
  · rw [if_neg hz, if_neg hz]

theorem fslice_full (d : List Byte) : fslice d 0 d.length = d := by
  unfold fslice; simp

theorem fslice_add (d : List Byte) (a m1 m2 : Nat) :
    fslice d a (m1 + m2) = fslice d a m1 ++ fslice d (a + m1) m2 := by
  unfold fslice
  rw [List.take_add, List.drop_drop]

/-- Reading a sub-range of a range whose content is known. -/
theorem fslice_of_eq {d : List Byte} {a m : Nat} {xs : List Byte} (h : fslice d a m = xs)
    (x y : Nat) (hxy : x + y ≤ m) : fslice d (a + x) y = fslice xs x y := by
  rw [← h, fslice_fslice d a m x y hxy]

theorem length_le_bytes (n x : Nat) : (le_bytes n x).length = n := by
  induction n generalizing x with
  | zero => rfl
  | succ n ih => simp [le_bytes, ih]

theorem length_u64_bytes (x : Nat) : (u64_bytes x).length = 8 := length_le_bytes 8 x

theorem le_value_le_bytes (n x : Nat) : le_value (le_bytes n x) = x % 256 ^ n := by
  induction n generalizing x with
  | zero => simp [le_bytes, le_value, Nat.mod_one]
  | succ n ih =>
    simp only [le_bytes, le_value, ih]
    rw [pow_succ', Nat.mod_mul]
    simp [Fin.ofNat]

theorem le_value_u64_bytes {x : Nat} (h : x < U64) : le_value (u64_bytes x) = x := by
  unfold u64_bytes
  rw [le_value_le_bytes]
  exact Nat.mod_eq_of_lt (by unfold U64 at h; omega)

theorem pwrite_prefix (p r bs : List Byte) :
    pwrite (p ++ r) p.length bs = p ++ bs ++ r.drop bs.length := by
  unfold pwrite
  simp [List.take_append_eq_append_take, List.drop_append_eq_append_drop]

/-! ## `KVDB_open` -/

theorem load_pages_code (mem : Nat) (db : KVDB) (pos : Nat) (r : Int × KVDB)
    (h : load_pages mem db pos = .ret r) :
    r.1 = 0 ∨ r.1 = KVDB_ERROR_MALLOC ∨ r.1 = KVDB_ERROR_IO := by
  induction mem generalizing db pos with
  | zero =>
    unfold load_pages at h
    split at h
    · cases h; simp
    · cases h; simp
  | succ mem ih =>
    unfold load_pages at h
    split at h
    · cases h; simp
    · split at h
      · cases h
      · simp only at h
        split at h
        · split at h
          · exact ih _ _ h
          · cases h; simp
        · cases h; simp

theorem open_finish_code (f : FILE) (S K V mem : Nat) (r : Int × KVDB)
    (h : open_finish f S K V mem = .ret r) :
    r.1 = 0 ∨ r.1 = KVDB_ERROR_MALLOC ∨ r.1 = KVDB_ERROR_IO := by
  unfold open_finish at h
  simp only at h
  split at h
  · cases h; simp
  · exact load_pages_code _ _ _ _ h

theorem ret_code_open_finish_ne (f : FILE) (S K V mem : Nat) (c : Int)
    (hc : c ≠ 0) (hc1 : c ≠ KVDB_ERROR_MALLOC) (hc2 : c ≠ KVDB_ERROR_IO) :
    ret_code (open_finish f S K V mem) ≠ some c := by
  intro h
  cases hr : open_finish f S K V mem with
  | ret r =>
    rw [hr] at h
    simp only [ret_code, Option.some.injEq] at h
    rcases open_finish_code f S K V mem r hr with h1 | h1 | h1 <;> rw [h1] at h <;> simp_all
  | hang => rw [hr] at h; simp [ret_code] at h
  | ub => rw [hr] at h; simp [ret_code] at h

theorem getD_fslice_zero (d : List Byte) (m x : Nat) (h : x < m) :
    (fslice d 0 m).getD x 0 = d.getD x 0 := by
  simp only [List.getD_eq_getElem?_getD, getElem?_fslice, if_pos h, Nat.zero_add]

/-- What `KVDB_open` does on a stream that holds at least a header. -/
theorem open_long (file : Option (List Byte)) (mode : Int) (S K V mem : Nat) (f : FILE)
    (hf : KVDB_fopen file mode = some f) (hlen : 28 ≤ f.data.length) :
    KVDB_open file mode S K V mem =
      if header_bad f.data then .ret (KVDB_ERROR_CORRUPT_KVDBFILE, failed_handle f)
      else open_finish f (le_value (fslice f.data 4 8)) (le_value (fslice f.data 12 8))
        (le_value (fslice f.data 20 8)) mem := by
  unfold KVDB_open
  rw [hf]
  simp only [KVDB_HEADER_SIZE]
  rw [if_neg (by omega)]
  have r0 : fread_item f 0 4 = some (fslice f.data 0 4) := by
    unfold fread_item; rw [if_pos (by omega)]
  have r1 : fread_item f 4 8 = some (fslice f.data 4 8) := by
    unfold fread_item; rw [if_pos (by omega)]
  have r2 : fread_item f 12 8 = some (fslice f.data 12 8) := by
    unfold fread_item; rw [if_pos (by omega)]
  have r3 : fread_item f 20 8 = some (fslice f.data 20 8) := by
    unfold fread_item; rw [if_pos (by omega)]
  simp only [r0, r1, r2, r3, getD_fslice_zero f.data 4 0 (by omega),
    getD_fslice_zero f.data 4 1 (by omega), getD_fslice_zero f.data 4 2 (by omega),
    getD_fslice_zero f.data 4 3 (by omega)]
  have hv : (Fin.ofNat KVDB_VERSION : Fin 256) = 1 := by decide
  rw [hv]
  unfold header_bad
  by_cases h0 : f.data.getD 0 0 ≠ 75 ∨ f.data.getD 1 0 ≠ 86 ∨ f.data.getD 2 0 ≠ 66 ∨ f.data.getD 3 0 ≠ 1
  · rw [if_pos h0, if_pos (by tauto)]
  · rw [if_neg h0]
    by_cases h1 : le_value (fslice f.data 4 8) = 0
    · rw [if_pos h1, if_pos (by tauto)]
    · rw [if_neg h1]
      by_cases h2 : le_value (fslice f.data 12 8) = 0
      · rw [if_pos h2, if_pos (by tauto)]
      · rw [if_neg h2]
        by_cases h3 : le_value (fslice f.data 20 8) = 0
        · rw [if_pos h3, if_pos (by tauto)]
        · rw [if_neg h3, if_neg (by tauto)]

/-- On every opened stream of at least 28 bytes, `KVDB_open` returns the
corruption code -4 exactly when a magic byte or the version byte is wrong or
one of the three geometry integers is zero. -/
theorem open_corrupt_stream (file : Option (List Byte)) (mode : Int) (S K V mem : Nat)
    (f : FILE) (hf : KVDB_fopen file mode = some f) (hlen : 28 ≤ f.data.length) :
    ret_code (KVDB_open file mode S K V mem) = some KVDB_ERROR_CORRUPT_KVDBFILE ↔
      header_bad f.data := by
  rw [open_long file mode S K V mem f hf hlen]
  by_cases hb : header_bad f.data
  · rw [if_pos hb]; simp [ret_code, hb]
  · rw [if_neg hb]
    simp only [hb, iff_false]
    exact ret_code_open_finish_ne _ _ _ _ _ _ (by decide) (by decide) (by decide)

theorem pwrite_prefix_of_length {p : List Byte} {n : Nat} (hn : p.length = n)
    (r bs : List Byte) : pwrite (p ++ r) n bs = p ++ bs ++ r.drop bs.length := by
  subst hn; exact pwrite_prefix p r bs

theorem header_write (d b4 s k v : List Byte) (hd : d.length < 28) (h4 : b4.length = 4)
    (hs : s.length = 8) (hk : k.length = 8) (hv : v.length = 8) :
    pwrite (pwrite (pwrite (pwrite d 0 b4) 4 s) 12 k) 20 v = b4 ++ s ++ k ++ v := by
  have e0 : pwrite d 0 b4 = b4 ++ d.drop 4 := by
    have := pwrite_prefix_of_length (p := []) (n := 0) rfl d b4
    simpa [h4] using this
  rw [e0, pwrite_prefix_of_length h4, hs]
  rw [pwrite_prefix_of_length (p := b4 ++ s) (n := 12) (by simp [h4, hs]), hk]
  rw [pwrite_prefix_of_length (p := b4 ++ s ++ k) (n := 20) (by simp [h4, hs, hk]), hv]
  simp only [List.drop_drop]
  rw [List.drop_of_length_le (by omega)]
  simp

theorem off_max_eq : OFF_MAX = 9223372036854775807 := by decide
theorem u64_eq : U64 = 18446744073709551616 := by decide

/-- The handle of a freshly created database. -/
theorem load_pages_eof (mem : Nat) (db : KVDB) (pos : Nat)
    (h : db.f.data.length ≤ pos) : load_pages mem db pos = .ret (0, db) := by
  have hr : fread_item db.f pos db.hash_table_size_bytes = none := by
    unfold fread_item
    rw [if_neg (by omega)]
  cases mem <;> simp [load_pages, hr]

/-- What `KVDB_open` does on a stream shorter than a header. -/
theorem open_short (file : Option (List Byte)) (mode : Int) (S K V mem : Nat) (f : FILE)
    (hf : KVDB_fopen file mode = some f) (hlen : f.data.length < 28) :
    KVDB_open file mode S K V mem =
      if S ≠ 0 ∧ K ≠ 0 ∧ V ≠ 0 then
        if f.writable = true then
          if PTRDIFF_MAX < (8 * ((S + 1) % U64)) % U64 then
            .ret (KVDB_ERROR_MALLOC, fresh_handle S K V)
          else .ret (0, fresh_handle S K V)
        else .ret ( KVDB_ERROR_IO, failed_handle f)
      else .ret (KVDB_ERROR_INVALID_PARAMETERS, failed_handle f) := by
  unfold KVDB_open
  rw [hf]
  simp only [KVDB_HEADER_SIZE]
  rw [if_pos (by omega)]
  by_cases hp : S ≠ 0 ∧ K ≠ 0 ∧ V ≠ 0
  · rw [if_pos hp, if_pos hp]
    by_cases hw : f.writable = true
    · rw [if_pos hw]
      simp only [fwrite_item, hw, off_max_eq, true_and]
      simp only [Nat.lt_irrefl, Nat.zero_lt_succ, Nat.reduceAdd, Nat.reduceLeDiff, and_self,
        if_true, Nat.reduceLT]
      rw [List.take_of_length_le (l := u64_bytes S) (by rw [length_u64_bytes]),
        List.take_of_length_le (l := u64_bytes K) (by rw [length_u64_bytes]),
        List.take_of_length_le (l := u64_bytes V) (by rw [length_u64_bytes])]
      simp only [List.take]
      rw [header_write f.data [75, 86, 66, Fin.ofNat KVDB_VERSION] _ _ _ hlen rfl
        (length_u64_bytes S) (length_u64_bytes K) (length_u64_bytes V)]
      unfold open_finish
      simp only
      split
      · rfl
      · rw [load_pages_eof]
        · rfl
        · simp [length_u64_bytes, KVDB_HEADER_SIZE]
    · rw [if_neg hw]
      simp [fwrite_item, hw]
  · rw [if_neg hp, if_neg hp]

theorem fslice_mid {p x : List Byte} (r : List Byte) {a m : Nat} (ha : p.length = a)
    (hm : x.length = m) : fslice (p ++ x ++ r) a m = x := by
  subst ha hm
  unfold fslice
  simp

theorem length_header_bytes (S K V : Nat) : (header_bytes S K V).length = 28 := by
  simp [header_bytes, length_u64_bytes]

theorem header_bytes_S (S K V : Nat) : fslice (header_bytes S K V) 4 8 = u64_bytes S := by
  unfold header_bytes
  rw [List.append_assoc]
  exact fslice_mid _ rfl (length_u64_bytes S)

theorem header_bytes_K (S K V : Nat) : fslice (header_bytes S K V) 12 8 = u64_bytes K := by
  unfold header_bytes
  exact fslice_mid _ (by simp [length_u64_bytes]) (length_u64_bytes K)

theorem header_bytes_V (S K V : Nat) : fslice (header_bytes S K V) 20 8 = u64_bytes V := by
  unfold header_bytes
  have := fslice_mid (p := [75, 86, 66, 1] ++ u64_bytes S ++ u64_bytes K) (x := u64_bytes V) []
    (a := 20) (m := 8) (by simp [length_u64_bytes]) (length_u64_bytes V)
  simpa using this

theorem header_bytes_good {S K V : Nat} (hS : S ≠ 0) (hK : K ≠ 0) (hV : V ≠ 0)
    (hS1 : S < U64) (hK1 : K < U64) (hV1 : V < U64) : ¬ header_bad (header_bytes S K V) := by
  unfold header_bad
  rw [header_bytes_S, header_bytes_K, header_bytes_V, le_value_u64_bytes hS1,
    le_value_u64_bytes hK1, le_value_u64_bytes hV1]
  have e0 : (header_bytes S K V).getD 0 0 = 75 := rfl
  have e1 : (header_bytes S K V).getD 1 0 = 86 := rfl
  have e2 : (header_bytes S K V).getD 2 0 = 66 := rfl
  have e3 : (header_bytes S K V).getD 3 0 = 1 := rfl
  rw [e0, e1, e2, e3]
  simp [hS, hK, hV]

theorem fopen_data {d : List Byte} {mode : Int} {f : FILE}
    (h : KVDB_fopen (some d) mode = some f) : f.data = d ∨ f.data = [] := by
  unfold KVDB_fopen at h
  split at h
  · cases h; simp
  · split at h
    · cases h; simp
    · cases h; simp

/-- Reopening a stream that holds exactly the header of geometry `S`, `K`, `V`. -/
theorem open_header_only {S K V : Nat} (hS : S ≠ 0) (hK : K ≠ 0) (hV : V ≠ 0)
    (hS1 : S < U64) (hK1 : K < U64) (hV1 : V < U64)
    (hP : (8 * ((S + 1) % U64)) % U64 ≤ PTRDIFF_MAX) (mode : Int) (S1 K1 V1 mem : Nat)
    (f : FILE) (hf : KVDB_fopen (some (header_bytes S K V)) mode = some f)
    (hlen : 28 ≤ f.data.length) :
    KVDB_open (some (header_bytes S K V)) mode S1 K1 V1 mem =
      .ret (0, { fresh_handle S K V with f := f }) := by
  have hd : f.data = header_bytes S K V := by
    rcases fopen_data hf with h | h
    · exact h
    · rw [h] at hlen; simp at hlen
  rw [open_long _ mode S1 K1 V1 mem f hf hlen, hd,
    if_neg (header_bytes_good hS hK hV hS1 hK1 hV1), header_bytes_S, header_bytes_K,
    header_bytes_V, le_value_u64_bytes hS1, le_value_u64_bytes hK1, le_value_u64_bytes hV1]
  unfold open_finish
  simp only
  rw [if_neg (by omega), load_pages_eof]
  · rfl
  · simp [hd, length_header_bytes, KVDB_HEADER_SIZE]

/-- The stream `KVDB_open` works on when the file exists and the mode is not
the truncating RWREPLACE: it holds the bytes of the file. -/
theorem fopen_keep (d : List Byte) (mode : Int) (hm : mode ≠ KVDB_OPEN_MODE_RWREPLACE) :
    ∃ w, KVDB_fopen (some d) mode = some ⟨d, w⟩ := by
  unfold KVDB_fopen
  rw [if_neg hm]
  split
  · exact ⟨true, rfl⟩
  · exact ⟨false, rfl⟩

/-- C8 (amended). For every file of at least 28 bytes opened in a mode other
than RWREPLACE, `KVDB_open` returns the corruption code -4 exactly when one of
bytes 0..2 differs from `K`, `V`, `B`, or byte 3 differs from the version 1,
or one of the three 8-byte geometry integers at bytes 4..27 is zero.  In mode
RWREPLACE the file is truncated before its size is looked at, and `KVDB_open`
does not return the corruption code whatever the file held. -/
theorem open_corrupt_iff (d : List Byte) (mode : Int) (S K V mem : Nat)
    (hlen : 28 ≤ d.length) :
    (mode ≠ KVDB_OPEN_MODE_RWREPLACE →
      (ret_code (KVDB_open (some d) mode S K V mem) = some KVDB_ERROR_CORRUPT_KVDBFILE ↔
        (d.getD 0 0 ≠ 75 ∨ d.getD 1 0 ≠ 86 ∨ d.getD 2 0 ≠ 66 ∨ d.getD 3 0 ≠ 1 ∨
          le_value (fslice d 4 8) = 0 ∨ le_value (fslice d 12 8) = 0 ∨
          le_value (fslice d 20 8) = 0))) ∧
    (mode = KVDB_OPEN_MODE_RWREPLACE →
      ret_code (KVDB_open (some d) mode S K V mem) ≠ some KVDB_ERROR_CORRUPT_KVDBFILE) := by
  constructor
  · intro hm
    obtain ⟨w, hf⟩ := fopen_keep d mode hm
    have := open_corrupt_stream (some d) mode S K V mem ⟨d, w⟩ hf hlen
    rw [this]
    unfold header_bad
    tauto
  · intro hm
    subst hm
    rw [open_short (some d) KVDB_OPEN_MODE_RWREPLACE S K V mem ⟨[], true⟩
      (by unfold KVDB_fopen; rw [if_pos rfl]) (by decide)]
    split
    · rw [if_pos rfl]
      split <;> simp [ret_code, KVDB_ERROR_MALLOC, KVDB_ERROR_CORRUPT_KVDBFILE]
    · simp [ret_code, KVDB_ERROR_INVALID_PARAMETERS, KVDB_ERROR_CORRUPT_KVDBFILE]

/-- C9 (amended). On every opened stream shorter than 28 bytes, `KVDB_open`
returns INVALID_PARAMETERS (-3) exactly when one of the three geometry
arguments is zero.  When all three are non-zero it does not return
INVALID_PARAMETERS; on a writable stream it writes the 28-byte header at
offset 0, so that the file holds exactly the header when the call returns; on
a read-only stream the header write fails, the file keeps its bytes and the
I/O code -1 is returned. -/
theorem open_short_params (file : Option (List Byte)) (mode : Int) (S K V mem : Nat) (f : FILE)
    (hf : KVDB_fopen file mode = some f) (hlen : f.data.length < 28) :
    (ret_code (KVDB_open file mode S K V mem) = some KVDB_ERROR_INVALID_PARAMETERS ↔
      (S = 0 ∨ K = 0 ∨ V = 0)) ∧
    (S ≠ 0 → K ≠ 0 → V ≠ 0 →
      ret_code (KVDB_open file mode S K V mem) ≠ some KVDB_ERROR_INVALID_PARAMETERS ∧
      (f.writable = true → ∃ c db, KVDB_open file mode S K V mem = .ret (c, db) ∧
        db.f.data = [75, 86, 66, 1] ++ u64_bytes S ++ u64_bytes K ++ u64_bytes V) ∧
      (f.writable = false →
        KVDB_open file mode S K V mem = .ret ( KVDB_ERROR_IO, failed_handle f) ∧
        (failed_handle f).f.data = f.data)) := by
  rw [open_short file mode S K V mem f hf hlen]
  have key : S ≠ 0 ∧ K ≠ 0 ∧ V ≠ 0 →
      ret_code (if f.writable = true then
          if PTRDIFF_MAX < (8 * ((S + 1) % U64)) % U64 then
            Outcome.ret (KVDB_ERROR_MALLOC, fresh_handle S K V)
          else .ret (0, fresh_handle S K V)
        else .ret ( KVDB_ERROR_IO, failed_handle f)) ≠ some KVDB_ERROR_INVALID_PARAMETERS := by
    intro _
    split
    · split <;> simp [ret_code, KVDB_ERROR_INVALID_PARAMETERS, KVDB_ERROR_MALLOC]
    · simp [ret_code, KVDB_ERROR_INVALID_PARAMETERS, KVDB_ERROR_IO]
  constructor
  · by_cases hp : S ≠ 0 ∧ K ≠ 0 ∧ V ≠ 0
    · rw [if_pos hp]
      have hn : ¬ (S = 0 ∨ K = 0 ∨ V = 0) := by tauto
      simp only [hn, iff_false]
      exact key hp
    · rw [if_neg hp]
      have hn : S = 0 ∨ K = 0 ∨ V = 0 := by tauto
      simp [ret_code, hn]
  · intro hS hK hV
    rw [if_pos ⟨hS, hK, hV⟩]
    refine ⟨key ⟨hS, hK, hV⟩, ?_, ?_⟩
    · intro hw
      rw [if_pos hw]
      split
      · exact ⟨_, _, rfl, rfl⟩
      · exact ⟨_, _, rfl, rfl⟩
    · intro hw
      rw [if_neg (by simp [hw])]
      exact ⟨rfl, rfl⟩

/-- After `KVDB_open` has created the header on an empty file with non-zero
geometry `S`, `K`, `V` whose page byte count `8 * (S + 1)` the allocator can
provide, a later `KVDB_open` whose stream holds that file returns 0 whatever
geometry the caller passes, and sets `hash_table_size`, `key_size`,
`value_size` to `S`, `K`, `V` and `hash_table_size_bytes` to `8 * (S + 1)`. -/
theorem reopen_header_in_range (S K V : Nat) (hS : S ≠ 0) (hK : K ≠ 0) (hV : V ≠ 0)
    (hS1 : S + 1 < 2 ^ 60) (hK1 : K < U64) (hV1 : V < U64)
    (file0 : Option (List Byte)) (mode0 : Int) (mem0 : Nat) (f0 : FILE) (db0 : KVDB)
    (hf0 : KVDB_fopen file0 mode0 = some f0) (he : f0.data = [])
    (h0 : KVDB_open file0 mode0 S K V mem0 = .ret (0, db0))
    (mode : Int) (S1 K1 V1 mem : Nat) (f : FILE)
    (hf : KVDB_fopen (some db0.f.data) mode = some f) (hlen : 28 ≤ f.data.length) :
    ∃ db, KVDB_open (some db0.f.data) mode S1 K1 V1 mem = .ret (0, db) ∧
      db.hash_table_size = S ∧ db.key_size = K ∧ db.value_size = V ∧
      db.hash_table_size_bytes = 8 * (S + 1) := by
  have hSU : S < U64 := by rw [u64_eq]; omega
  have hP : (8 * ((S + 1) % U64)) % U64 ≤ PTRDIFF_MAX := by
    have : PTRDIFF_MAX = 9223372036854775807 := by decide
    rw [this, u64_eq]; omega
  rw [open_short file0 mode0 S K V mem0 f0 hf0 (by rw [he]; simp), if_pos ⟨hS, hK, hV⟩] at h0
  have hdb0 : db0 = fresh_handle S K V := by
    by_cases hw : f0.writable = true
    · rw [if_pos hw, if_neg (by omega)] at h0
      injection h0 with h0
      injection h0 with _ h0
      exact h0.symm
    · rw [if_neg hw] at h0
      injection h0 with h0
      injection h0 with h0 _
      simp [ KVDB_ERROR_IO] at h0
  subst hdb0
  have hd : (fresh_handle S K V).f.data = header_bytes S K V := rfl
  rw [hd] at hf ⊢
  refine ⟨_, open_header_only hS hK hV hSU hK1 hV1 hP mode S1 K1 V1 mem f hf hlen, rfl, rfl, rfl,
    ?_⟩
  show (8 * ((S + 1) % U64)) % U64 = _
  rw [u64_eq]; omega

theorem open_corrupt_iff_witness :
    28 ≤ (header_bytes 1 1 0).length ∧
      (ret_code (KVDB_open (some (header_bytes 1 1 0)) KVDB_OPEN_MODE_RDONLY 0 0 0 0)
          = some KVDB_ERROR_CORRUPT_KVDBFILE ↔
        ((header_bytes 1 1 0).getD 0 0 ≠ 75 ∨ (header_bytes 1 1 0).getD 1 0 ≠ 86 ∨
          (header_bytes 1 1 0).getD 2 0 ≠ 66 ∨ (header_bytes 1 1 0).getD 3 0 ≠ 1 ∨
          le_value (fslice (header_bytes 1 1 0) 4 8) = 0 ∨
          le_value (fslice (header_bytes 1 1 0) 12 8) = 0 ∨
          le_value (fslice (header_bytes 1 1 0) 20 8) = 0)) ∧
      ret_code (KVDB_open (some (header_bytes 1 1 0)) KVDB_OPEN_MODE_RDONLY 0 0 0 0)
        = some KVDB_ERROR_CORRUPT_KVDBFILE :=
  ⟨by decide,
    (open_corrupt_iff (header_bytes 1 1 0) KVDB_OPEN_MODE_RDONLY 0 0 0 0 (by decide)).1
      (by decide),
    by decide⟩

/-- C8, counterexample: a file of 28 bytes whose first byte is not `K`, opened
in mode RWREPLACE.  With non-zero geometry the call returns 0 and leaves a
fresh header; with zero geometry it returns INVALID_PARAMETERS; in neither
case the corruption code. -/
theorem open_replace_counterexample :
    28 ≤ ((header_bytes 1 1 1).set 0 88).length ∧
      ((header_bytes 1 1 1).set 0 88).getD 0 0 ≠ 75 ∧
      KVDB_open (some ((header_bytes 1 1 1).set 0 88)) KVDB_OPEN_MODE_RWREPLACE 1 1 1 0
        = .ret (0, fresh_handle 1 1 1) ∧
      KVDB_open (some ((header_bytes 1 1 1).set 0 88)) KVDB_OPEN_MODE_RWREPLACE 0 0 0 0
        = .ret (KVDB_ERROR_INVALID_PARAMETERS, failed_handle ⟨[], true⟩) := by
  decide

theorem open_short_params_witness :
    KVDB_fopen none KVDB_OPEN_MODE_RWCREAT = some ⟨[], true⟩ ∧
      ∃ c db, KVDB_open none KVDB_OPEN_MODE_RWCREAT 16 8 8 0 = .ret (c, db) ∧
        db.f.data = [75, 86, 66, 1] ++ u64_bytes 16 ++ u64_bytes 8 ++ u64_bytes 8 :=
  ⟨by decide,
    ((open_short_params none KVDB_OPEN_MODE_RWCREAT 16 8 8 0 ⟨[], true⟩ (by decide)
      (by decide)).2 (by decide) (by decide) (by decide)).2.1 rfl⟩

/-- C9, counterexample: an existing empty file opened read-only with non-zero
geometry; the stream is shorter than 28 bytes and all three arguments are
non-zero, yet no header is written: the call returns the I/O code and the
file stays empty. -/
theorem open_short_rdonly_counterexample :
    KVDB_fopen (some []) KVDB_OPEN_MODE_RDONLY = some ⟨[], false⟩ ∧
      KVDB_open (some []) KVDB_OPEN_MODE_RDONLY 1 1 1 0
        = .ret ( KVDB_ERROR_IO, failed_handle ⟨[], false⟩) ∧
      (failed_handle ⟨[], false⟩).f.data = [] ∧
      (failed_handle ⟨[], false⟩).f.data ≠ header_bytes 1 1 1 := by
  decide

/-- C10, failing run: a database created with `S = 2 ^ 61`, `K = V = 1` and
reopened.  Both calls return 0 and the reopened handle has
`hash_table_size = 2 ^ 61` but `hash_table_size_bytes = 8`, not `8 * (S + 1)`:
the product of line 138 has wrapped.  The first put on the handle then writes
its slot outside the page of one cell it allocates. -/
theorem reopen_page_size_wraps :
    KVDB_open none KVDB_OPEN_MODE_RWCREAT (2 ^ 61) 1 1 0
        = .ret (0, fresh_handle (2 ^ 61) 1 1) ∧
      KVDB_open (some (fresh_handle (2 ^ 61) 1 1).f.data) KVDB_OPEN_MODE_RDWR 0 0 0 0
        = .ret (0, fresh_handle (2 ^ 61) 1 1) ∧
      (fresh_handle (2 ^ 61) 1 1).hash_table_size = 2 ^ 61 ∧
      (fresh_handle (2 ^ 61) 1 1).hash_table_size_bytes = 8 ∧
      (fresh_handle (2 ^ 61) 1 1).hash_table_size_bytes ≠ 8 * (2 ^ 61 + 1) ∧
      KVDB_put (fresh_handle (2 ^ 61) 1 1) [10] [1] = .ub := by
  decide

/-! ## The page array -/

theorem idx_lt {j n W c : Nat} (hj : j < n) (hc : c < W) : j * W + c < n * W := by
  have h1 : (j + 1) * W ≤ n * W := Nat.mul_le_mul_right W hj
  rw [Nat.add_mul, Nat.one_mul] at h1
  omega

theorem idx_inj {i j W c h : Nat} (hc : c < W) (hh : h < W) (e : j * W + c = i * W + h) :
    j = i ∧ c = h := by
  have hW : 0 < W := by omega
  have h1 : (j * W + c) / W = j := by
    rw [Nat.add_comm, Nat.add_mul_div_right _ _ hW, Nat.div_eq_of_lt hc, Nat.zero_add]
  have h2 : (i * W + h) / W = i := by
    rw [Nat.add_comm, Nat.add_mul_div_right _ _ hW, Nat.div_eq_of_lt hh, Nat.zero_add]
  have hji : j = i := by rw [← h1, ← h2, e]
  subst hji
  exact ⟨rfl, by omega⟩

theorem cell_at_set {ht : List Nat} {S i h : Nat} (v : Nat) (j c : Nat) (hh : h ≤ S) (hc : c ≤ S)
    (hi : i * (S + 1) + h < ht.length) :
    cell_at (ht.set (i * (S + 1) + h) v) S j c =
      if j = i ∧ c = h then v else cell_at ht S j c := by
  unfold cell_at
  rw [List.getD_eq_getElem?_getD, List.getD_eq_getElem?_getD, List.getElem?_set]
  by_cases e : j = i ∧ c = h
  · rw [if_pos e]
    obtain ⟨e1, e2⟩ := e
    subst e1 e2
    simp [hi]
  · rw [if_neg e, if_neg]
    intro e1
    exact e (idx_inj (by omega) (by omega) e1.symm)

theorem cell_at_append_left {ht : List Nat} {S n : Nat} (page : List Nat) (j c : Nat)
    (hlen : ht.length = n * (S + 1)) (hj : j < n) (hc : c ≤ S) :
    cell_at (ht ++ page) S j c = cell_at ht S j c := by
  unfold cell_at
  have : j * (S + 1) + c < ht.length := by rw [hlen]; exact idx_lt hj (by omega)
  rw [List.getD_eq_getElem?_getD, List.getD_eq_getElem?_getD, List.getElem?_append_left this]

theorem cell_at_append_right {ht : List Nat} {S n : Nat} (page : List Nat) (c : Nat)
    (hlen : ht.length = n * (S + 1)) :
    cell_at (ht ++ page) S n c = page.getD c 0 := by
  unfold cell_at
  rw [List.getD_eq_getElem?_getD, List.getD_eq_getElem?_getD,
    List.getElem?_append_right (by omega)]
  congr 2; omega

/-! ## Writes that keep the layout -/

/-- A write inside the record of a filled slot keeps the layout. -/
theorem Layout.write_record {S K V n : Nat} {ht : List Nat} {d : List Byte}
    (L : Layout S K V n ht d) {i h : Nat} (hi : i < n) (hh : h < S)
    (ho : cell_at ht S i h ≠ 0) {pos : Nat} {bs : List Byte}
    (h1 : cell_at ht S i h ≤ pos) (h2 : pos + bs.length ≤ cell_at ht S i h + (1 + K + V))
    (hst : fslice (pwrite d pos bs) (cell_at ht S i h) 1 = [0] ∨
      fslice (pwrite d pos bs) (cell_at ht S i h) 1 = [1]) :
    Layout S K V n ht (pwrite d pos bs) := by
  have hin := L.slot_in i h hi hh ho
  have hpos : pos ≤ d.length := by omega
  have hlen : (pwrite d pos bs).length = d.length := by rw [length_pwrite]; omega
  refine
    { ht_len := L.ht_len
      len_max := by rw [hlen]; exact L.len_max
      len_min := by rw [hlen]; exact L.len_min
      header := ?_
      empty_len := by rw [hlen]; exact L.empty_len
      page_in := by rw [hlen]; exact L.page_in
      page_disk := ?_
      last_next := L.last_next
      page_mono := L.page_mono
      slot_in := by rw [hlen]; exact L.slot_in
      slot_status := ?_
      slot_page := L.slot_page
      slot_slot := L.slot_slot
      slot_prefix := L.slot_prefix }
  · rw [fslice_pwrite_disjoint bs hpos (Or.inl (by omega))]
    exact L.header
  · intro j c hj hc
    rw [fslice_pwrite_disjoint bs hpos]
    · exact L.page_disk j c hj hc
    · rcases L.slot_page i h j hi hh hj ho with h3 | h3
      · right; omega
      · left; omega
  · intro j g hj hg hjg
    by_cases e : i = j ∧ h = g
    · obtain ⟨e1, e2⟩ := e
      subst e1 e2
      exact hst
    · rw [fslice_pwrite_disjoint bs hpos]
      · exact L.slot_status j g hj hg hjg
      · have hin2 := L.slot_in j g hj hg hjg
        rcases L.slot_slot i h j g hi hh hj hg (by tauto) ho hjg with h3 | h3
        · right; omega
        · left; omega

theorem page_at_set {ht : List Nat} {S i h : Nat} (v : Nat) (hh : h < S)
    (hi : i * (S + 1) + h < ht.length) (j : Nat) :
    page_at (ht.set (i * (S + 1) + h) v) S j = page_at ht S j := by
  cases j with
  | zero => rfl
  | succ j =>
    show cell_at (ht.set (i * (S + 1) + h) v) S j S = cell_at ht S j S
    rw [cell_at_set v j S (by omega) (by omega) hi, if_neg (by omega)]

/-- Appending a record and storing its offset in an empty slot keeps the
layout. -/
theorem Layout.fill_slot {S K V n : Nat} {ht : List Nat} {d : List Byte}
    (L : Layout S K V n ht d) {i h : Nat} (hi : i < n) (hh : h < S)
    (he : cell_at ht S i h = 0) (hpre : ∀ j, j < i → cell_at ht S j h ≠ 0)
    {r : List Byte} (hr : r.length = 1 + K + V) (hst : fslice r 0 1 = [1])
    (hmax : d.length + (1 + K + V) ≤ OFF_MAX) :
    Layout S K V n (ht.set (i * (S + 1) + h) d.length)
      (pwrite (d ++ r) (page_at ht S i + 8 * h) (u64_bytes d.length)) := by
  have hidx : i * (S + 1) + h < ht.length := by rw [L.ht_len]; exact idx_lt hi (by omega)
  have hc : ∀ j c, c ≤ S → cell_at (ht.set (i * (S + 1) + h) d.length) S j c =
      if j = i ∧ c = h then d.length else cell_at ht S j c :=
    fun j c hc => cell_at_set d.length j c (by omega) hc hidx
  have hp : ∀ j, page_at (ht.set (i * (S + 1) + h) d.length) S j = page_at ht S j :=
    page_at_set d.length hh hidx
  have hpi := L.page_in i hi
  have hq : page_at ht S i + 8 * h ≤ (d ++ r).length := by simp; omega
  have hlen : (pwrite (d ++ r) (page_at ht S i + 8 * h) (u64_bytes d.length)).length
      = d.length + (1 + K + V) := by
    rw [length_pwrite, length_u64_bytes]; simp [hr]; omega
  have hmin := L.len_min
  have keep : ∀ a m, a + m ≤ d.length →
      (a + m ≤ page_at ht S i + 8 * h ∨ page_at ht S i + 8 * h + 8 ≤ a) →
      fslice (pwrite (d ++ r) (page_at ht S i + 8 * h) (u64_bytes d.length)) a m
        = fslice d a m := by
    intro a m h1 h2
    rw [fslice_pwrite_disjoint _ hq (by rw [length_u64_bytes]; exact h2),
      fslice_append_left r h1]
  refine
    { ht_len := by rw [List.length_set]; exact L.ht_len
      len_max := by rw [hlen]; exact hmax
      len_min := by rw [hlen]; omega
      header := ?_
      empty_len := by intro h0; omega
      page_in := ?_
      page_disk := ?_
      last_next := ?_
      page_mono := ?_
      slot_in := ?_
      slot_status := ?_
      slot_page := ?_
      slot_slot := ?_
      slot_prefix := ?_ }
  · rw [keep 0 28 (by omega) (Or.inl (by omega))]
    exact L.header
  · intro j hj
    rw [hp, hlen]
    have := L.page_in j hj
    omega
  · intro j c hj hc1
    rw [hp, hc j c hc1]
    by_cases e : j = i ∧ c = h
    · obtain ⟨e1, e2⟩ := e
      subst e1 e2
      rw [if_pos ⟨rfl, rfl⟩]
      have := fslice_pwrite_same (u64_bytes d.length) hq
      rwa [length_u64_bytes] at this
    · rw [if_neg e]
      have hpj := L.page_in j hj
      rw [keep _ _ (by omega)]
      · exact L.page_disk j c hj hc1
      · by_cases e1 : j = i
        · subst e1
          have : c ≠ h := fun e2 => e ⟨rfl, e2⟩
          omega
        · rcases Nat.lt_or_gt_of_ne e1 with e2 | e2
          · have := L.page_mono j i e2 hi
            left; omega
          · have := L.page_mono i j e2 hj
            right; omega
  · intro j hj
    rw [hc j S (by omega), if_neg (by omega)]
    exact L.last_next j hj
  · intro j1 j2 h1 h2
    rw [hp, hp]
    exact L.page_mono j1 j2 h1 h2
  · intro j g hj hg
    rw [hc j g (by omega), hlen]
    by_cases e : j = i ∧ g = h
    · rw [if_pos e]; intro _; omega
    · rw [if_neg e]; intro h0
      have := L.slot_in j g hj hg h0
      omega
  · intro j g hj hg
    rw [hc j g (by omega)]
    by_cases e : j = i ∧ g = h
    · rw [if_pos e]
      intro _
      right
      rw [fslice_pwrite_disjoint _ hq (by rw [length_u64_bytes]; right; omega)]
      have := fslice_append_right d r 0 1
      rw [Nat.add_zero] at this
      rw [this, hst]
    · rw [if_neg e]
      intro h0
      have := L.slot_in j g hj hg h0
      have hpg := L.slot_page j g i hj hg hi h0
      rw [keep _ _ (by omega) (by omega)]
      exact L.slot_status j g hj hg h0
  · intro j g j2 hj hg hj2
    rw [hc j g (by omega), hp]
    have hp2 := L.page_in j2 hj2
    by_cases e : j = i ∧ g = h
    · rw [if_pos e]; intro _; right; omega
    · rw [if_neg e]; exact L.slot_page j g j2 hj hg hj2
  · intro j1 g1 j2 g2 hj1 hg1 hj2 hg2 hne
    rw [hc j1 g1 (by omega), hc j2 g2 (by omega)]
    by_cases e1 : j1 = i ∧ g1 = h
    · rw [if_pos e1]
      by_cases e2 : j2 = i ∧ g2 = h
      · exfalso; omega
      · rw [if_neg e2]
        intro _ h0
        have := L.slot_in j2 g2 hj2 hg2 h0
        right; omega
    · rw [if_neg e1]
      by_cases e2 : j2 = i ∧ g2 = h
      · rw [if_pos e2]
        intro h0 _
        have := L.slot_in j1 g1 hj1 hg1 h0
        left; omega
      · rw [if_neg e2]
        exact L.slot_slot j1 g1 j2 g2 hj1 hg1 hj2 hg2 hne
  · intro j1 j2 g h12 hj2 hg
    rw [hc j1 g (by omega), hc j2 g (by omega)]
    by_cases e2 : j2 = i ∧ g = h
    · rw [if_pos e2, if_neg (by omega)]
      intro _
      obtain ⟨e3, e4⟩ := e2
      subst e3 e4
      exact hpre j1 h12
    · rw [if_neg e2]
      intro h0
      have := L.slot_prefix j1 j2 g h12 hj2 hg h0
      by_cases e1 : j1 = i ∧ g = h
      · rw [if_pos e1]; omega
      · rw [if_neg e1]; exact this

/-- Adding a page whose slot `h` points at a record appended right behind it
keeps the layout.  The hypotheses describe the new page array `ht1` and the
new file bytes `d1`. -/
theorem Layout.grow {S K V n : Nat} {ht : List Nat} {d : List Byte}
    (L : Layout S K V n ht d) {h : Nat} (hh : h < S)
    (hpre : ∀ j, j < n → cell_at ht S j h ≠ 0)
    (hmax : d.length + 8 * (S + 1) + (1 + K + V) ≤ OFF_MAX)
    {ht1 : List Nat} {d1 : List Byte}
    (hlen1 : ht1.length = (n + 1) * (S + 1))
    (hslot : ∀ j c, j < n → c < S → cell_at ht1 S j c = cell_at ht S j c)
    (hpage : ∀ j, j < n → page_at ht1 S j = page_at ht S j)
    (hpn : page_at ht1 S n = d.length)
    (hnew : ∀ c, c ≤ S → cell_at ht1 S n c = if c = h then d.length + 8 * (S + 1) else 0)
    (hdlen : d1.length = d.length + 8 * (S + 1) + (1 + K + V))
    (hdisk : ∀ j c, j < n → c ≤ S →
      fslice d1 (page_at ht S j + 8 * c) 8 = u64_bytes (cell_at ht1 S j c))
    (hkeep : ∀ a m, a + m ≤ d.length →
      (∀ j, j < n → a + m ≤ page_at ht S j ∨ page_at ht S j + 8 * (S + 1) ≤ a) →
      fslice d1 a m = fslice d a m)
    (hndisk : ∀ c, c ≤ S → fslice d1 (d.length + 8 * c) 8 = u64_bytes (cell_at ht1 S n c))
    (hst : fslice d1 (d.length + 8 * (S + 1)) 1 = [1]) :
    Layout S K V (n + 1) ht1 d1 := by
  have hmin := L.len_min
  have hpage1 : ∀ j, j < n + 1 → page_at ht1 S j = if j = n then d.length else page_at ht S j := by
    intro j hj
    by_cases e : j = n
    · rw [if_pos e, e, hpn]
    · rw [if_neg e, hpage j (by omega)]
  have hslot1 : ∀ j c, j < n + 1 → c < S → cell_at ht1 S j c =
      if j = n then (if c = h then d.length + 8 * (S + 1) else 0) else cell_at ht S j c := by
    intro j c hj hc
    by_cases e : j = n
    · rw [if_pos e, e, hnew c (by omega)]
    · rw [if_neg e, hslot j c (by omega) hc]
  refine
    { ht_len := hlen1
      len_max := by rw [hdlen]; exact hmax
      len_min := by rw [hdlen]; omega
      header := ?_
      empty_len := by intro h0; omega
      page_in := ?_
      page_disk := ?_
      last_next := ?_
      page_mono := ?_
      slot_in := ?_
      slot_status := ?_
      slot_page := ?_
      slot_slot := ?_
      slot_prefix := ?_ }
  · rw [hkeep 0 28 (by omega)]
    · exact L.header
    · intro j hj
      have := L.page_in j hj
      left; omega
  · intro j hj
    rw [hpage1 j hj, hdlen]
    by_cases e : j = n
    · rw [if_pos e]; omega
    · rw [if_neg e]
      have := L.page_in j (by omega)
      omega
  · intro j c hj hc
    rw [hpage1 j hj]
    by_cases e : j = n
    · rw [if_pos e, e]; exact hndisk c hc
    · rw [if_neg e]; exact hdisk j c (by omega) hc
  · intro j hj
    have e : j = n := by omega
    rw [e, hnew S (by omega), if_neg (by omega)]
  · intro j1 j2 h12 hj2
    rw [hpage1 j1 (by omega), hpage1 j2 hj2, if_neg (by omega)]
    by_cases e : j2 = n
    · rw [if_pos e]
      have := L.page_in j1 (by omega)
      omega
    · rw [if_neg e]
      exact L.page_mono j1 j2 h12 (by omega)
  · intro j g hj hg
    rw [hslot1 j g hj hg, hdlen]
    by_cases e : j = n
    · rw [if_pos e]
      by_cases e2 : g = h
      · rw [if_pos e2]; intro _; omega
      · rw [if_neg e2]; intro h0; exact absurd rfl h0
    · rw [if_neg e]
      intro h0
      have := L.slot_in j g (by omega) hg h0
      omega
  · intro j g hj hg
    rw [hslot1 j g hj hg]
    by_cases e : j = n
    · rw [if_pos e]
      by_cases e2 : g = h
      · rw [if_pos e2]; intro _; right; exact hst
      · rw [if_neg e2]; intro h0; exact absurd rfl h0
    · rw [if_neg e]
      intro h0
      have hin := L.slot_in j g (by omega) hg h0
      rw [hkeep _ _ (by omega)]
      · exact L.slot_status j g (by omega) hg h0
      · intro j2 hj2
        rcases L.slot_page j g j2 (by omega) hg hj2 h0 with h3 | h3
        · left; omega
        · right; omega
  · intro j g j2 hj hg hj2
    rw [hslot1 j g hj hg, hpage1 j2 hj2]
    by_cases e : j = n
    · rw [if_pos e]
      by_cases e2 : g = h
      · rw [if_pos e2]
        intro _
        by_cases e3 : j2 = n
        · rw [if_pos e3]; right; omega
        · rw [if_neg e3]
          have := L.page_in j2 (by omega)
          right; omega
      · rw [if_neg e2]; intro h0; exact absurd rfl h0
    · rw [if_neg e]
      intro h0
      have hin := L.slot_in j g (by omega) hg h0
      by_cases e3 : j2 = n
      · rw [if_pos e3]; left; omega
      · rw [if_neg e3]
        exact L.slot_page j g j2 (by omega) hg (by omega) h0
  · intro j1 g1 j2 g2 hj1 hg1 hj2 hg2 hne
    rw [hslot1 j1 g1 hj1 hg1, hslot1 j2 g2 hj2 hg2]
    by_cases e1 : j1 = n
    · rw [if_pos e1]
      by_cases e3 : g1 = h
      · rw [if_pos e3]
        by_cases e2 : j2 = n
        · rw [if_pos e2]
          by_cases e4 : g2 = h
          · exfalso; omega
          · rw [if_neg e4]; intro _ h0; exact absurd rfl h0
        · rw [if_neg e2]
          intro _ h0
          have := L.slot_in j2 g2 (by omega) hg2 h0
          right; omega
      · rw [if_neg e3]; intro h0; exact absurd rfl h0
    · rw [if_neg e1]
      by_cases e2 : j2 = n
      · rw [if_pos e2]
        by_cases e4 : g2 = h
        · rw [if_pos e4]
          intro h0 _
          have := L.slot_in j1 g1 (by omega) hg1 h0
          left; omega
        · rw [if_neg e4]; intro _ h0; exact absurd rfl h0
      · rw [if_neg e2]
        exact L.slot_slot j1 g1 j2 g2 (by omega) hg1 (by omega) hg2 hne
  · intro j1 j2 g h12 hj2 hg
    rw [hslot1 j1 g (by omega) hg, hslot1 j2 g hj2 hg, if_neg (show ¬ j1 = n by omega)]
    by_cases e2 : j2 = n
    · rw [if_pos e2]
      by_cases e4 : g = h
      · rw [if_pos e4, e4]
        intro _
        exact hpre j1 (by omega)
      · rw [if_neg e4]; intro h0; exact absurd rfl h0
    · rw [if_neg e2]
      exact L.slot_prefix j1 j2 g h12 (by omega) hg

/-! ## The key comparison loop -/

theorem fslice_zero_take (xs : List Byte) (m : Nat) : fslice xs 0 m = xs.take m := by
  unfold fslice; simp

/-- On a record that lies inside the file the chunked comparison is the
comparison of the whole stored key with the caller's key. -/
theorem key_compare_eq (f : FILE) (fuel pos : Nat) (kptr : List Byte) (klen : Nat)
    (hfuel : klen ≤ fuel) (hk : kptr.length = klen) (hin : pos + klen ≤ f.data.length) :
    key_compare f fuel pos kptr klen =
      if fslice f.data pos klen = kptr then .matched (pos + klen) else .differs := by
  induction fuel generalizing pos kptr klen with
  | zero =>
    have h0 : klen = 0 := by omega
    subst h0
    have : kptr = [] := List.length_eq_zero.mp hk
    subst this
    simp [key_compare, fslice]
  | succ fuel ih =>
    unfold key_compare
    by_cases h0 : klen = 0
    · subst h0
      have : kptr = [] := List.length_eq_zero.mp hk
      subst this
      simp [fslice]
    · rw [if_neg h0]
      simp only [fread_bytes]
      generalize hc : (if klen > 255 then 255 else klen) = c
      have hc1 : 0 < c ∧ c ≤ klen := by
        rw [← hc]; split <;> omega
      have hlen : (fslice f.data pos c).length = c := length_fslice_of_le (by omega)
      rw [hlen, if_pos hc1.1]
      have hsplit : fslice f.data pos klen
          = fslice f.data pos c ++ fslice f.data (pos + c) (klen - c) := by
        have := fslice_add f.data pos c (klen - c)
        rwa [show c + (klen - c) = klen by omega] at this
      by_cases hne : kptr.take c ≠ fslice f.data pos c
      · rw [if_pos hne, if_neg]
        intro e
        apply hne
        rw [← e, hsplit, List.take_left' hlen]
      · rw [if_neg hne]
        have he : kptr.take c = fslice f.data pos c := by
          by_contra h; exact hne h
        rw [ih (pos + c) (kptr.drop c) (klen - c) (by omega) (by simp [hk]) (by omega)]
        have hpos : pos + c + (klen - c) = pos + klen := by omega
        rw [hpos, hsplit]
        have hkk : kptr = kptr.take c ++ kptr.drop c := (List.take_append_drop c kptr).symm
        by_cases e2 : fslice f.data (pos + c) (klen - c) = kptr.drop c
        · rw [if_pos e2, if_pos]
          rw [e2, ← he]; exact hkk.symm
        · rw [if_neg e2, if_neg]
          intro e3
          apply e2
          rw [hkk, he] at e3
          exact List.append_cancel_left e3

/-! ## One round of the page loops -/

theorem slot_of_lt (db : KVDB) (key : List Byte) (h : 0 < db.hash_table_size) :
    slot_of db key < db.hash_table_size := Nat.mod_lt _ h

theorem fread_item_in {f : FILE} {pos size : Nat} (h0 : 0 < size)
    (h : pos + size ≤ f.data.length) : fread_item f pos size = some (fslice f.data pos size) := by
  unfold fread_item; rw [if_pos ⟨h0, h⟩]

/-- One round of the loop of `KVDB_get` at a page whose slot, when filled,
points at a whole record. -/
theorem get_pages_step (db : KVDB) (key vbuf : List Byte) (fuel i : Nat)
    (hk : key.length = db.key_size) (hV : 0 < db.value_size)
    (hmax : db.f.data.length ≤ OFF_MAX)
    (hin : slot_off db key i ≠ 0 →
      slot_off db key i + (1 + db.key_size + db.value_size) ≤ db.f.data.length) :
    get_pages db key vbuf (slot_of db key) (fuel + 1) i =
      if slot_off db key i = 0 then (1, vbuf)
      else if rec_key db.f.data db.key_size (slot_off db key i) ≠ key then
        get_pages db key vbuf (slot_of db key) fuel (i + 1)
      else if rec_status db.f.data (slot_off db key i) = 0 then (1, vbuf)
      else (0, rec_value db.f.data db.key_size db.value_size (slot_off db key i)) := by
  conv_lhs => rw [get_pages]
  have e : db.hash_tables.getD (i * (db.hash_table_size + 1) + slot_of db key) 0
      = slot_off db key i := rfl
  simp only [e]
  by_cases h0 : slot_off db key i = 0
  · rw [if_neg (by simpa using h0), if_pos h0]
  · rw [if_pos h0, if_neg h0]
    have hin' := hin h0
    rw [if_neg (by omega), fread_item_in (by omega) (by omega)]
    simp only
    rw [key_compare_eq db.f db.key_size _ key db.key_size (Nat.le_refl _) hk (by omega)]
    show (match (if rec_key db.f.data db.key_size (slot_off db key i) = key then _ else _) with
      | Cmp.short => _ | Cmp.differs => _ | Cmp.matched pos => _) = _
    by_cases hkey : rec_key db.f.data db.key_size (slot_off db key i) = key
    · rw [if_pos hkey, if_neg (by simpa using hkey)]
      simp only
      rw [fread_item_in hV (by omega)]
      rfl
    · rw [if_neg hkey, if_pos hkey]

/-- One round of the loop of `_kvdb_put` at a page whose slot, when filled,
points at a whole record. -/
theorem put_pages_step (db : KVDB) (key value : List Byte) (delete : Bool)
    (fuel i htoffset lasthtoffset : Nat)
    (hk : key.length = db.key_size) (hmax : db.f.data.length ≤ OFF_MAX)
    (hin : slot_off db key i ≠ 0 →
      slot_off db key i + (1 + db.key_size + db.value_size) ≤ db.f.data.length) :
    put_pages db key value delete (slot_of db key) (fuel + 1) i htoffset lasthtoffset =
      if slot_off db key i = 0 then put_empty db key value delete (slot_of db key) i htoffset
      else if rec_status db.f.data (slot_off db key i) ≠ 0 ∧
          rec_key db.f.data db.key_size (slot_off db key i) ≠ key then
        put_pages db key value delete (slot_of db key) fuel (i + 1)
          (cell_at db.hash_tables db.hash_table_size i db.hash_table_size) htoffset
      else put_found db key value delete (slot_off db key i)
        (rec_status db.f.data (slot_off db key i))
        (if rec_status db.f.data (slot_off db key i) ≠ 0
          then slot_off db key i + 1 + db.key_size else slot_off db key i + 1) := by
  conv_lhs => rw [put_pages]
  have e : db.hash_tables.getD (i * (db.hash_table_size + 1) + slot_of db key) 0
      = slot_off db key i := rfl
  have e2 : db.hash_tables.getD (i * (db.hash_table_size + 1) + db.hash_table_size) 0
      = cell_at db.hash_tables db.hash_table_size i db.hash_table_size := rfl
  simp only [e, e2]
  by_cases h0 : slot_off db key i = 0
  · rw [if_neg (by simpa using h0), if_pos h0]
  · rw [if_pos h0, if_neg h0]
    have hin' := hin h0
    rw [if_neg (by omega), fread_item_in (by omega) (by omega)]
    simp only
    have est : (fslice db.f.data (slot_off db key i) 1).getD 0 0
        = rec_status db.f.data (slot_off db key i) := rfl
    rw [est]
    by_cases hst : rec_status db.f.data (slot_off db key i) ≠ 0
    · rw [if_pos hst, if_pos hst]
      rw [key_compare_eq db.f db.key_size _ key db.key_size (Nat.le_refl _) hk (by omega)]
      show (match (if rec_key db.f.data db.key_size (slot_off db key i) = key then _ else _) with
        | Cmp.short => _ | Cmp.differs => _ | Cmp.matched pos => _) = _
      by_cases hkey : rec_key db.f.data db.key_size (slot_off db key i) = key
      · rw [if_pos hkey, if_neg (by simp [hkey])]
      · rw [if_neg hkey, if_pos ⟨hst, hkey⟩]
    · rw [if_neg hst, if_neg hst, if_neg (by tauto)]

/-! ## The three ways `_kvdb_put` ends -/

theorem Inv.with_data {db : KVDB} (I : Inv db) {d1 : List Byte}
    (L : Layout db.hash_table_size db.key_size db.value_size db.num_hash_tables
      db.hash_tables d1) : Inv (with_file db ⟨d1, true⟩) :=
  { S_pos := I.S_pos, K_pos := I.K_pos, V_pos := I.V_pos, S_lt := I.S_lt, K_lt := I.K_lt,
    V_lt := I.V_lt, writable := rfl, psize := I.psize, layout := L }

theorem fwrite_item_ok (f : FILE) (pos : Nat) (buf : List Byte) (size : Nat)
    (hw : f.writable = true) (h0 : 0 < size) (hmax : pos + size ≤ OFF_MAX)
    (hb : buf.length = size) :
    fwrite_item f pos buf size = some ⟨pwrite f.data pos buf, true⟩ := by
  unfold fwrite_item
  rw [if_pos ⟨hw, h0, hmax⟩, List.take_of_length_le (by omega)]
  congr 1
  cases f
  simp_all

theorem rec_status_of_slice {d : List Byte} {o : Nat} {b : Byte} (h : fslice d o 1 = [b]) :
    rec_status d o = b := by
  unfold rec_status; rw [h]; rfl

/-- `KVDB_delete` on a filled slot: the status byte of its record is cleared. -/
theorem put_found_delete {db : KVDB} (I : Inv db) (key value : List Byte) {i : Nat}
    (hi : i < db.num_hash_tables) (ho : slot_off db key i ≠ 0) (st : Byte) (pos : Nat) :
    put_found db key value true (slot_off db key i) st pos
        = .ret (0, with_file db ⟨pwrite db.f.data (slot_off db key i) [0], true⟩) ∧
      Layout db.hash_table_size db.key_size db.value_size db.num_hash_tables db.hash_tables
        (pwrite db.f.data (slot_off db key i) [0]) := by
  have hh := slot_of_lt db key I.S_pos
  have hin : 28 ≤ slot_off db key i ∧
      slot_off db key i + (1 + db.key_size + db.value_size) ≤ db.f.data.length :=
    I.layout.slot_in i _ hi hh ho
  have hmax := I.layout.len_max
  have hpos : slot_off db key i ≤ db.f.data.length := by omega
  constructor
  · unfold put_found
    rw [if_pos rfl, fwrite_item_ok db.f _ [0] 1 I.writable (by omega) (by omega) rfl]
  · apply I.layout.write_record hi hh ho (Nat.le_refl _)
    · show slot_off db key i + 1 ≤ slot_off db key i + _; omega
    · left
      exact fslice_pwrite_same [0] hpos

theorem put_found_put {db : KVDB} (I : Inv db) {key value : List Byte} {i : Nat}
    (hi : i < db.num_hash_tables) (ho : slot_off db key i ≠ 0)
    (hk : key.length = db.key_size) (hv : value.length = db.value_size)
    (pos : Nat)
    (hpos : rec_status db.f.data (slot_off db key i) ≠ 0 →
      pos = slot_off db key i + 1 + db.key_size) :
    put_found db key value false (slot_off db key i)
        (rec_status db.f.data (slot_off db key i)) pos
      = .ret (0, with_file db ⟨put_found_data db.f.data db.key_size (slot_off db key i)
          (rec_status db.f.data (slot_off db key i)) key value, true⟩) := by
  have hh := slot_of_lt db key I.S_pos
  have hin : 28 ≤ slot_off db key i ∧
      slot_off db key i + (1 + db.key_size + db.value_size) ≤ db.f.data.length :=
    I.layout.slot_in i _ hi hh ho
  have hmax := I.layout.len_max
  have hK := I.K_pos
  have hV := I.V_pos
  unfold put_found put_found_data
  rw [if_neg (by simp)]
  by_cases hst : rec_status db.f.data (slot_off db key i) = 0
  · rw [if_pos hst, if_pos hst]
    rw [fwrite_item_ok db.f _ [1] 1 I.writable (by omega) (by omega) rfl]
    simp only
    rw [fwrite_item_ok _ _ key _ rfl hK (by omega) hk]
    simp only
    rw [fwrite_item_ok _ _ value _ rfl hV (by omega) hv]
  · rw [if_neg hst, if_neg hst, hpos hst]
    rw [fwrite_item_ok db.f _ value _ I.writable hV (by omega) hv]

theorem Layout.write_record_at {S K V n : Nat} {ht : List Nat} {d : List Byte}
    (L : Layout S K V n ht d) {i h o : Nat} (hi : i < n) (hh : h < S)
    (e : cell_at ht S i h = o) (ho : o ≠ 0) {pos : Nat} {bs : List Byte}
    (h1 : o ≤ pos) (h2 : pos + bs.length ≤ o + (1 + K + V))
    (hst : fslice (pwrite d pos bs) o 1 = [0] ∨ fslice (pwrite d pos bs) o 1 = [1]) :
    Layout S K V n ht (pwrite d pos bs) := by
  subst e
  exact L.write_record hi hh ho h1 h2 hst

/-- What the bytes written by `KVDB_put` on a filled slot look like. -/
theorem put_found_data_spec {S K V n : Nat} {ht : List Nat} {d : List Byte}
    (L : Layout S K V n ht d) {i h : Nat} (hi : i < n) (hh : h < S)
    (ho : cell_at ht S i h ≠ 0) {key value : List Byte}
    (hk : key.length = K) (hv : value.length = V) (st : Byte)
    (hst : st = rec_status d (cell_at ht S i h)) :
    Layout S K V n ht (put_found_data d K (cell_at ht S i h) st key value) ∧
    (put_found_data d K (cell_at ht S i h) st key value).length = d.length ∧
    rec_status (put_found_data d K (cell_at ht S i h) st key value) (cell_at ht S i h) = 1 ∧
    rec_key (put_found_data d K (cell_at ht S i h) st key value) K (cell_at ht S i h)
      = (if st = 0 then key else rec_key d K (cell_at ht S i h)) ∧
    rec_value (put_found_data d K (cell_at ht S i h) st key value) K V (cell_at ht S i h)
      = value ∧
    ∀ a m, (a + m ≤ cell_at ht S i h ∨ cell_at ht S i h + (1 + K + V) ≤ a) →
      fslice (put_found_data d K (cell_at ht S i h) st key value) a m = fslice d a m := by
  have hin := L.slot_in i h hi hh ho
  generalize ho' : cell_at ht S i h = o at *
  unfold put_found_data
  by_cases h0 : st = 0
  · simp only [if_pos h0]
    have hp1 : o ≤ d.length := by omega
    have l1 : (pwrite d o [1]).length = d.length := by rw [length_pwrite]; simp; omega
    have hp2 : o + 1 ≤ (pwrite d o [1]).length := by omega
    have l2 : (pwrite (pwrite d o [1]) (o + 1) key).length = d.length := by
      rw [length_pwrite, l1]; omega
    have hp3 : o + 1 + K ≤ (pwrite (pwrite d o [1]) (o + 1) key).length := by omega
    have s1 : fslice (pwrite d o [1]) o 1 = [1] := fslice_pwrite_same [1] hp1
    have s2 : fslice (pwrite (pwrite d o [1]) (o + 1) key) o 1 = [1] := by
      rw [fslice_pwrite_disjoint key hp2 (Or.inl (by omega))]; exact s1
    have s3 : fslice (pwrite (pwrite (pwrite d o [1]) (o + 1) key) (o + 1 + K) value) o 1
        = [1] := by
      rw [fslice_pwrite_disjoint value hp3 (Or.inl (by omega))]; exact s2
    have L1 : Layout S K V n ht (pwrite d o [1]) :=
      L.write_record_at hi hh ho' ho (Nat.le_refl _) (by simp; omega) (Or.inr s1)
    have L2 : Layout S K V n ht (pwrite (pwrite d o [1]) (o + 1) key) :=
      L1.write_record_at hi hh ho' ho (by omega) (by omega) (Or.inr s2)
    have L3 : Layout S K V n ht
        (pwrite (pwrite (pwrite d o [1]) (o + 1) key) (o + 1 + K) value) :=
      L2.write_record_at hi hh ho' ho (by omega) (by omega) (Or.inr s3)
    refine ⟨L3, ?_, rec_status_of_slice s3, ?_, ?_, ?_⟩
    · rw [length_pwrite, l2]; omega
    · unfold rec_key
      rw [fslice_pwrite_disjoint value hp3 (Or.inl (by omega))]
      have := fslice_pwrite_same key hp2
      rwa [hk] at this
    · unfold rec_value
      have := fslice_pwrite_same value hp3
      rwa [hv] at this
    · intro a m ham
      rw [fslice_pwrite_disjoint value hp3 (by omega),
        fslice_pwrite_disjoint key hp2 (by omega),
        fslice_pwrite_disjoint [1] hp1 (by simp; omega)]
  · simp only [if_neg h0]
    have hp1 : o + 1 + K ≤ d.length := by omega
    have hs : fslice (pwrite d (o + 1 + K) value) o 1 = fslice d o 1 :=
      fslice_pwrite_disjoint value hp1 (Or.inl (by omega))
    have hst0 := L.slot_status i h hi hh (by rw [ho']; exact ho)
    rw [ho'] at hst0
    have hone : fslice d o 1 = [1] := by
      rcases hst0 with e | e
      · exfalso; apply h0; rw [hst]; exact rec_status_of_slice e
      · exact e
    have L1 : Layout S K V n ht (pwrite d (o + 1 + K) value) :=
      L.write_record_at hi hh ho' ho (by omega) (by omega) (Or.inr (by rw [hs, hone]))
    refine ⟨L1, ?_, ?_, ?_, ?_, ?_⟩
    · rw [length_pwrite]; omega
    · apply rec_status_of_slice; rw [hs, hone]
    · unfold rec_key
      exact fslice_pwrite_disjoint value hp1 (Or.inl (by omega))
    · unfold rec_value
      have := fslice_pwrite_same value hp1
      rwa [hv] at this
    · intro a m ham
      exact fslice_pwrite_disjoint value hp1 (by omega)

theorem fwrite_item_some {f f1 : FILE} {pos : Nat} {buf : List Byte} {size : Nat}
    (h : fwrite_item f pos buf size = some f1) :
    f.writable = true ∧ 0 < size ∧ pos + size ≤ OFF_MAX ∧
      f1 = ⟨pwrite f.data pos (buf.take size), f.writable⟩ := by
  unfold fwrite_item at h
  split at h
  · rename_i hc
    cases h
    exact ⟨hc.1, hc.2.1, hc.2.2, rfl⟩
  · cases h

theorem append_record (d key value : List Byte) :
    pwrite (pwrite (pwrite d d.length [1]) (d.length + 1) key) (d.length + 1 + key.length) value
      = d ++ (1 :: (key ++ value)) := by
  rw [pwrite_end]
  have l1 : d.length + 1 = (d ++ [1]).length := by simp
  rw [l1, pwrite_end]
  have l2 : (d ++ [1]).length + key.length = (d ++ [1] ++ key).length := by
    simp only [List.length_append]
  rw [l2, pwrite_end]
  simp

theorem put_empty_ret {db db1 : KVDB} (I : Inv db) {key value : List Byte} {i : Nat}
    (hi : i < db.num_hash_tables)
    (hk : key.length = db.key_size) (hv : value.length = db.value_size)
    (h : put_empty db key value false (slot_of db key) i
      (page_at db.hash_tables db.hash_table_size i) = .ret (0, db1)) :
    db.f.data.length + (1 + db.key_size + db.value_size) ≤ OFF_MAX ∧
      db1 = filled_handle db key value i := by
  have hh := slot_of_lt db key I.S_pos
  have hpi := I.layout.page_in i hi
  have hmax := I.layout.len_max
  unfold put_empty at h
  rw [if_neg (by simp)] at h
  simp only at h
  split at h
  · cases h
  · rename_i f1 h1
    split at h
    · cases h
    · rename_i f2 h2
      split at h
      · cases h
      · rename_i f3 h3
        obtain ⟨w1, _, m1, e1⟩ := fwrite_item_some h1
        obtain ⟨w2, _, m2, e2⟩ := fwrite_item_some h2
        obtain ⟨w3, _, m3, e3⟩ := fwrite_item_some h3
        have hfit : db.f.data.length + (1 + db.key_size + db.value_size) ≤ OFF_MAX := by omega
        have hq : (page_at db.hash_tables db.hash_table_size i + 8 * slot_of db key) % U64
            = page_at db.hash_tables db.hash_table_size i + 8 * slot_of db key := by
          apply Nat.mod_eq_of_lt
          rw [off_max_eq] at hmax; rw [u64_eq]; omega
        rw [hq] at h
        have t2 : key.take db.key_size = key := List.take_of_length_le (by omega)
        have t3 : value.take db.value_size = value := List.take_of_length_le (by omega)
        have d3 : f3 = ⟨db.f.data ++ (1 :: (key ++ value)), true⟩ := by
          rw [e3, e2, e1]
          dsimp only
          rw [t2, t3, I.writable]
          congr 1
          have := append_record db.f.data key value
          rw [hk] at this
          exact this
        rw [if_neg (by simp; omega)] at h
        rw [d3, fwrite_item_ok _ _ _ 8 rfl (by omega) (by omega)
          (length_u64_bytes _)] at h
        simp only at h
        injection h with h
        injection h with _ h
        exact ⟨hfit, h.symm⟩

theorem length_cells_bytes (xs : List Nat) : (cells_bytes xs).length = 8 * xs.length := by
  induction xs with
  | nil => rfl
  | cons x xs ih => simp [cells_bytes, length_u64_bytes, ih]; omega

theorem put_new_page_ret {db db1 : KVDB} (I : Inv db) {key value : List Byte}
    (hk : key.length = db.key_size) (hv : value.length = db.value_size)
    (h : put_new_page db key value false (slot_of db key)
      (page_at db.hash_tables db.hash_table_size (db.num_hash_tables - 1)) = .ret (0, db1)) :
    db.f.data.length + 8 * (db.hash_table_size + 1) + (1 + db.key_size + db.value_size)
        ≤ OFF_MAX ∧
      db1 = grown_handle db key value := by
  have hh := slot_of_lt db key I.S_pos
  have hmax := I.layout.len_max
  unfold put_new_page at h
  rw [if_neg (by simp)] at h
  simp only at h
  split at h
  · cases h
  · rename_i hP
    have hP : db.hash_table_size_bytes = 8 * (db.hash_table_size + 1) := by
      by_contra hn; exact hP hn
    rw [hP] at h
    have htk : db.hash_tables.take ((db.hash_table_size + 1) * db.num_hash_tables)
        = db.hash_tables := by
      apply List.take_of_length_le
      rw [I.layout.ht_len, Nat.mul_comm]
    rw [htk] at h
    split at h
    · cases h
    · rename_i f1 h1
      split at h
      · cases h
      · rename_i f2 h2
        split at h
        · cases h
        · rename_i f3 h3
          split at h
          · cases h
          · rename_i f4 h4
            obtain ⟨w1, _, m1, e1⟩ := fwrite_item_some h1
            obtain ⟨w2, _, m2, e2⟩ := fwrite_item_some h2
            obtain ⟨w3, _, m3, e3⟩ := fwrite_item_some h3
            obtain ⟨w4, _, m4, e4⟩ := fwrite_item_some h4
            have hfit : db.f.data.length + 8 * (db.hash_table_size + 1)
                + (1 + db.key_size + db.value_size) ≤ OFF_MAX := by omega
            have hmod : (db.f.data.length + 8 * (db.hash_table_size + 1)) % U64
                = db.f.data.length + 8 * (db.hash_table_size + 1) := by
              apply Nat.mod_eq_of_lt
              rw [off_max_eq] at hfit; rw [u64_eq]; omega
            rw [hmod] at e1 h
            have hpg : (List.replicate (db.hash_table_size + 1) 0).set (slot_of db key)
                (db.f.data.length + 8 * (db.hash_table_size + 1)) = new_page db key := rfl
            rw [hpg] at e1 h
            have t1 : (cells_bytes (new_page db key)).take (8 * (db.hash_table_size + 1))
                = cells_bytes (new_page db key) := by
              apply List.take_of_length_le
              rw [length_cells_bytes]
              simp [new_page]
            have t2 : key.take db.key_size = key := List.take_of_length_le (by omega)
            have t3 : value.take db.value_size = value := List.take_of_length_le (by omega)
            have lp : (db.f.data ++ cells_bytes (new_page db key)).length
                = db.f.data.length + 8 * (db.hash_table_size + 1) := by
              rw [List.length_append, length_cells_bytes]
              simp [new_page]
            have d4 : f4 = ⟨db.f.data ++ cells_bytes (new_page db key)
                ++ (1 :: (key ++ value)), true⟩ := by
              rw [e4, e3, e2, e1]
              dsimp only
              rw [t1, t2, t3, I.writable, pwrite_end]
              congr 1
              have := append_record (db.f.data ++ cells_bytes (new_page db key)) key value
              rw [hk, lp] at this
              exact this
            subst d4
            by_cases hn : db.num_hash_tables = 0
            · rw [if_neg (by simp [hn])] at h
              injection h with h
              injection h with _ h
              refine ⟨hfit, ?_⟩
              rw [← h]
              unfold grown_handle
              rw [if_pos hn, hP]
            · rw [if_pos hn] at h
              have hpi := I.layout.page_in (db.num_hash_tables - 1) (by omega)
              have hq : (page_at db.hash_tables db.hash_table_size (db.num_hash_tables - 1)
                  + 8 * db.hash_table_size) % U64
                  = page_at db.hash_tables db.hash_table_size (db.num_hash_tables - 1)
                    + 8 * db.hash_table_size := by
                apply Nat.mod_eq_of_lt
                rw [off_max_eq] at hmax; rw [u64_eq]; omega
              rw [hq, if_neg (by simp; omega)] at h
              rw [fwrite_item_ok _ _ _ 8 rfl (by omega) (by omega) (length_u64_bytes _)] at h
              simp only at h
              injection h with h
              injection h with _ h
              refine ⟨hfit, ?_⟩
              rw [← h]
              unfold grown_handle
              rw [if_neg hn, Nat.mul_comm (db.hash_table_size + 1), hP]

/-! ## The handle after an append keeps the invariant -/

theorem cells_bytes_slice (xs : List Nat) (c : Nat) (hc : c < xs.length) :
    fslice (cells_bytes xs) (8 * c) 8 = u64_bytes (xs.getD c 0) := by
  induction xs generalizing c with
  | nil => simp at hc
  | cons x xs ih =>
    cases c with
    | zero =>
      show fslice (u64_bytes x ++ cells_bytes xs) 0 8 = u64_bytes x
      have := fslice_mid (p := []) (x := u64_bytes x) (cells_bytes xs) (a := 0) (m := 8) rfl
        (length_u64_bytes x)
      simpa using this
    | succ c =>
      show fslice (u64_bytes x ++ cells_bytes xs) (8 * (c + 1)) 8 = u64_bytes (xs.getD c 0)
      have := fslice_append_right (u64_bytes x) (cells_bytes xs) (8 * c) 8
      rw [length_u64_bytes] at this
      rw [show 8 * (c + 1) = 8 + 8 * c by omega, this]
      exact ih c (by simpa using hc)

theorem length_new_page (db : KVDB) (key : List Byte) :
    (new_page db key).length = db.hash_table_size + 1 := by
  simp [new_page]

theorem getD_new_page (db : KVDB) (key : List Byte) (hS : 0 < db.hash_table_size) (c : Nat)
    (hc : c ≤ db.hash_table_size) :
    (new_page db key).getD c 0 =
      if c = slot_of db key then db.f.data.length + 8 * (db.hash_table_size + 1) else 0 := by
  have hh := slot_of_lt db key hS
  unfold new_page
  rw [List.getD_eq_getElem?_getD, List.getElem?_set]
  by_cases e : c = slot_of db key
  · rw [if_pos e, if_pos e.symm]
    simp only [List.length_replicate]
    rw [if_pos (by omega)]
    rfl
  · rw [if_neg e, if_neg (fun e1 => e e1.symm)]
    rw [List.getElem?_replicate]
    split <;> rfl

/-- The bytes at the old end of the file after a page and a record have been
appended. -/
theorem appended_page_bytes (db : KVDB) (key value : List Byte) :
    (db.f.data ++ cells_bytes (new_page db key) ++ (1 :: (key ++ value))).length
        = db.f.data.length + 8 * (db.hash_table_size + 1) + (1 + key.length + value.length) ∧
    (∀ a m, a + m ≤ db.f.data.length →
      fslice (db.f.data ++ cells_bytes (new_page db key) ++ (1 :: (key ++ value))) a m
        = fslice db.f.data a m) ∧
    (∀ c, c ≤ db.hash_table_size →
      fslice (db.f.data ++ cells_bytes (new_page db key) ++ (1 :: (key ++ value)))
        (db.f.data.length + 8 * c) 8 = u64_bytes ((new_page db key).getD c 0)) ∧
    fslice (db.f.data ++ cells_bytes (new_page db key) ++ (1 :: (key ++ value)))
      (db.f.data.length + 8 * (db.hash_table_size + 1)) 1 = [1] := by
  have lc : (cells_bytes (new_page db key)).length = 8 * (db.hash_table_size + 1) := by
    rw [length_cells_bytes, length_new_page]
  refine ⟨?_, ?_, ?_, ?_⟩
  · simp only [List.length_append, lc, List.length_cons]; omega
  · intro a m ham
    rw [List.append_assoc, fslice_append_left _ ham]
  · intro c hc
    rw [List.append_assoc, fslice_append_right, fslice_append_left _ (by rw [lc]; omega)]
    exact cells_bytes_slice _ c (by rw [length_new_page]; omega)
  · have := fslice_append_right (db.f.data ++ cells_bytes (new_page db key))
      (1 :: (key ++ value)) 0 1
    rw [List.length_append, lc, Nat.add_zero] at this
    rw [this]
    rfl

theorem Inv.after_fill {db : KVDB} (I : Inv db) {key value : List Byte} {i : Nat}
    (hi : i < db.num_hash_tables) (he : slot_off db key i = 0)
    (hpre : ∀ j, j < i → slot_off db key j ≠ 0)
    (hk : key.length = db.key_size) (hv : value.length = db.value_size)
    (hfit : db.f.data.length + (1 + db.key_size + db.value_size) ≤ OFF_MAX) :
    Inv (filled_handle db key value i) :=
  { S_pos := I.S_pos, K_pos := I.K_pos, V_pos := I.V_pos, S_lt := I.S_lt, K_lt := I.K_lt,
    V_lt := I.V_lt, writable := rfl, psize := I.psize,
    layout := I.layout.fill_slot hi (slot_of_lt db key I.S_pos) he hpre
      (by simp [hk, hv]; omega) rfl hfit }

theorem page_at_pos (ht : List Nat) (S : Nat) {j : Nat} (hj : 0 < j) :
    page_at ht S j = cell_at ht S (j - 1) S := by
  cases j with
  | zero => omega
  | succ j => rfl

theorem Inv.grown {db : KVDB} (I : Inv db) {key value : List Byte}
    (hpre : ∀ j, j < db.num_hash_tables → slot_off db key j ≠ 0)
    (hk : key.length = db.key_size) (hv : value.length = db.value_size)
    (hfit : db.f.data.length + 8 * (db.hash_table_size + 1)
      + (1 + db.key_size + db.value_size) ≤ OFF_MAX) :
    Inv (grown_handle db key value) := by
  have hh := slot_of_lt db key I.S_pos
  have L := I.layout
  obtain ⟨dl, dkeep, dnew, dst⟩ := appended_page_bytes db key value
  rw [hk, hv] at dl
  have hgrow : Layout db.hash_table_size db.key_size db.value_size (db.num_hash_tables + 1)
      (grown_handle db key value).hash_tables (grown_handle db key value).f.data := by
    by_cases hn : db.num_hash_tables = 0
    · have e1 : (grown_handle db key value).hash_tables = db.hash_tables ++ new_page db key := by
        unfold grown_handle; rw [if_pos hn]
      have e2 : (grown_handle db key value).f.data
          = db.f.data ++ cells_bytes (new_page db key) ++ (1 :: (key ++ value)) := by
        unfold grown_handle; rw [if_pos hn]
      rw [e1, e2]
      have hl := L.ht_len
      rw [hn] at hl
      have hl0 : db.hash_tables.length = 0 * (db.hash_table_size + 1) := by rw [hl]
      apply L.grow hh hpre hfit
      · rw [List.length_append, length_new_page, hl, hn]; simp
      · intro j c hj; omega
      · intro j hj; omega
      · rw [hn]; exact (L.empty_len hn).symm
      · intro c hc
        rw [hn, cell_at_append_right _ c hl0]
        exact getD_new_page db key I.S_pos c hc
      · exact dl
      · intro j c hj; omega
      · intro a m ham _
        exact dkeep a m ham
      · intro c hc
        rw [hn, cell_at_append_right _ c hl0]
        exact dnew c hc
      · exact dst
    · have e1 : (grown_handle db key value).hash_tables
          = (db.hash_tables ++ new_page db key).set
            ((db.num_hash_tables - 1) * (db.hash_table_size + 1) + db.hash_table_size)
            db.f.data.length := by
        unfold grown_handle; rw [if_neg hn]
      have e2 : (grown_handle db key value).f.data
          = pwrite (db.f.data ++ cells_bytes (new_page db key) ++ (1 :: (key ++ value)))
            (page_at db.hash_tables db.hash_table_size (db.num_hash_tables - 1)
              + 8 * db.hash_table_size) (u64_bytes db.f.data.length) := by
        unfold grown_handle; rw [if_neg hn]
      rw [e1, e2]
      have hl := L.ht_len
      have hidx : (db.num_hash_tables - 1) * (db.hash_table_size + 1) + db.hash_table_size
          < (db.hash_tables ++ new_page db key).length := by
        rw [List.length_append, hl]
        have := idx_lt (j := db.num_hash_tables - 1) (n := db.num_hash_tables)
          (W := db.hash_table_size + 1) (c := db.hash_table_size) (by omega) (by omega)
        omega
      have hc : ∀ j c, c ≤ db.hash_table_size →
          cell_at ((db.hash_tables ++ new_page db key).set
            ((db.num_hash_tables - 1) * (db.hash_table_size + 1) + db.hash_table_size)
            db.f.data.length) db.hash_table_size j c =
          if j = db.num_hash_tables - 1 ∧ c = db.hash_table_size then db.f.data.length
          else cell_at (db.hash_tables ++ new_page db key) db.hash_table_size j c :=
        fun j c hc => cell_at_set db.f.data.length j c (Nat.le_refl _) hc hidx
      have hpl := L.page_in (db.num_hash_tables - 1) (by omega)
      have hq : page_at db.hash_tables db.hash_table_size (db.num_hash_tables - 1)
          + 8 * db.hash_table_size
          ≤ (db.f.data ++ cells_bytes (new_page db key) ++ (1 :: (key ++ value))).length := by
        rw [dl]; omega
      have hpage : ∀ j, j < db.num_hash_tables →
          page_at ((db.hash_tables ++ new_page db key).set
            ((db.num_hash_tables - 1) * (db.hash_table_size + 1) + db.hash_table_size)
            db.f.data.length) db.hash_table_size j = page_at db.hash_tables db.hash_table_size j := by
        intro j hj
        cases j with
        | zero => rfl
        | succ j =>
          show cell_at _ db.hash_table_size j db.hash_table_size
            = cell_at db.hash_tables db.hash_table_size j db.hash_table_size
          rw [hc j _ (Nat.le_refl _), if_neg (by omega),
            cell_at_append_left _ j _ hl (by omega) (Nat.le_refl _)]
      apply L.grow hh hpre hfit
      · rw [List.length_set, List.length_append, length_new_page, hl, Nat.add_mul, Nat.one_mul]
      · intro j c hj hc1
        rw [hc j c (by omega), if_neg (by omega), cell_at_append_left _ j c hl hj (by omega)]
      · exact hpage
      · rw [page_at_pos _ _ (by omega), hc _ _ (Nat.le_refl _), if_pos ⟨rfl, rfl⟩]
      · intro c hc1
        rw [hc _ c hc1, if_neg (by omega), cell_at_append_right _ c hl]
        exact getD_new_page db key I.S_pos c hc1
      · rw [length_pwrite, length_u64_bytes, dl]; omega
      · intro j c hj hc1
        rw [hc j c hc1]
        by_cases e : j = db.num_hash_tables - 1 ∧ c = db.hash_table_size
        · rw [if_pos e, e.1, e.2]
          have := fslice_pwrite_same (u64_bytes db.f.data.length) hq
          rwa [length_u64_bytes] at this
        · rw [if_neg e, cell_at_append_left _ j c hl hj hc1]
          have hpj := L.page_in j hj
          rw [fslice_pwrite_disjoint _ hq, dkeep _ _ (by omega)]
          · exact L.page_disk j c hj hc1
          · rw [length_u64_bytes]
            by_cases e1 : j = db.num_hash_tables - 1
            · subst e1
              have : c ≠ db.hash_table_size := fun e2 => e ⟨rfl, e2⟩
              left; omega
            · have := L.page_mono j (db.num_hash_tables - 1) (by omega) (by omega)
              left; omega
      · intro a m ham hdis
        rw [fslice_pwrite_disjoint _ hq, dkeep a m ham]
        rw [length_u64_bytes]
        rcases hdis (db.num_hash_tables - 1) (by omega) with h1 | h1
        · left; omega
        · right; omega
      · intro c hc1
        rw [hc _ c hc1, if_neg (by omega), cell_at_append_right _ c hl,
          fslice_pwrite_disjoint _ hq (by rw [length_u64_bytes]; right; omega)]
        exact dnew c hc1
      · rw [fslice_pwrite_disjoint _ hq (by rw [length_u64_bytes]; right; omega)]
        exact dst
  have en : (grown_handle db key value).num_hash_tables = db.num_hash_tables + 1 := by
    unfold grown_handle; split <;> rfl
  have eS : (grown_handle db key value).hash_table_size = db.hash_table_size := by
    unfold grown_handle; split <;> rfl
  have eK : (grown_handle db key value).key_size = db.key_size := by
    unfold grown_handle; split <;> rfl
  have eV : (grown_handle db key value).value_size = db.value_size := by
    unfold grown_handle; split <;> rfl
  have eP : (grown_handle db key value).hash_table_size_bytes = db.hash_table_size_bytes := by
    unfold grown_handle; split <;> rfl
  have eW : (grown_handle db key value).f.writable = true := by
    unfold grown_handle; split <;> rfl
  exact
    { S_pos := by rw [eS]; exact I.S_pos
      K_pos := by rw [eK]; exact I.K_pos
      V_pos := by rw [eV]; exact I.V_pos
      S_lt := by rw [eS]; exact I.S_lt
      K_lt := by rw [eK]; exact I.K_lt
      V_lt := by rw [eV]; exact I.V_lt
      writable := eW
      psize := by rw [eP, eS]; exact I.psize
      layout := by rw [eS, eK, eV, en]; exact hgrow }

/-! ## What a successful `KVDB_put` or `KVDB_delete` did -/

theorem Inv.slot_in_file {db : KVDB} (I : Inv db) (key : List Byte) {i : Nat}
    (hi : i < db.num_hash_tables) (ho : slot_off db key i ≠ 0) :
    28 ≤ slot_off db key i ∧
      slot_off db key i + (1 + db.key_size + db.value_size) ≤ db.f.data.length :=
  I.layout.slot_in i _ hi (slot_of_lt db key I.S_pos) ho

theorem put_pages_ret {db db1 : KVDB} (I : Inv db) {key value : List Byte}
    (hk : key.length = db.key_size) (hv : value.length = db.value_size)
    (fuel i : Nat) (hfi : i + fuel = db.num_hash_tables)
    (hsk : ∀ j, j < i → Skips db key j)
    (h : put_pages db key value false (slot_of db key) fuel i
      (page_at db.hash_tables db.hash_table_size i)
      (page_at db.hash_tables db.hash_table_size (i - 1)) = .ret (0, db1)) :
    PutCase db key value db1 := by
  induction fuel generalizing i with
  | zero =>
    have hin : i = db.num_hash_tables := by omega
    subst hin
    rw [put_pages] at h
    obtain ⟨hfit, e⟩ := put_new_page_ret I hk hv h
    exact PutCase.grown hsk hfit e
  | succ fuel ih =>
    have hi : i < db.num_hash_tables := by omega
    rw [put_pages_step db key value false fuel i _ _ hk I.layout.len_max
      (fun ho => (I.slot_in_file key hi ho).2)] at h
    by_cases h0 : slot_off db key i = 0
    · rw [if_pos h0] at h
      obtain ⟨hfit, e⟩ := put_empty_ret I hi hk hv h
      exact PutCase.empty i hi hsk h0 hfit e
    · rw [if_neg h0] at h
      by_cases hs : rec_status db.f.data (slot_off db key i) ≠ 0 ∧
          rec_key db.f.data db.key_size (slot_off db key i) ≠ key
      · rw [if_pos hs] at h
        apply ih (i + 1) (by omega)
        · intro j hj
          by_cases e : j = i
          · subst e; exact ⟨h0, hs.1, hs.2⟩
          · exact hsk j (by omega)
        · exact h
      · rw [if_neg hs] at h
        rw [put_found_put I hi h0 hk hv _ (by intro hst; rw [if_pos hst])] at h
        injection h with h
        injection h with _ h
        refine PutCase.found i hi hsk h0 ?_ h.symm
        by_cases e : rec_status db.f.data (slot_off db key i) = 0
        · exact Or.inl e
        · right
          by_contra e2
          exact hs ⟨e, e2⟩

theorem KVDB_put_ret {db db1 : KVDB} (I : Inv db) {key value : List Byte}
    (hk : key.length = db.key_size) (hv : value.length = db.value_size)
    (h : KVDB_put db key value = .ret (0, db1)) : PutCase db key value db1 :=
  put_pages_ret I hk hv db.num_hash_tables 0 (by omega) (fun j hj => absurd hj (by omega)) h

theorem delete_pages_ret {db db1 : KVDB} (I : Inv db) {key value : List Byte}
    (hk : key.length = db.key_size)
    (fuel i : Nat) (hfi : i + fuel = db.num_hash_tables)
    (hsk : ∀ j, j < i → Skips db key j)
    (h : put_pages db key value true (slot_of db key) fuel i
      (page_at db.hash_tables db.hash_table_size i)
      (page_at db.hash_tables db.hash_table_size (i - 1)) = .ret (0, db1)) :
    ∃ i, i < db.num_hash_tables ∧ (∀ j, j < i → Skips db key j) ∧ slot_off db key i ≠ 0 ∧
      (rec_status db.f.data (slot_off db key i) = 0 ∨
        rec_key db.f.data db.key_size (slot_off db key i) = key) ∧
      db1 = with_file db ⟨pwrite db.f.data (slot_off db key i) [0], true⟩ := by
  induction fuel generalizing i with
  | zero =>
    rw [put_pages] at h
    unfold put_new_page at h
    rw [if_pos rfl] at h
    injection h with h
    injection h with h _
    simp [ KVDB_ERROR_IO] at h
  | succ fuel ih =>
    have hi : i < db.num_hash_tables := by omega
    rw [put_pages_step db key value true fuel i _ _ hk I.layout.len_max
      (fun ho => (I.slot_in_file key hi ho).2)] at h
    by_cases h0 : slot_off db key i = 0
    · rw [if_pos h0] at h
      unfold put_empty at h
      rw [if_pos rfl] at h
      injection h with h
      injection h with h _
      simp [ KVDB_ERROR_IO] at h
    · rw [if_neg h0] at h
      by_cases hs : rec_status db.f.data (slot_off db key i) ≠ 0 ∧
          rec_key db.f.data db.key_size (slot_off db key i) ≠ key
      · rw [if_pos hs] at h
        apply ih (i + 1) (by omega)
        · intro j hj
          by_cases e : j = i
          · subst e; exact ⟨h0, hs.1, hs.2⟩
          · exact hsk j (by omega)
        · exact h
      · rw [if_neg hs] at h
        rw [(put_found_delete I key value hi h0 _ _).1] at h
        injection h with h
        injection h with _ h
        refine ⟨i, hi, hsk, h0, ?_, h.symm⟩
        by_cases e : rec_status db.f.data (slot_off db key i) = 0
        · exact Or.inl e
        · right
          by_contra e2
          exact hs ⟨e, e2⟩

/-! ## Reachable handles satisfy the invariant -/

theorem Skips.slot_filled {db : KVDB} {key : List Byte} {j : Nat} (h : Skips db key j) :
    slot_off db key j ≠ 0 := h.1

theorem PutCase.inv_after {db db1 : KVDB} {key value : List Byte} (I : Inv db)
    (hk : key.length = db.key_size) (hv : value.length = db.value_size)
    (c : PutCase db key value db1) : Inv db1 := by
  cases c with
  | found i hi skips filled stop eq =>
    rw [eq]
    exact I.with_data (put_found_data_spec I.layout hi (slot_of_lt db key I.S_pos) filled hk hv
      _ rfl).1
  | empty i hi skips free fit eq =>
    rw [eq]
    exact I.after_fill hi free (fun j hj => (skips j hj).slot_filled) hk hv fit
  | grown skips fit eq =>
    rw [eq]
    exact I.grown (fun j hj => (skips j hj).slot_filled) hk hv fit

theorem KVDB_put_inv {db db1 : KVDB} (I : Inv db) {key value : List Byte}
    (hk : key.length = db.key_size) (hv : value.length = db.value_size)
    (h : KVDB_put db key value = .ret (0, db1)) : Inv db1 :=
  (KVDB_put_ret I hk hv h).inv_after I hk hv

theorem KVDB_delete_ret {db db1 : KVDB} (I : Inv db) {key : List Byte}
    (hk : key.length = db.key_size) (h : KVDB_delete db key = .ret (0, db1)) :
    ∃ i, i < db.num_hash_tables ∧ (∀ j, j < i → Skips db key j) ∧ slot_off db key i ≠ 0 ∧
      (rec_status db.f.data (slot_off db key i) = 0 ∨
        rec_key db.f.data db.key_size (slot_off db key i) = key) ∧
      db1 = with_file db ⟨pwrite db.f.data (slot_off db key i) [0], true⟩ :=
  delete_pages_ret I hk db.num_hash_tables 0 (by omega) (fun j hj => absurd hj (by omega)) h

theorem KVDB_delete_inv {db db1 : KVDB} (I : Inv db) {key : List Byte}
    (hk : key.length = db.key_size) (h : KVDB_delete db key = .ret (0, db1)) : Inv db1 := by
  obtain ⟨i, hi, _, ho, _, e⟩ := KVDB_delete_ret I hk h
  rw [e]
  exact I.with_data (put_found_delete I key [] hi ho 0 0).2

theorem fresh_handle_inv {S K V : Nat} (hS : S ≠ 0) (hK : K ≠ 0) (hV : V ≠ 0)
    (hS1 : S < U64) (hK1 : K < U64) (hV1 : V < U64) : Inv (fresh_handle S K V) :=
  { S_pos := Nat.pos_of_ne_zero hS
    K_pos := Nat.pos_of_ne_zero hK
    V_pos := Nat.pos_of_ne_zero hV
    S_lt := hS1, K_lt := hK1, V_lt := hV1
    writable := rfl
    psize := rfl
    layout :=
      { ht_len := by simp [fresh_handle]
        len_max := by
          show (header_bytes S K V).length ≤ OFF_MAX
          rw [length_header_bytes, off_max_eq]; omega
        len_min := by
          show 28 ≤ (header_bytes S K V).length
          rw [length_header_bytes]
        header := by
          show fslice (header_bytes S K V) 0 28 = header_bytes S K V
          have := fslice_full (header_bytes S K V)
          rwa [length_header_bytes] at this
        empty_len := fun _ => length_header_bytes S K V
        page_in := fun i hi => absurd hi (Nat.not_lt_zero i)
        page_disk := fun i c hi => absurd hi (Nat.not_lt_zero i)
        last_next := fun i hi => absurd hi (Nat.succ_ne_zero i)
        page_mono := fun i j _ hj => absurd hj (Nat.not_lt_zero j)
        slot_in := fun i h hi => absurd hi (Nat.not_lt_zero i)
        slot_status := fun i h hi => absurd hi (Nat.not_lt_zero i)
        slot_page := fun i h j hi => absurd hi (Nat.not_lt_zero i)
        slot_slot := fun i h j g hi => absurd hi (Nat.not_lt_zero i)
        slot_prefix := fun i j h _ hj => absurd hj (Nat.not_lt_zero j) } }

/-- A freshly created database is the handle `fresh_handle S K V` of its
geometry. -/
theorem Fresh.eq {db : KVDB} (h : Fresh db) :
    ∃ S K V, S ≠ 0 ∧ K ≠ 0 ∧ V ≠ 0 ∧ S < U64 ∧ K < U64 ∧ V < U64 ∧
      db = fresh_handle S K V := by
  obtain ⟨file, mode, S, K, V, mem, f, hS1, hK1, hV1, hf, hlen, ho⟩ := h
  rw [open_short file mode S K V mem f hf hlen] at ho
  by_cases hp : S ≠ 0 ∧ K ≠ 0 ∧ V ≠ 0
  · rw [if_pos hp] at ho
    by_cases hw : f.writable = true
    · rw [if_pos hw] at ho
      split at ho
      · injection ho with ho
        injection ho with ho _
        simp [KVDB_ERROR_MALLOC] at ho
      injection ho with ho
      injection ho with _ ho
      exact ⟨S, K, V, hp.1, hp.2.1, hp.2.2, hS1, hK1, hV1, ho.symm⟩
    · rw [if_neg hw] at ho
      injection ho with ho
      injection ho with ho _
      simp [ KVDB_ERROR_IO] at ho
  · rw [if_neg hp] at ho
    injection ho with ho
    injection ho with ho _
    simp [KVDB_ERROR_INVALID_PARAMETERS] at ho

/-- The page buffer of a freshly created database was allocated. -/
theorem Fresh.psize_fresh_le {db : KVDB} (h : Fresh db) :
    db.hash_table_size_bytes ≤ PTRDIFF_MAX := by
  obtain ⟨file, mode, S, K, V, mem, f, hS1, hK1, hV1, hf, hlen, ho⟩ := h
  rw [open_short file mode S K V mem f hf hlen] at ho
  by_cases hp : S ≠ 0 ∧ K ≠ 0 ∧ V ≠ 0
  · rw [if_pos hp] at ho
    by_cases hw : f.writable = true
    · rw [if_pos hw] at ho
      split at ho
      · injection ho with ho
        injection ho with ho _
        simp [KVDB_ERROR_MALLOC] at ho
      · rename_i hP
        injection ho with ho
        injection ho with _ ho
        rw [← ho]
        show (8 * ((S + 1) % U64)) % U64 ≤ PTRDIFF_MAX
        omega
    · rw [if_neg hw] at ho
      injection ho with ho
      injection ho with ho _
      simp [ KVDB_ERROR_IO] at ho
  · rw [if_neg hp] at ho
    injection ho with ho
    injection ho with ho _
    simp [KVDB_ERROR_INVALID_PARAMETERS] at ho

theorem Fresh.inv_fresh {db : KVDB} (h : Fresh db) : Inv db := by
  obtain ⟨S, K, V, hS, hK, hV, hS1, hK1, hV1, e⟩ := h.eq
  rw [e]
  exact fresh_handle_inv hS hK hV hS1 hK1 hV1

theorem Reachable.inv_holds {db : KVDB} (h : Reachable db) : Inv db := by
  induction h with
  | fresh hf => exact hf.inv_fresh
  | put _ hk hv hp ih => exact KVDB_put_inv ih hk hv hp
  | delete _ hk hd ih => exact KVDB_delete_inv ih hk hd

/-- The page buffer of every reachable handle could be allocated when the
database was created; no call changes its size. -/
theorem Reachable.psize_le {db : KVDB} (h : Reachable db) :
    db.hash_table_size_bytes ≤ PTRDIFF_MAX := by
  induction h with
  | fresh hf => exact hf.psize_fresh_le
  | put hr hk hv hp ih =>
    cases KVDB_put_ret hr.inv_holds hk hv hp with
    | found i hi skips filled stop eq => rw [eq]; exact ih
    | empty i hi skips free fit eq => rw [eq]; exact ih
    | grown skips fit eq =>
      rw [eq]
      unfold grown_handle
      split <;> exact ih
  | delete hr hk hd ih =>
    obtain ⟨i, _, _, _, _, e⟩ := KVDB_delete_ret hr.inv_holds hk hd
    rw [e]
    exact ih

/-! ## Running the loops up to the key's page -/

theorem get_pages_skip {db : KVDB} (I : Inv db) {key : List Byte} (vbuf : List Byte)
    (hk : key.length = db.key_size) (i : Nat) (hi : i ≤ db.num_hash_tables)
    (hsk : ∀ j, j < i → Skips db key j) :
    get_pages db key vbuf (slot_of db key) db.num_hash_tables 0
      = get_pages db key vbuf (slot_of db key) (db.num_hash_tables - i) i := by
  induction i with
  | zero => rfl
  | succ i ih =>
    rw [ih (by omega) (fun j hj => hsk j (by omega))]
    have e : db.num_hash_tables - i = (db.num_hash_tables - (i + 1)) + 1 := by omega
    rw [e, get_pages_step db key vbuf _ i hk I.V_pos I.layout.len_max
      (fun ho => (I.slot_in_file key (by omega) ho).2)]
    obtain ⟨h1, _, h3⟩ := hsk i (by omega)
    rw [if_neg h1, if_pos h3]

theorem put_pages_skip {db : KVDB} (I : Inv db) {key : List Byte} (value : List Byte)
    (delete : Bool) (hk : key.length = db.key_size) (i : Nat) (hi : i ≤ db.num_hash_tables)
    (hsk : ∀ j, j < i → Skips db key j) :
    put_pages db key value delete (slot_of db key) db.num_hash_tables 0
        KVDB_HEADER_SIZE KVDB_HEADER_SIZE
      = put_pages db key value delete (slot_of db key) (db.num_hash_tables - i) i
        (page_at db.hash_tables db.hash_table_size i)
        (page_at db.hash_tables db.hash_table_size (i - 1)) := by
  induction i with
  | zero => rfl
  | succ i ih =>
    rw [ih (by omega) (fun j hj => hsk j (by omega))]
    have e : db.num_hash_tables - i = (db.num_hash_tables - (i + 1)) + 1 := by omega
    rw [e, put_pages_step db key value delete _ i _ _ hk I.layout.len_max
      (fun ho => (I.slot_in_file key (by omega) ho).2)]
    obtain ⟨h1, h2, h3⟩ := hsk i (by omega)
    rw [if_neg h1, if_pos ⟨h2, h3⟩]
    rfl

/-- `KVDB_get` of a located key: not found on a tombstone, the stored value
otherwise. -/
theorem get_located {db : KVDB} (I : Inv db) {key : List Byte} {i : Nat}
    (loc : Located db key i) (hk : key.length = db.key_size) (vbuf : List Byte) :
    KVDB_get db key vbuf =
      if rec_status db.f.data (slot_off db key i) = 0 then (1, vbuf)
      else (0, rec_value db.f.data db.key_size db.value_size (slot_off db key i)) := by
  have hi := loc.lt
  show get_pages db key vbuf (slot_of db key) db.num_hash_tables 0 = _
  rw [get_pages_skip I vbuf hk i (by omega) loc.skips]
  have e : db.num_hash_tables - i = (db.num_hash_tables - (i + 1)) + 1 := by omega
  rw [e, get_pages_step db key vbuf _ i hk I.V_pos I.layout.len_max
    (fun ho => (I.slot_in_file key hi ho).2)]
  rw [if_neg loc.filled, if_neg (by simp [loc.key_eq])]

/-- `KVDB_put` of a located key rewrites its record in place. -/
theorem put_located {db : KVDB} (I : Inv db) {key value : List Byte} {i : Nat}
    (loc : Located db key i) (hk : key.length = db.key_size)
    (hv : value.length = db.value_size) :
    KVDB_put db key value =
      .ret (0, with_file db ⟨put_found_data db.f.data db.key_size (slot_off db key i)
        (rec_status db.f.data (slot_off db key i)) key value, true⟩) := by
  have hi := loc.lt
  show put_pages db key value false (slot_of db key) db.num_hash_tables 0
    KVDB_HEADER_SIZE KVDB_HEADER_SIZE = _
  rw [put_pages_skip I value false hk i (by omega) loc.skips]
  have e : db.num_hash_tables - i = (db.num_hash_tables - (i + 1)) + 1 := by omega
  rw [e, put_pages_step db key value false _ i _ _ hk I.layout.len_max
    (fun ho => (I.slot_in_file key hi ho).2)]
  rw [if_neg loc.filled, if_neg (by simp [loc.key_eq])]
  exact put_found_put I hi loc.filled hk hv _ (by intro hst; rw [if_pos hst])

/-- `KVDB_delete` of a located key clears the status byte of its record. -/
theorem delete_located {db : KVDB} (I : Inv db) {key : List Byte} {i : Nat}
    (loc : Located db key i) (hk : key.length = db.key_size) :
    KVDB_delete db key =
      .ret (0, with_file db ⟨pwrite db.f.data (slot_off db key i) [0], true⟩) := by
  have hi := loc.lt
  show put_pages db key [] true (slot_of db key) db.num_hash_tables 0
    KVDB_HEADER_SIZE KVDB_HEADER_SIZE = _
  rw [put_pages_skip I [] true hk i (by omega) loc.skips]
  have e : db.num_hash_tables - i = (db.num_hash_tables - (i + 1)) + 1 := by omega
  rw [e, put_pages_step db key [] true _ i _ _ hk I.layout.len_max
    (fun ho => (I.slot_in_file key hi ho).2)]
  rw [if_neg loc.filled, if_neg (by simp [loc.key_eq])]
  exact (put_found_delete I key [] hi loc.filled _ _).1

/-! ## Where the key is after a write -/

/-- A write that leaves every byte outside the record of slot `i` alone and
puts `key` into its key field locates `key` at page `i`. -/
theorem Located.rewrite {db : KVDB} (I : Inv db) {key : List Byte} {i : Nat}
    (hi : i < db.num_hash_tables) (hsk : ∀ j, j < i → Skips db key j)
    (ho : slot_off db key i ≠ 0) {d1 : List Byte}
    (hkeep : ∀ a m, (a + m ≤ slot_off db key i ∨
        slot_off db key i + (1 + db.key_size + db.value_size) ≤ a) →
      fslice d1 a m = fslice db.f.data a m)
    (hkey : rec_key d1 db.key_size (slot_off db key i) = key) :
    Located (with_file db ⟨d1, true⟩) key i := by
  have hh := slot_of_lt db key I.S_pos
  refine ⟨hi, ?_, ho, hkey⟩
  intro j hj
  obtain ⟨h1, h2, h3⟩ := hsk j hj
  have hinj := I.slot_in_file key (by omega) h1
  have hdis := I.layout.slot_slot j _ i _ (by omega) hh hi hh (Or.inl (by omega)) h1 ho
  have hdis' : slot_off db key j + (1 + db.key_size + db.value_size) ≤ slot_off db key i ∨
      slot_off db key i + (1 + db.key_size + db.value_size) ≤ slot_off db key j := hdis
  refine ⟨h1, ?_, ?_⟩
  · show rec_status d1 (slot_off db key j) ≠ 0
    unfold rec_status
    rw [hkeep _ _ (by omega)]
    exact h2
  · show rec_key d1 db.key_size (slot_off db key j) ≠ key
    unfold rec_key
    rw [hkeep _ _ (by omega)]
    exact h3

/-- The fields of a record `1 :: key ++ value` that starts at offset `o`. -/
theorem record_fields {X : List Byte} {o : Nat} (hX : X.length = o) (key value : List Byte) :
    rec_status (X ++ (1 :: (key ++ value))) o = 1 ∧
    rec_key (X ++ (1 :: (key ++ value))) key.length o = key ∧
    rec_value (X ++ (1 :: (key ++ value))) key.length value.length o = value := by
  subst hX
  refine ⟨?_, ?_, ?_⟩
  · unfold rec_status
    have := fslice_append_right X (1 :: (key ++ value)) 0 1
    rw [Nat.add_zero] at this
    rw [this]; rfl
  · unfold rec_key
    rw [fslice_append_right]
    have := fslice_mid (p := [1]) (x := key) value (a := 1) (m := key.length) rfl rfl
    simpa using this
  · unfold rec_value
    rw [Nat.add_assoc, fslice_append_right]
    have := fslice_mid (p := 1 :: key) (x := value) [] (a := 1 + key.length)
      (m := value.length) (by simp; omega) rfl
    simpa using this

/-- Cells of the page array after a slot has been filled. -/
theorem filled_cell (db : KVDB) (I : Inv db) (key value : List Byte) {i : Nat}
    (hi : i < db.num_hash_tables) (j c : Nat) (hc : c ≤ db.hash_table_size) :
    cell_at (filled_handle db key value i).hash_tables db.hash_table_size j c =
      if j = i ∧ c = slot_of db key then db.f.data.length
      else cell_at db.hash_tables db.hash_table_size j c := by
  have hh := slot_of_lt db key I.S_pos
  exact cell_at_set _ j c (by omega) hc
    (by rw [I.layout.ht_len]; exact idx_lt hi (by omega))

/-- Bytes of the old file outside the patched slot cell are kept when a slot
is filled. -/
theorem filled_keep (db : KVDB) (I : Inv db) (key value : List Byte) {i : Nat}
    (hi : i < db.num_hash_tables) (a m : Nat) (ham : a + m ≤ db.f.data.length)
    (hdis : a + m ≤ page_at db.hash_tables db.hash_table_size i + 8 * slot_of db key ∨
      page_at db.hash_tables db.hash_table_size i + 8 * slot_of db key + 8 ≤ a) :
    fslice (filled_handle db key value i).f.data a m = fslice db.f.data a m := by
  have hh := slot_of_lt db key I.S_pos
  have hpi := I.layout.page_in i hi
  show fslice (pwrite _ _ _) a m = _
  rw [fslice_pwrite_disjoint _ (by simp; omega) (by rw [length_u64_bytes]; exact hdis),
    fslice_append_left _ ham]

/-- Records of filled slots are kept when another slot is filled. -/
theorem filled_frame (db : KVDB) (I : Inv db) (key value : List Byte) {i : Nat}
    (hi : i < db.num_hash_tables) (j c : Nat) (hj : j < db.num_hash_tables)
    (hc : c < db.hash_table_size) (ho : cell_at db.hash_tables db.hash_table_size j c ≠ 0)
    (a m : Nat) (h1 : cell_at db.hash_tables db.hash_table_size j c ≤ a)
    (h2 : a + m ≤ cell_at db.hash_tables db.hash_table_size j c
      + (1 + db.key_size + db.value_size)) :
    fslice (filled_handle db key value i).f.data a m = fslice db.f.data a m := by
  have hh := slot_of_lt db key I.S_pos
  have hin := I.layout.slot_in j c hj hc ho
  apply filled_keep db I key value hi a m (by omega)
  rcases I.layout.slot_page j c i hj hc hi ho with h3 | h3
  · left; omega
  · right; omega

/-- The new record behind the old end of the file when a slot is filled. -/
theorem filled_record (db : KVDB) (I : Inv db) {key value : List Byte} {i : Nat}
    (hi : i < db.num_hash_tables)
    (hk : key.length = db.key_size) (hv : value.length = db.value_size) :
    rec_status (filled_handle db key value i).f.data db.f.data.length = 1 ∧
    rec_key (filled_handle db key value i).f.data db.key_size db.f.data.length = key ∧
    rec_value (filled_handle db key value i).f.data db.key_size db.value_size
      db.f.data.length = value := by
  have hh := slot_of_lt db key I.S_pos
  have hpi := I.layout.page_in i hi
  obtain ⟨r1, r2, r3⟩ := record_fields (X := db.f.data) rfl key value
  rw [hk] at r2 r3
  rw [hv] at r3
  have hq : page_at db.hash_tables db.hash_table_size i + 8 * slot_of db key
      ≤ (db.f.data ++ (1 :: (key ++ value))).length := by simp; omega
  have keep : ∀ a m, db.f.data.length ≤ a →
      fslice (filled_handle db key value i).f.data a m
        = fslice (db.f.data ++ (1 :: (key ++ value))) a m := by
    intro a m ha
    show fslice (pwrite _ _ _) a m = _
    rw [fslice_pwrite_disjoint _ hq (by rw [length_u64_bytes]; right; omega)]
  refine ⟨?_, ?_, ?_⟩
  · unfold rec_status at r1 ⊢; rw [keep _ _ (Nat.le_refl _)]; exact r1
  · unfold rec_key at r2 ⊢; rw [keep _ _ (by omega)]; exact r2
  · unfold rec_value at r3 ⊢; rw [keep _ _ (by omega)]; exact r3

theorem filled_located {db : KVDB} (I : Inv db) {key value : List Byte} {i : Nat}
    (hi : i < db.num_hash_tables) (hsk : ∀ j, j < i → Skips db key j)
    (he : slot_off db key i = 0)
    (hk : key.length = db.key_size) (hv : value.length = db.value_size) :
    Located (filled_handle db key value i) key i ∧
      slot_off (filled_handle db key value i) key i = db.f.data.length := by
  have hh := slot_of_lt db key I.S_pos
  have hmin := I.layout.len_min
  have hoff : ∀ j, slot_off (filled_handle db key value i) key j =
      if j = i then db.f.data.length else slot_off db key j := by
    intro j
    show cell_at (filled_handle db key value i).hash_tables db.hash_table_size j
      (slot_of db key) = _
    rw [filled_cell db I key value hi j _ (by omega)]
    by_cases e : j = i
    · rw [if_pos ⟨e, rfl⟩, if_pos e]
    · rw [if_neg (by tauto), if_neg e]; rfl
  obtain ⟨r1, r2, r3⟩ := filled_record db I hi hk hv
  refine ⟨⟨hi, ?_, ?_, ?_⟩, ?_⟩
  · intro j hj
    obtain ⟨h1, h2, h3⟩ := hsk j hj
    have hjn : j < db.num_hash_tables := by omega
    have hin := I.slot_in_file key hjn h1
    have hf : ∀ a m, slot_off db key j ≤ a →
        a + m ≤ slot_off db key j + (1 + db.key_size + db.value_size) →
        fslice (filled_handle db key value i).f.data a m = fslice db.f.data a m :=
      filled_frame db I key value hi j _ hjn hh h1
    unfold Skips
    rw [hoff j, if_neg (by omega)]
    refine ⟨h1, ?_, ?_⟩
    · show rec_status (filled_handle db key value i).f.data (slot_off db key j) ≠ 0
      unfold rec_status
      rw [hf _ _ (Nat.le_refl _) (by omega)]
      exact h2
    · show rec_key (filled_handle db key value i).f.data db.key_size (slot_off db key j) ≠ key
      unfold rec_key
      rw [hf _ _ (by omega) (by omega)]
      exact h3
  · rw [hoff i, if_pos rfl]; omega
  · rw [hoff i, if_pos rfl]; exact r2
  · rw [hoff i, if_pos rfl]

theorem grown_fields (db : KVDB) (key value : List Byte) :
    (grown_handle db key value).hash_table_size = db.hash_table_size ∧
    (grown_handle db key value).key_size = db.key_size ∧
    (grown_handle db key value).value_size = db.value_size ∧
    (grown_handle db key value).num_hash_tables = db.num_hash_tables + 1 := by
  unfold grown_handle; split <;> exact ⟨rfl, rfl, rfl, rfl⟩

/-- Cells of the page array after a page has been appended. -/
theorem grown_cell (db : KVDB) (I : Inv db) (key value : List Byte) (j c : Nat)
    (hj : j ≤ db.num_hash_tables) (hc : c ≤ db.hash_table_size) :
    cell_at (grown_handle db key value).hash_tables db.hash_table_size j c =
      if j = db.num_hash_tables then
        (if c = slot_of db key then db.f.data.length + 8 * (db.hash_table_size + 1) else 0)
      else if j + 1 = db.num_hash_tables ∧ c = db.hash_table_size then db.f.data.length
      else cell_at db.hash_tables db.hash_table_size j c := by
  have hl := I.layout.ht_len
  have hnew := getD_new_page db key I.S_pos c hc
  by_cases hn : db.num_hash_tables = 0
  · have e1 : (grown_handle db key value).hash_tables = db.hash_tables ++ new_page db key := by
      unfold grown_handle; rw [if_pos hn]
    have hj0 : j = db.num_hash_tables := by omega
    rw [e1, if_pos hj0, hj0, cell_at_append_right _ c hl, hnew]
  · have e1 : (grown_handle db key value).hash_tables
        = (db.hash_tables ++ new_page db key).set
          ((db.num_hash_tables - 1) * (db.hash_table_size + 1) + db.hash_table_size)
          db.f.data.length := by
      unfold grown_handle; rw [if_neg hn]
    have hidx : (db.num_hash_tables - 1) * (db.hash_table_size + 1) + db.hash_table_size
        < (db.hash_tables ++ new_page db key).length := by
      rw [List.length_append, hl]
      have := idx_lt (j := db.num_hash_tables - 1) (n := db.num_hash_tables)
        (W := db.hash_table_size + 1) (c := db.hash_table_size) (by omega) (by omega)
      omega
    rw [e1, cell_at_set db.f.data.length j c (Nat.le_refl _) hc hidx]
    by_cases e : j = db.num_hash_tables
    · rw [if_pos e, if_neg (by omega), e, cell_at_append_right _ c hl, hnew]
    · rw [if_neg e]
      by_cases e2 : j + 1 = db.num_hash_tables ∧ c = db.hash_table_size
      · rw [if_pos e2, if_pos ⟨by omega, e2.2⟩]
      · rw [if_neg e2, if_neg (by omega), cell_at_append_left _ j c hl (by omega) hc]

/-- Bytes of the old file outside the pages are kept when a page is appended. -/
theorem grown_keep (db : KVDB) (I : Inv db) (key value : List Byte) (a m : Nat)
    (ham : a + m ≤ db.f.data.length)
    (hdis : ∀ j, j < db.num_hash_tables →
      a + m ≤ page_at db.hash_tables db.hash_table_size j ∨
      page_at db.hash_tables db.hash_table_size j + 8 * (db.hash_table_size + 1) ≤ a) :
    fslice (grown_handle db key value).f.data a m = fslice db.f.data a m := by
  obtain ⟨dl, dkeep, _, _⟩ := appended_page_bytes db key value
  by_cases hn : db.num_hash_tables = 0
  · have e2 : (grown_handle db key value).f.data
        = db.f.data ++ cells_bytes (new_page db key) ++ (1 :: (key ++ value)) := by
      unfold grown_handle; rw [if_pos hn]
    rw [e2, dkeep a m ham]
  · have e2 : (grown_handle db key value).f.data
        = pwrite (db.f.data ++ cells_bytes (new_page db key) ++ (1 :: (key ++ value)))
          (page_at db.hash_tables db.hash_table_size (db.num_hash_tables - 1)
            + 8 * db.hash_table_size) (u64_bytes db.f.data.length) := by
      unfold grown_handle; rw [if_neg hn]
    have hpl := I.layout.page_in (db.num_hash_tables - 1) (by omega)
    rw [e2, fslice_pwrite_disjoint _ (by rw [dl]; omega), dkeep a m ham]
    rw [length_u64_bytes]
    rcases hdis (db.num_hash_tables - 1) (by omega) with h1 | h1
    · left; omega
    · right; omega

/-- Records of filled slots are kept when a page is appended. -/
theorem grown_frame (db : KVDB) (I : Inv db) (key value : List Byte)
    (j c : Nat) (hj : j < db.num_hash_tables)
    (hc : c < db.hash_table_size) (ho : cell_at db.hash_tables db.hash_table_size j c ≠ 0)
    (a m : Nat) (h1 : cell_at db.hash_tables db.hash_table_size j c ≤ a)
    (h2 : a + m ≤ cell_at db.hash_tables db.hash_table_size j c
      + (1 + db.key_size + db.value_size)) :
    fslice (grown_handle db key value).f.data a m = fslice db.f.data a m := by
  have hin := I.layout.slot_in j c hj hc ho
  apply grown_keep db I key value a m (by omega)
  intro j2 hj2
  rcases I.layout.slot_page j c j2 hj hc hj2 ho with h3 | h3
  · left; omega
  · right; omega

/-- The new record behind the new page when a page is appended. -/
theorem grown_record (db : KVDB) (I : Inv db) {key value : List Byte}
    (hk : key.length = db.key_size) (hv : value.length = db.value_size) :
    rec_status (grown_handle db key value).f.data
      (db.f.data.length + 8 * (db.hash_table_size + 1)) = 1 ∧
    rec_key (grown_handle db key value).f.data db.key_size
      (db.f.data.length + 8 * (db.hash_table_size + 1)) = key ∧
    rec_value (grown_handle db key value).f.data db.key_size db.value_size
      (db.f.data.length + 8 * (db.hash_table_size + 1)) = value := by
  have lX : (db.f.data ++ cells_bytes (new_page db key)).length
      = db.f.data.length + 8 * (db.hash_table_size + 1) := by
    rw [List.length_append, length_cells_bytes, length_new_page]
  obtain ⟨r1, r2, r3⟩ := record_fields lX key value
  rw [hk] at r2 r3
  rw [hv] at r3
  have keep : ∀ a m, db.f.data.length ≤ a →
      fslice (grown_handle db key value).f.data a m
        = fslice (db.f.data ++ cells_bytes (new_page db key) ++ (1 :: (key ++ value))) a m := by
    intro a m ha
    by_cases hn : db.num_hash_tables = 0
    · have e2 : (grown_handle db key value).f.data
          = db.f.data ++ cells_bytes (new_page db key) ++ (1 :: (key ++ value)) := by
        unfold grown_handle; rw [if_pos hn]
      rw [e2]
    · have e2 : (grown_handle db key value).f.data
          = pwrite (db.f.data ++ cells_bytes (new_page db key) ++ (1 :: (key ++ value)))
            (page_at db.hash_tables db.hash_table_size (db.num_hash_tables - 1)
              + 8 * db.hash_table_size) (u64_bytes db.f.data.length) := by
        unfold grown_handle; rw [if_neg hn]
      have hpl := I.layout.page_in (db.num_hash_tables - 1) (by omega)
      rw [e2, fslice_pwrite_disjoint _ (by simp; omega)
        (by rw [length_u64_bytes]; right; omega)]
  refine ⟨?_, ?_, ?_⟩
  · unfold rec_status at r1 ⊢; rw [keep _ _ (by omega)]; exact r1
  · unfold rec_key at r2 ⊢; rw [keep _ _ (by omega)]; exact r2
  · unfold rec_value at r3 ⊢; rw [keep _ _ (by omega)]; exact r3

theorem grown_located {db : KVDB} (I : Inv db) {key value : List Byte}
    (hsk : ∀ j, j < db.num_hash_tables → Skips db key j)
    (hk : key.length = db.key_size) (hv : value.length = db.value_size) :
    Located (grown_handle db key value) key db.num_hash_tables ∧
      slot_off (grown_handle db key value) key db.num_hash_tables
        = db.f.data.length + 8 * (db.hash_table_size + 1) := by
  have hh := slot_of_lt db key I.S_pos
  have hmin := I.layout.len_min
  obtain ⟨eS, eK, eV, en⟩ := grown_fields db key value
  have hslot : slot_of (grown_handle db key value) key = slot_of db key := by
    unfold slot_of; rw [eS, eK]
  have hoff : ∀ j, j ≤ db.num_hash_tables → slot_off (grown_handle db key value) key j =
      if j = db.num_hash_tables then db.f.data.length + 8 * (db.hash_table_size + 1)
      else slot_off db key j := by
    intro j hj
    unfold slot_off
    rw [hslot, eS, grown_cell db I key value j _ hj (by omega)]
    by_cases e : j = db.num_hash_tables
    · rw [if_pos e, if_pos e, if_pos rfl]
    · rw [if_neg e, if_neg e, if_neg (by omega)]
  obtain ⟨r1, r2, r3⟩ := grown_record db I hk hv
  refine ⟨⟨by rw [en]; omega, ?_, ?_, ?_⟩, ?_⟩
  · intro j hj
    obtain ⟨h1, h2, h3⟩ := hsk j hj
    have hin := I.slot_in_file key hj h1
    have hf : ∀ a m, slot_off db key j ≤ a →
        a + m ≤ slot_off db key j + (1 + db.key_size + db.value_size) →
        fslice (grown_handle db key value).f.data a m = fslice db.f.data a m :=
      grown_frame db I key value j _ hj hh h1
    unfold Skips
    rw [hoff j (by omega), if_neg (by omega), eK]
    refine ⟨h1, ?_, ?_⟩
    · unfold rec_status
      rw [hf _ _ (Nat.le_refl _) (by omega)]
      exact h2
    · unfold rec_key
      rw [hf _ _ (by omega) (by omega)]
      exact h3
  · rw [hoff _ (Nat.le_refl _), if_pos rfl]; omega
  · rw [hoff _ (Nat.le_refl _), if_pos rfl, eK]; exact r2
  · rw [hoff _ (Nat.le_refl _), if_pos rfl]

/-! ## Round trip, overwrite, tombstone and reinsert -/

theorem PutCase.geometry {db db1 : KVDB} {key value : List Byte}
    (c : PutCase db key value db1) :
    db1.hash_table_size = db.hash_table_size ∧ db1.key_size = db.key_size ∧
      db1.value_size = db.value_size := by
  cases c with
  | found i hi skips filled stop eq => rw [eq]; exact ⟨rfl, rfl, rfl⟩
  | empty i hi skips free fit eq => rw [eq]; exact ⟨rfl, rfl, rfl⟩
  | grown skips fit eq =>
    rw [eq]
    obtain ⟨h1, h2, h3, _⟩ := grown_fields db key value
    exact ⟨h1, h2, h3⟩

/-- After a `KVDB_put` that returned 0 the key is located at a page whose
record is live and holds the value. -/
theorem PutCase.located {db db1 : KVDB} {key value : List Byte} (I : Inv db)
    (hk : key.length = db.key_size) (hv : value.length = db.value_size)
    (c : PutCase db key value db1) :
    ∃ i, Located db1 key i ∧ rec_status db1.f.data (slot_off db1 key i) = 1 ∧
      rec_value db1.f.data db1.key_size db1.value_size (slot_off db1 key i) = value := by
  have hh := slot_of_lt db key I.S_pos
  cases c with
  | found i hi skips filled stop eq =>
    obtain ⟨_, _, s3, s4, s5, s6⟩ := put_found_data_spec I.layout hi hh filled hk hv
      (rec_status db.f.data (slot_off db key i)) rfl
    rw [eq]
    refine ⟨i, Located.rewrite I hi skips filled s6 ?_, s3, s5⟩
    rcases stop with e | e
    · have := s4
      rw [if_pos e] at this
      exact this
    · by_cases e0 : rec_status db.f.data (slot_off db key i) = 0
      · have := s4
        rw [if_pos e0] at this
        exact this
      · have := s4
        rw [if_neg e0] at this
        exact this.trans e
  | empty i hi skips free fit eq =>
    obtain ⟨loc, eo⟩ := filled_located I hi skips free hk hv
    obtain ⟨r1, _, r3⟩ := filled_record db I hi hk hv
    rw [eq]
    refine ⟨i, loc, ?_, ?_⟩
    · rw [eo]; exact r1
    · rw [eo]; exact r3
  | grown skips fit eq =>
    obtain ⟨loc, eo⟩ := grown_located I skips hk hv
    obtain ⟨r1, _, r3⟩ := grown_record db I hk hv
    obtain ⟨_, eK, eV, _⟩ := grown_fields db key value
    rw [eq]
    refine ⟨db.num_hash_tables, loc, ?_, ?_⟩
    · rw [eo]; exact r1
    · rw [eo, eK, eV]; exact r3

/-- C1. Round trip: in every reachable database state, when `KVDB_put` of a
key of `key_size` bytes and a value of `value_size` bytes returns 0, the
`KVDB_get` of that key that follows returns 0 and fills the buffer with
exactly that value. -/
theorem put_get_round_trip (db : KVDB) (hr : Reachable db) (key value : List Byte)
    (hk : key.length = db.key_size) (hv : value.length = db.value_size) (db1 : KVDB)
    (h : KVDB_put db key value = .ret (0, db1)) (vbuf : List Byte) :
    KVDB_get db1 key vbuf = (0, value) := by
  have I := hr.inv_holds
  have c := KVDB_put_ret I hk hv h
  have I1 := c.inv_after I hk hv
  obtain ⟨i, loc, hst, hval⟩ := c.located I hk hv
  rw [get_located I1 loc (by rw [c.geometry.2.1]; exact hk) vbuf, hst, if_neg (by decide), hval]

/-- Rewriting the record of a located key in a handle that satisfies the
invariant. -/
theorem put_on_located {db : KVDB} (I : Inv db) {key value : List Byte} {i : Nat}
    (loc : Located db key i) (hk : key.length = db.key_size)
    (hv : value.length = db.value_size) :
    ∃ db1, KVDB_put db key value = .ret (0, db1) ∧ Inv db1 ∧
      (∀ vbuf, KVDB_get db1 key vbuf = (0, value)) ∧
      db1.f.data.length = db.f.data.length ∧ db1.num_hash_tables = db.num_hash_tables ∧
      db1.hash_tables = db.hash_tables := by
  have hh := slot_of_lt db key I.S_pos
  refine ⟨_, put_located I loc hk hv, ?_, ?_, ?_, rfl, rfl⟩
  · exact KVDB_put_inv I hk hv (put_located I loc hk hv)
  · intro vbuf
    have c := KVDB_put_ret I hk hv (put_located I loc hk hv)
    have I1 := c.inv_after I hk hv
    obtain ⟨j, loc1, hst, hval⟩ := c.located I hk hv
    rw [get_located I1 loc1 hk vbuf, hst, if_neg (by decide)]
    exact congrArg _ hval
  · exact (put_found_data_spec I.layout loc.lt hh loc.filled hk hv _ rfl).2.1

/-- C3. Overwrite in place: in every reachable database state, after
`put(k, v1)` has returned 0 a `put(k, v2)` returns 0, the `get(k)` that follows
returns 0 with `v2`, and the second put leaves the file length and
`num_hash_tables` as they were after the first. -/
theorem put_put_overwrite (db : KVDB) (hr : Reachable db) (key v1 v2 : List Byte)
    (hk : key.length = db.key_size) (hv1 : v1.length = db.value_size)
    (hv2 : v2.length = db.value_size) (db1 : KVDB)
    (h : KVDB_put db key v1 = .ret (0, db1)) :
    ∃ db2, KVDB_put db1 key v2 = .ret (0, db2) ∧
      (∀ vbuf, KVDB_get db2 key vbuf = (0, v2)) ∧
      db2.f.data.length = db1.f.data.length ∧
      db2.num_hash_tables = db1.num_hash_tables := by
  have I := hr.inv_holds
  have c := KVDB_put_ret I hk hv1 h
  have I1 := c.inv_after I hk hv1
  obtain ⟨i, loc, _, _⟩ := c.located I hk hv1
  obtain ⟨eS, eK, eV⟩ := c.geometry
  obtain ⟨db2, h2, _, g2, l2, n2, _⟩ := put_on_located I1 loc (by rw [eK]; exact hk)
    (by rw [eV]; exact hv2)
  exact ⟨db2, h2, g2, l2, n2⟩

/-- Deleting a located key: the call returns 0, the key stays located at the
same page with a cleared status byte, and only that byte of the file changes. -/
theorem delete_on_located {db : KVDB} (I : Inv db) {key : List Byte} {i : Nat}
    (loc : Located db key i) (hk : key.length = db.key_size) :
    ∃ db1, KVDB_delete db key = .ret (0, db1) ∧ Inv db1 ∧ Located db1 key i ∧
      rec_status db1.f.data (slot_off db1 key i) = 0 ∧
      db1.key_size = db.key_size ∧ db1.value_size = db.value_size ∧
      db1.f.data.length = db.f.data.length ∧ db1.num_hash_tables = db.num_hash_tables := by
  have hin := I.slot_in_file key loc.lt loc.filled
  have hd := delete_located I loc hk
  have hpos : slot_off db key i ≤ db.f.data.length := by omega
  refine ⟨_, hd, KVDB_delete_inv I hk hd, ?_, ?_, rfl, rfl, ?_, rfl⟩
  · apply Located.rewrite I loc.lt loc.skips loc.filled
    · intro a m ham
      exact fslice_pwrite_disjoint [0] hpos (by simp; omega)
    · unfold rec_key
      rw [fslice_pwrite_disjoint [0] hpos (by simp)]
      exact loc.key_eq
  · exact rec_status_of_slice (fslice_pwrite_same [0] hpos)
  · show (pwrite db.f.data (slot_off db key i) [0]).length = _
    rw [length_pwrite]; simp; omega

/-- C2. Tombstone then reinsert: in every reachable database state, after
`put(k, v1)` has returned 0, `delete(k)` returns 0 and `get(k)` returns 1 (not
found); the `put(k, v2)` that follows returns 0, `get(k)` then returns 0 with
`v2`, and that put leaves `num_hash_tables`, the page array and the file
length unchanged. -/
theorem put_delete_put_reuse (db : KVDB) (hr : Reachable db) (key v1 v2 : List Byte)
    (hk : key.length = db.key_size) (hv1 : v1.length = db.value_size)
    (hv2 : v2.length = db.value_size) (db1 : KVDB)
    (h : KVDB_put db key v1 = .ret (0, db1)) :
    ∃ db2, KVDB_delete db1 key = .ret (0, db2) ∧
      (∀ vbuf, KVDB_get db2 key vbuf = (1, vbuf)) ∧
      ∃ db3, KVDB_put db2 key v2 = .ret (0, db3) ∧
        (∀ vbuf, KVDB_get db3 key vbuf = (0, v2)) ∧
        db3.num_hash_tables = db2.num_hash_tables ∧
        db3.hash_tables = db2.hash_tables ∧
        db3.f.data.length = db2.f.data.length := by
  have I := hr.inv_holds
  have c := KVDB_put_ret I hk hv1 h
  have I1 := c.inv_after I hk hv1
  obtain ⟨i, loc, _, _⟩ := c.located I hk hv1
  obtain ⟨eS, eK, eV⟩ := c.geometry
  have hk1 : key.length = db1.key_size := by rw [eK]; exact hk
  obtain ⟨db2, hd, I2, loc2, hst2, eK2, eV2, _, _⟩ := delete_on_located I1 loc hk1
  have hk2 : key.length = db2.key_size := by rw [eK2]; exact hk1
  obtain ⟨db3, h3, _, g3, l3, n3, t3⟩ := put_on_located I2 loc2 hk2
    (by rw [eV2, eV]; exact hv2)
  refine ⟨db2, hd, ?_, db3, h3, g3, n3, t3, l3⟩
  intro vbuf
  rw [get_located I2 loc2 hk2 vbuf, if_pos hst2]

/-! ## Loading the page chain back from the file -/

theorem length_bytes_cells (m : Nat) (bs : List Byte) : (bytes_cells m bs).length = m := by
  induction m generalizing bs with
  | zero => rfl
  | succ m ih => simp [bytes_cells, ih]

theorem fslice_drop (bs : List Byte) (k x y : Nat) :
    fslice (bs.drop k) x y = fslice bs (k + x) y := by
  unfold fslice
  rw [List.drop_drop]

theorem getD_bytes_cells (m : Nat) (bs : List Byte) (c : Nat) (hc : c < m) :
    (bytes_cells m bs).getD c 0 = le_value (fslice bs (8 * c) 8) := by
  induction m generalizing bs c with
  | zero => omega
  | succ m ih =>
    cases c with
    | zero =>
      show le_value (bs.take 8) = _
      rw [Nat.mul_zero, fslice_zero_take]
    | succ c =>
      show (bytes_cells m (bs.drop 8)).getD c 0 = _
      rw [ih (bs.drop 8) c (by omega), fslice_drop]
      congr 2; omega

theorem list_ext_getD {xs ys : List Nat} (hl : xs.length = ys.length)
    (h : ∀ c, c < xs.length → xs.getD c 0 = ys.getD c 0) : xs = ys := by
  apply List.ext_getElem hl
  intro i h1 h2
  have := h i h1
  rw [List.getD_eq_getElem?_getD, List.getD_eq_getElem?_getD,
    List.getElem?_eq_getElem h1, List.getElem?_eq_getElem h2] at this
  exact this

/-- Every cell of the page array fits 64 bits. -/
theorem Layout.cell_lt {S K V n : Nat} {ht : List Nat} {d : List Byte}
    (L : Layout S K V n ht d) (i c : Nat) (hi : i < n) (hc : c ≤ S) :
    cell_at ht S i c < U64 := by
  have hmax := L.len_max
  rw [off_max_eq] at hmax
  rw [u64_eq]
  by_cases e : c = S
  · subst e
    by_cases e2 : i + 1 = n
    · rw [L.last_next i e2]; omega
    · have := L.page_in (i + 1) (by omega)
      have e3 : page_at ht c (i + 1) = cell_at ht c i c := rfl
      omega
  · by_cases e2 : cell_at ht S i c = 0
    · omega
    · have := L.slot_in i c hi (by omega) e2
      omega

/-- Decoding the bytes of page `i` on disk gives back page `i` of the array. -/
theorem Layout.page_decode {S K V n : Nat} {ht : List Nat} {d : List Byte}
    (L : Layout S K V n ht d) (i : Nat) (hi : i < n) :
    bytes_cells (S + 1) (fslice d (page_at ht S i) (8 * (S + 1)))
      = (ht.drop (i * (S + 1))).take (S + 1) := by
  have hlen : i * (S + 1) + (S + 1) ≤ ht.length := by
    rw [L.ht_len]
    have := Nat.mul_le_mul_right (S + 1) (show i + 1 ≤ n by omega)
    rw [Nat.add_mul, Nat.one_mul] at this
    exact this
  apply list_ext_getD
  · rw [length_bytes_cells, List.length_take, List.length_drop]; omega
  · intro c hc
    rw [length_bytes_cells] at hc
    rw [getD_bytes_cells _ _ c hc, fslice_fslice _ _ _ _ _ (by omega),
      L.page_disk i c hi (by omega), le_value_u64_bytes (L.cell_lt i c hi (by omega))]
    unfold cell_at
    rw [List.getD_eq_getElem?_getD, List.getD_eq_getElem?_getD, List.getElem?_take,
      if_pos hc, List.getElem?_drop]

theorem Inv.psize_exact {db : KVDB} (I : Inv db) (hn : 0 < db.num_hash_tables) :
    db.hash_table_size_bytes = 8 * (db.hash_table_size + 1) := by
  have h1 := I.layout.page_in 0 hn
  have h2 := I.layout.len_max
  rw [off_max_eq] at h2
  rw [I.psize, u64_eq]
  omega

theorem load_pages_chain {db : KVDB} (I : Inv db) (f : FILE) (hf : f.data = db.f.data)
    (mem k : Nat) (hk : k < db.num_hash_tables) (hmem : db.num_hash_tables - k ≤ mem) :
    load_pages mem (loaded db f k) (page_at db.hash_tables db.hash_table_size k)
      = .ret (0, loaded db f db.num_hash_tables) := by
  induction mem generalizing k with
  | zero => omega
  | succ mem ih =>
    have hP := I.psize_exact (by omega)
    have hpi := I.layout.page_in k hk
    have hmax := I.layout.len_max
    have hr : fread_item f (page_at db.hash_tables db.hash_table_size k)
        db.hash_table_size_bytes
        = some (fslice db.f.data (page_at db.hash_tables db.hash_table_size k)
          (8 * (db.hash_table_size + 1))) := by
      rw [hP, fread_item_in (by omega) (by rw [hf]; omega), hf]
    have hnext : ((db.hash_tables.drop (k * (db.hash_table_size + 1))).take
        (db.hash_table_size + 1)).getD db.hash_table_size 0
        = cell_at db.hash_tables db.hash_table_size k db.hash_table_size := by
      unfold cell_at
      rw [List.getD_eq_getElem?_getD, List.getD_eq_getElem?_getD, List.getElem?_take,
        if_pos (by omega), List.getElem?_drop]
    have htake : db.hash_tables.take (k * (db.hash_table_size + 1)) ++
        (db.hash_tables.drop (k * (db.hash_table_size + 1))).take (db.hash_table_size + 1)
        = db.hash_tables.take ((k + 1) * (db.hash_table_size + 1)) := by
      rw [Nat.add_mul, Nat.one_mul]
      exact (List.take_add _ _ _).symm
    have ih' := ih (k + 1)
    unfold load_pages
    simp only [loaded] at ih' ⊢
    rw [hr]
    simp only
    rw [if_neg (by simp [hP]), I.layout.page_decode k hk, hnext, htake]
    by_cases hl : k + 1 = db.num_hash_tables
    · rw [I.layout.last_next k hl, if_neg (by simp), hl]
    · have hp2 := I.layout.page_in (k + 1) (by omega)
      have e3 : page_at db.hash_tables db.hash_table_size (k + 1)
          = cell_at db.hash_tables db.hash_table_size k db.hash_table_size := rfl
      rw [if_pos (by omega), if_pos (by omega), ← e3]
      exact ih' (by omega) (by omega)

/-! ## Reading does not depend on the write flag of the stream -/

theorem fread_item_data {f g : FILE} (h : f.data = g.data) (pos size : Nat) :
    fread_item f pos size = fread_item g pos size := by
  unfold fread_item; rw [h]

theorem key_compare_data {f g : FILE} (h : f.data = g.data) (fuel pos : Nat)
    (kptr : List Byte) (klen : Nat) :
    key_compare f fuel pos kptr klen = key_compare g fuel pos kptr klen := by
  induction fuel generalizing pos kptr klen with
  | zero => rfl
  | succ fuel ih =>
    unfold key_compare
    simp only [fread_bytes, h, ih]

theorem with_file_f (db : KVDB) (f : FILE) : (with_file db f).f = f := rfl
theorem with_file_hash_tables (db : KVDB) (f : FILE) :
    (with_file db f).hash_tables = db.hash_tables := rfl
theorem with_file_hash_table_size (db : KVDB) (f : FILE) :
    (with_file db f).hash_table_size = db.hash_table_size := rfl
theorem with_file_key_size (db : KVDB) (f : FILE) :
    (with_file db f).key_size = db.key_size := rfl
theorem with_file_value_size (db : KVDB) (f : FILE) :
    (with_file db f).value_size = db.value_size := rfl
theorem with_file_num_hash_tables (db : KVDB) (f : FILE) :
    (with_file db f).num_hash_tables = db.num_hash_tables := rfl

theorem get_pages_data (db : KVDB) {f : FILE} (h : f.data = db.f.data)
    (key vbuf : List Byte) (hash fuel i : Nat) :
    get_pages (with_file db f) key vbuf hash fuel i = get_pages db key vbuf hash fuel i := by
  induction fuel generalizing i with
  | zero => rfl
  | succ fuel ih =>
    unfold get_pages
    simp only [with_file_f, with_file_hash_tables, with_file_hash_table_size,
      with_file_key_size, with_file_value_size, fread_item_data h, key_compare_data h, ih]

theorem KVDB_get_data (db : KVDB) {f : FILE} (h : f.data = db.f.data)
    (key vbuf : List Byte) :
    KVDB_get (with_file db f) key vbuf = KVDB_get db key vbuf :=
  get_pages_data db h key vbuf _ _ _

theorem iterator_loop_db (db : KVDB) (kbuf vbuf : List Byte) (fuel a b : Nat) :
    (iterator_loop db kbuf vbuf fuel a b).dbi.db = db := by
  induction fuel generalizing kbuf vbuf a b with
  | zero => rfl
  | succ fuel ih =>
    unfold iterator_loop
    dsimp only
    repeat' split
    all_goals first | rfl | exact ih _ _ _ _

theorem iterator_loop_data (db : KVDB) {f : FILE} (h : f.data = db.f.data)
    (kbuf vbuf : List Byte) (fuel a b : Nat) :
    iterator_loop (with_file db f) kbuf vbuf fuel a b
      = retarget (with_file db f) (iterator_loop db kbuf vbuf fuel a b) := by
  induction fuel generalizing kbuf vbuf a b with
  | zero => rfl
  | succ fuel ih =>
    unfold iterator_loop
    simp only [with_file_f, with_file_hash_tables, with_file_hash_table_size,
      with_file_key_size, with_file_value_size, with_file_num_hash_tables,
      fread_item_data h]
    repeat' split
    all_goals first | rfl | exact ih _ _ _ _

theorem iterate_from_data (db : KVDB) {f : FILE} (h : f.data = db.f.data)
    (fuel a b : Nat) (kbuf vbuf : List Byte) :
    iterate_from fuel ⟨with_file db f, a, b⟩ kbuf vbuf
      = iterate_from fuel ⟨db, a, b⟩ kbuf vbuf := by
  induction fuel generalizing a b kbuf vbuf with
  | zero => rfl
  | succ fuel ih =>
    unfold iterate_from
    have e : KVDB_iterator_next ⟨with_file db f, a, b⟩ kbuf vbuf
        = retarget (with_file db f) (KVDB_iterator_next ⟨db, a, b⟩ kbuf vbuf) :=
      iterator_loop_data db h kbuf vbuf _ a b
    have e2 : (KVDB_iterator_next ⟨db, a, b⟩ kbuf vbuf).dbi
        = ⟨db, (KVDB_iterator_next ⟨db, a, b⟩ kbuf vbuf).dbi.h_no,
            (KVDB_iterator_next ⟨db, a, b⟩ kbuf vbuf).dbi.h_idx⟩ := by
      have hdb : (KVDB_iterator_next ⟨db, a, b⟩ kbuf vbuf).dbi.db = db :=
        iterator_loop_db db kbuf vbuf (db.num_hash_tables * db.hash_table_size + 1) a b
      generalize KVDB_iterator_next ⟨db, a, b⟩ kbuf vbuf = r at hdb ⊢
      cases r with
      | mk code dbi k v =>
        cases dbi
        simp_all
    simp only [e]
    rw [e2]
    simp only [retarget, ih]

theorem iterate_all_data (db : KVDB) {f : FILE} (h : f.data = db.f.data) :
    iterate_all (with_file db f) = iterate_all db :=
  iterate_from_data db h _ 0 0 [] []

/-! ## Persistence -/

theorem Inv.header_good {db : KVDB} (I : Inv db) :
    ¬ header_bad db.f.data ∧
      le_value (fslice db.f.data 4 8) = db.hash_table_size ∧
      le_value (fslice db.f.data 12 8) = db.key_size ∧
      le_value (fslice db.f.data 20 8) = db.value_size := by
  have hh := I.layout.header
  have hg := header_bytes_good (Nat.pos_iff_ne_zero.mp I.S_pos) (Nat.pos_iff_ne_zero.mp I.K_pos)
    (Nat.pos_iff_ne_zero.mp I.V_pos) I.S_lt I.K_lt I.V_lt
  have e0 : ∀ x, x < 28 → db.f.data.getD x 0
      = (header_bytes db.hash_table_size db.key_size db.value_size).getD x 0 := by
    intro x hx
    rw [← hh, getD_fslice_zero _ 28 x hx]
  have e1 : ∀ x y, x + y ≤ 28 → fslice db.f.data x y
      = fslice (header_bytes db.hash_table_size db.key_size db.value_size) x y := by
    intro x y hxy
    rw [← hh, fslice_fslice _ _ _ _ _ hxy, Nat.zero_add]
  have hb : header_bad db.f.data
      ↔ header_bad (header_bytes db.hash_table_size db.key_size db.value_size) := by
    unfold header_bad
    rw [e0 0 (by omega), e0 1 (by omega), e0 2 (by omega), e0 3 (by omega),
      e1 4 8 (by omega), e1 12 8 (by omega), e1 20 8 (by omega)]
  refine ⟨fun h => hg (hb.mp h), ?_, ?_, ?_⟩
  · rw [e1 4 8 (by omega), header_bytes_S, le_value_u64_bytes I.S_lt]
  · rw [e1 12 8 (by omega), header_bytes_K, le_value_u64_bytes I.K_lt]
  · rw [e1 20 8 (by omega), header_bytes_V, le_value_u64_bytes I.V_lt]

theorem loaded_all {db : KVDB} (I : Inv db) (f : FILE) :
    loaded db f db.num_hash_tables = with_file db f := by
  unfold loaded with_file
  rw [List.take_of_length_le (by rw [I.layout.ht_len])]

theorem open_finish_loaded {db : KVDB} (I : Inv db)
    (hP : db.hash_table_size_bytes ≤ PTRDIFF_MAX) (f : FILE) (mem : Nat) :
    open_finish f db.hash_table_size db.key_size db.value_size mem
      = load_pages mem (loaded db f 0) KVDB_HEADER_SIZE := by
  rw [I.psize] at hP
  unfold open_finish loaded
  simp only
  rw [if_neg (by omega), I.psize]
  simp

/-- Reopening the file of a handle that satisfies the invariant rebuilds the
handle, with the new stream in place of the old one. -/
theorem Inv.reopen {db : KVDB} (I : Inv db) (hP : db.hash_table_size_bytes ≤ PTRDIFF_MAX)
    (mode : Int) (S1 K1 V1 mem : Nat) (f : FILE)
    (hf : KVDB_fopen (some db.f.data) mode = some f) (hlen : 28 ≤ f.data.length)
    (hmem : db.num_hash_tables ≤ mem) :
    f.data = db.f.data ∧
      KVDB_open (some db.f.data) mode S1 K1 V1 mem = .ret (0, with_file db f) := by
  have hmin := I.layout.len_min
  have hd : f.data = db.f.data := by
    rcases fopen_data hf with h | h
    · exact h
    · rw [h] at hlen; simp at hlen
  refine ⟨hd, ?_⟩
  obtain ⟨hg, eS, eK, eV⟩ := I.header_good
  rw [open_long _ mode S1 K1 V1 mem f hf hlen, hd, if_neg hg, eS, eK, eV]
  rw [open_finish_loaded I hP f mem]
  by_cases hn : db.num_hash_tables = 0
  · rw [load_pages_eof]
    · rw [← loaded_all I f, hn]
    · show f.data.length ≤ KVDB_HEADER_SIZE
      rw [hd, I.layout.empty_len hn]
      decide
  · have := load_pages_chain I f hd mem 0 (by omega) (by omega)
    rw [loaded_all I f] at this
    exact this

/-- C6. Persistence: for every reachable database state, `KVDB_open` on the
bytes of its file (read through any stream that holds them, with room for the
pages of the chain) returns 0 and rebuilds the same `S`, `K`, `V`, page size,
`num_hash_tables` and page array, cell for cell; `KVDB_get` of every key and a
full iteration give the same results on the reopened handle. -/
theorem reopen_reachable (db : KVDB) (hr : Reachable db) (mode : Int) (S1 K1 V1 mem : Nat)
    (f : FILE) (hf : KVDB_fopen (some db.f.data) mode = some f) (hlen : 28 ≤ f.data.length)
    (hmem : db.num_hash_tables ≤ mem) :
    ∃ db2, KVDB_open (some db.f.data) mode S1 K1 V1 mem = .ret (0, db2) ∧
      db2.hash_table_size = db.hash_table_size ∧ db2.key_size = db.key_size ∧
      db2.value_size = db.value_size ∧
      db2.hash_table_size_bytes = db.hash_table_size_bytes ∧
      db2.num_hash_tables = db.num_hash_tables ∧ db2.hash_tables = db.hash_tables ∧
      db2.f.data = db.f.data ∧
      (∀ key vbuf, KVDB_get db2 key vbuf = KVDB_get db key vbuf) ∧
      iterate_all db2 = iterate_all db := by
  obtain ⟨hd, ho⟩ := hr.inv_holds.reopen hr.psize_le mode S1 K1 V1 mem f hf hlen hmem
  exact ⟨with_file db f, ho, rfl, rfl, rfl, rfl, rfl, rfl, hd,
    fun key vbuf => KVDB_get_data db hd key vbuf, iterate_all_data db hd⟩

/-! ## One round of the iterator -/

/-- One round of `KVDB_iterator_next` on a handle that satisfies the
invariant: past the end it returns 0, an empty slot and a tombstone are
stepped over, a live record is handed out. -/
theorem iterator_loop_step {db : KVDB} (I : Inv db) (kbuf vbuf : List Byte)
    (fuel a b : Nat) :
    iterator_loop db kbuf vbuf (fuel + 1) a b =
      if a < db.num_hash_tables ∧ b < db.hash_table_size then
        if cell_at db.hash_tables db.hash_table_size a b = 0 then
          if b + 1 ≥ db.hash_table_size then
            if a + 1 ≥ db.num_hash_tables then ⟨0, ⟨db, a + 1, 0⟩, kbuf, vbuf⟩
            else iterator_loop db kbuf vbuf fuel (a + 1) 0
          else iterator_loop db kbuf vbuf fuel a (b + 1)
        else if rec_status db.f.data (cell_at db.hash_tables db.hash_table_size a b) = 0 then
          iterator_loop db
            (rec_key db.f.data db.key_size (cell_at db.hash_tables db.hash_table_size a b))
            (rec_value db.f.data db.key_size db.value_size
              (cell_at db.hash_tables db.hash_table_size a b))
            fuel (if b + 1 ≥ db.hash_table_size then a + 1 else a)
            (if b + 1 ≥ db.hash_table_size then 0 else b + 1)
        else
          ⟨1, ⟨db, if b + 1 ≥ db.hash_table_size then a + 1 else a,
              if b + 1 ≥ db.hash_table_size then 0 else b + 1⟩,
            rec_key db.f.data db.key_size (cell_at db.hash_tables db.hash_table_size a b),
            rec_value db.f.data db.key_size db.value_size
              (cell_at db.hash_tables db.hash_table_size a b)⟩
      else ⟨0, ⟨db, a, b⟩, kbuf, vbuf⟩ := by
  conv_lhs => rw [iterator_loop]
  have e : db.hash_tables.getD ((db.hash_table_size + 1) * a + b) 0
      = cell_at db.hash_tables db.hash_table_size a b := by
    unfold cell_at; rw [Nat.mul_comm]
  simp only [e]
  by_cases hab : a < db.num_hash_tables ∧ b < db.hash_table_size
  · rw [if_pos hab, if_pos hab]
    by_cases h0 : cell_at db.hash_tables db.hash_table_size a b = 0
    · rw [if_pos h0, if_pos h0]
    · rw [if_neg h0, if_neg h0]
      have hin := I.layout.slot_in a b hab.1 hab.2 h0
      have hmax := I.layout.len_max
      have hK := I.K_pos
      have hV := I.V_pos
      rw [if_neg (by omega), fread_item_in (by omega) (by omega),
        fread_item_in hK (by omega), fread_item_in hV (by omega)]
      rfl
  · rw [if_neg hab, if_neg hab]

/-! ## Two colliding keys in a database with one slot per page -/

theorem slot_of_one (db : KVDB) (hS : db.hash_table_size = 1) (key : List Byte) :
    slot_of db key = 0 := by
  unfold slot_of; rw [hS, Nat.mod_one]

theorem put_on_empty_chain {db db1 : KVDB} (I : Inv db) (hn : db.num_hash_tables = 0)
    {key value : List Byte} (hk : key.length = db.key_size)
    (hv : value.length = db.value_size) (h : KVDB_put db key value = .ret (0, db1)) :
    db1 = grown_handle db key value := by
  cases KVDB_put_ret I hk hv h with
  | found i hi _ _ _ _ => omega
  | empty i hi _ _ _ _ => omega
  | grown _ _ eq => exact eq

/-- A key whose slot in every page holds a live record of another key gets a
new page. -/
theorem put_past_live {db db1 : KVDB} (I : Inv db) {key value : List Byte}
    (hk : key.length = db.key_size) (hv : value.length = db.value_size)
    (hsk : ∀ j, j < db.num_hash_tables → Skips db key j)
    (h : KVDB_put db key value = .ret (0, db1)) :
    db1 = grown_handle db key value := by
  cases KVDB_put_ret I hk hv h with
  | found i hi _ filled stop _ =>
    obtain ⟨_, h2, h3⟩ := hsk i hi
    rcases stop with e | e
    · exact absurd e h2
    · exact absurd e h3
  | empty i hi _ free _ _ => exact absurd free (hsk i hi).1
  | grown _ _ eq => exact eq

/-- A full iteration over two pages of one slot each, both with a live
record. -/
theorem iterate_two {db : KVDB} (I : Inv db) (hn : db.num_hash_tables = 2)
    (hS : db.hash_table_size = 1)
    (h0 : cell_at db.hash_tables 1 0 0 ≠ 0) (h1 : cell_at db.hash_tables 1 1 0 ≠ 0)
    (s0 : rec_status db.f.data (cell_at db.hash_tables 1 0 0) ≠ 0)
    (s1 : rec_status db.f.data (cell_at db.hash_tables 1 1 0) ≠ 0) :
    iterate_all db =
      [(rec_key db.f.data db.key_size (cell_at db.hash_tables 1 0 0),
        rec_value db.f.data db.key_size db.value_size (cell_at db.hash_tables 1 0 0)),
       (rec_key db.f.data db.key_size (cell_at db.hash_tables 1 1 0),
        rec_value db.f.data db.key_size db.value_size (cell_at db.hash_tables 1 1 0))] := by
  have n1 : ∀ kbuf vbuf, KVDB_iterator_next ⟨db, 0, 0⟩ kbuf vbuf
      = ⟨1, ⟨db, 1, 0⟩, rec_key db.f.data db.key_size (cell_at db.hash_tables 1 0 0),
          rec_value db.f.data db.key_size db.value_size (cell_at db.hash_tables 1 0 0)⟩ := by
    intro kbuf vbuf
    show iterator_loop db kbuf vbuf (db.num_hash_tables * db.hash_table_size + 1) 0 0 = _
    rw [iterator_loop_step I, hn, hS, if_pos (by omega), if_neg h0, if_neg s0]
    rfl
  have n2 : ∀ kbuf vbuf, KVDB_iterator_next ⟨db, 1, 0⟩ kbuf vbuf
      = ⟨1, ⟨db, 2, 0⟩, rec_key db.f.data db.key_size (cell_at db.hash_tables 1 1 0),
          rec_value db.f.data db.key_size db.value_size (cell_at db.hash_tables 1 1 0)⟩ := by
    intro kbuf vbuf
    show iterator_loop db kbuf vbuf (db.num_hash_tables * db.hash_table_size + 1) 1 0 = _
    rw [iterator_loop_step I, hn, hS, if_pos (by omega), if_neg h1, if_neg s1]
    rfl
  have n3 : ∀ kbuf vbuf, (KVDB_iterator_next ⟨db, 2, 0⟩ kbuf vbuf).code = 0 := by
    intro kbuf vbuf
    show (iterator_loop db kbuf vbuf (db.num_hash_tables * db.hash_table_size + 1) 2 0).code = 0
    rw [iterator_loop_step I, hn, if_neg (by omega)]
  show iterate_from (db.num_hash_tables * db.hash_table_size + 1) ⟨db, 0, 0⟩ [] [] = _
  rw [hn, hS]
  show iterate_from 3 ⟨db, 0, 0⟩ [] [] = _
  rw [iterate_from]
  simp only [n1, if_true]
  rw [iterate_from]
  simp only [n2, if_true]
  rw [iterate_from]
  simp only [n3]
  rfl

/-- C7. Collision correctness: in a freshly created database with `S = 1`,
after `put(k1, v1)` and `put(k2, v2)` with distinct keys have both returned 0,
`get(k1)` and `get(k2)` return 0 with `v1` and `v2`, `num_hash_tables` is
exactly 2 and a full iteration yields exactly the pairs `(k1, v1)` and
`(k2, v2)`. -/
theorem collision_two_pages (db0 : KVDB) (hf : Fresh db0) (hS : db0.hash_table_size = 1)
    (k1 k2 v1 v2 : List Byte)
    (hk1 : k1.length = db0.key_size) (hk2 : k2.length = db0.key_size)
    (hv1 : v1.length = db0.value_size) (hv2 : v2.length = db0.value_size)
    (hne : k1 ≠ k2) (db1 db2 : KVDB)
    (h1 : KVDB_put db0 k1 v1 = .ret (0, db1)) (h2 : KVDB_put db1 k2 v2 = .ret (0, db2)) :
    (∀ vbuf, KVDB_get db2 k1 vbuf = (0, v1)) ∧ (∀ vbuf, KVDB_get db2 k2 vbuf = (0, v2)) ∧
      db2.num_hash_tables = 2 ∧ iterate_all db2 = [(k1, v1), (k2, v2)] := by
  have I0 := hf.inv_fresh
  have hn0 : db0.num_hash_tables = 0 := by
    obtain ⟨S, K, V, _, _, _, _, _, _, e⟩ := hf.eq
    rw [e]; rfl
  -- the first put appends page 0
  have e1 := put_on_empty_chain I0 hn0 hk1 hv1 h1
  have I1 := KVDB_put_inv I0 hk1 hv1 h1
  subst e1
  obtain ⟨eS1, eK1, eV1, en1⟩ := grown_fields db0 k1 v1
  have hS1 : (grown_handle db0 k1 v1).hash_table_size = 1 := by rw [eS1]; exact hS
  have hn1 : (grown_handle db0 k1 v1).num_hash_tables = 1 := by rw [en1, hn0]
  obtain ⟨loc1, o1⟩ := grown_located I0 (fun j hj => absurd hj (by omega)) hk1 hv1
  rw [hn0] at loc1 o1
  obtain ⟨r1s, r1k, r1v⟩ := grown_record db0 I0 hk1 hv1
  rw [← o1] at r1s r1k r1v
  have hsl : ∀ key, slot_of (grown_handle db0 k1 v1) key = 0 :=
    fun key => slot_of_one _ hS1 key
  have hso : slot_off (grown_handle db0 k1 v1) k2 0 = slot_off (grown_handle db0 k1 v1) k1 0 := by
    unfold slot_off; rw [hsl k1, hsl k2]
  -- the second put steps over page 0 and appends page 1
  have hk2' : k2.length = (grown_handle db0 k1 v1).key_size := by rw [eK1]; exact hk2
  have hv2' : v2.length = (grown_handle db0 k1 v1).value_size := by rw [eV1]; exact hv2
  have hsk : ∀ j, j < (grown_handle db0 k1 v1).num_hash_tables →
      Skips (grown_handle db0 k1 v1) k2 j := by
    intro j hj
    have hj0 : j = 0 := by omega
    subst hj0
    unfold Skips
    rw [hso]
    refine ⟨loc1.filled, ?_, ?_⟩
    · rw [r1s]; decide
    · rw [eK1, r1k]; exact hne
  have e2 := put_past_live I1 hk2' hv2' hsk h2
  have I2 := KVDB_put_inv I1 hk2' hv2' h2
  subst e2
  obtain ⟨eS2, eK2, eV2, en2⟩ := grown_fields (grown_handle db0 k1 v1) k2 v2
  obtain ⟨loc2, o2⟩ := grown_located I1 hsk hk2' hv2'
  obtain ⟨r2s, r2k, r2v⟩ := grown_record (grown_handle db0 k1 v1) I1 hk2' hv2'
  rw [← o2] at r2s r2k r2v
  rw [hn1] at loc2 o2 r2s r2k r2v
  have hS2 : (grown_handle (grown_handle db0 k1 v1) k2 v2).hash_table_size = 1 := by
    rw [eS2]; exact hS1
  have hn2 : (grown_handle (grown_handle db0 k1 v1) k2 v2).num_hash_tables = 2 := by
    rw [en2, hn1]
  have hsl2 : ∀ key, slot_of (grown_handle (grown_handle db0 k1 v1) k2 v2) key = 0 :=
    fun key => slot_of_one _ hS2 key
  -- page 0 and its record are as the first put left them
  have c0 : cell_at (grown_handle (grown_handle db0 k1 v1) k2 v2).hash_tables 1 0 0
      = slot_off (grown_handle db0 k1 v1) k1 0 := by
    have := grown_cell (grown_handle db0 k1 v1) I1 k2 v2 0 0 (by omega) (by omega)
    rw [hS1, hn1, if_neg (by omega), if_neg (by omega)] at this
    rw [this]
    unfold slot_off
    rw [hsl k1, hS1]
  have hfr : ∀ a m, slot_off (grown_handle db0 k1 v1) k1 0 ≤ a →
      a + m ≤ slot_off (grown_handle db0 k1 v1) k1 0
        + (1 + (grown_handle db0 k1 v1).key_size + (grown_handle db0 k1 v1).value_size) →
      fslice (grown_handle (grown_handle db0 k1 v1) k2 v2).f.data a m
        = fslice (grown_handle db0 k1 v1).f.data a m := by
    have := grown_frame (grown_handle db0 k1 v1) I1 k2 v2 0 (slot_of (grown_handle db0 k1 v1) k1)
      (by omega) (by rw [hsl k1, hS1]; omega) loc1.filled
    exact this
  have hin1 := I1.slot_in_file k1 (by omega) loc1.filled
  have q1s : rec_status (grown_handle (grown_handle db0 k1 v1) k2 v2).f.data
      (slot_off (grown_handle db0 k1 v1) k1 0) = 1 := by
    unfold rec_status at r1s ⊢
    rw [hfr _ _ (Nat.le_refl _) (by omega)]; exact r1s
  have q1k : rec_key (grown_handle (grown_handle db0 k1 v1) k2 v2).f.data db0.key_size
      (slot_off (grown_handle db0 k1 v1) k1 0) = k1 := by
    unfold rec_key at r1k ⊢
    rw [hfr _ _ (by omega) (by rw [eK1]; omega)]; exact r1k
  have q1v : rec_value (grown_handle (grown_handle db0 k1 v1) k2 v2).f.data db0.key_size
      db0.value_size (slot_off (grown_handle db0 k1 v1) k1 0) = v1 := by
    unfold rec_value at r1v ⊢
    rw [hfr _ _ (by omega) (by rw [eK1, eV1]; omega)]; exact r1v
  have c1 : cell_at (grown_handle (grown_handle db0 k1 v1) k2 v2).hash_tables 1 1 0
      = slot_off (grown_handle (grown_handle db0 k1 v1) k2 v2) k2 1 := by
    unfold slot_off
    rw [hsl2 k2, hS2]
  have so0 : slot_off (grown_handle (grown_handle db0 k1 v1) k2 v2) k1 0
      = slot_off (grown_handle db0 k1 v1) k1 0 := by
    rw [← c0]; unfold slot_off; rw [hsl2 k1, hS2]
  have loc0 : Located (grown_handle (grown_handle db0 k1 v1) k2 v2) k1 0 := by
    refine ⟨by omega, fun j hj => absurd hj (by omega), ?_, ?_⟩
    · rw [so0]; exact loc1.filled
    · rw [so0, eK2, eK1]; exact q1k
  refine ⟨?_, ?_, hn2, ?_⟩
  · intro vbuf
    rw [get_located I2 loc0 (by rw [eK2, eK1]; exact hk1) vbuf, so0, q1s,
      if_neg (by decide), eK2, eK1, eV2, eV1, q1v]
  · intro vbuf
    rw [get_located I2 loc2 (by rw [eK2, eK1]; exact hk2) vbuf, r2s, if_neg (by decide),
      eK2, eV2, r2v]
  · rw [iterate_two I2 hn2 hS2 (by rw [c0]; exact loc1.filled) (by rw [c1]; exact loc2.filled)
      (by rw [c0, q1s]; decide) (by rw [c1, r2s]; decide)]
    rw [c0, c1, eK2, eK1, eV2, eV1, q1k, q1v]
    rw [← eK1, ← eV1, r2k, r2v]

/-! ## Concrete runs -/

theorem fresh_handle_fresh {S K V : Nat} (hS : S ≠ 0) (hK : K ≠ 0) (hV : V ≠ 0)
    (hS1 : S < U64) (hK1 : K < U64) (hV1 : V < U64)
    (hP : (8 * ((S + 1) % U64)) % U64 ≤ PTRDIFF_MAX) : Fresh (fresh_handle S K V) := by
  refine ⟨none, KVDB_OPEN_MODE_RWCREAT, S, K, V, 0, ⟨[], true⟩, hS1, hK1, hV1, by decide,
    by decide, ?_⟩
  rw [open_short none KVDB_OPEN_MODE_RWCREAT S K V 0 ⟨[], true⟩ (by decide) (by decide),
    if_pos ⟨hS, hK, hV⟩, if_pos rfl, if_neg (by omega)]

theorem fresh_111 : Fresh (fresh_handle 1 1 1) :=
  fresh_handle_fresh (by decide) (by decide) (by decide) (by decide) (by decide) (by decide)
    (by decide)

theorem put_get_round_trip_witness :
    KVDB_put (fresh_handle 1 1 1) [10] [1]
        = .ret (0, grown_handle (fresh_handle 1 1 1) [10] [1]) ∧
      KVDB_get (grown_handle (fresh_handle 1 1 1) [10] [1]) [10] [0] = (0, [1]) :=
  ⟨by decide,
    put_get_round_trip (fresh_handle 1 1 1) (Reachable.fresh fresh_111) [10] [1] rfl rfl
      (grown_handle (fresh_handle 1 1 1) [10] [1]) (by decide) [0]⟩

theorem put_delete_put_reuse_witness :
    ∃ db2, KVDB_delete (grown_handle (fresh_handle 1 1 1) [10] [1]) [10] = .ret (0, db2) ∧
      (∀ vbuf, KVDB_get db2 [10] vbuf = (1, vbuf)) ∧
      ∃ db3, KVDB_put db2 [10] [2] = .ret (0, db3) ∧
        (∀ vbuf, KVDB_get db3 [10] vbuf = (0, [2])) ∧
        db3.num_hash_tables = db2.num_hash_tables ∧
        db3.hash_tables = db2.hash_tables ∧
        db3.f.data.length = db2.f.data.length :=
  put_delete_put_reuse (fresh_handle 1 1 1) (Reachable.fresh fresh_111) [10] [1] [2] rfl rfl rfl
    (grown_handle (fresh_handle 1 1 1) [10] [1]) (by decide)

theorem put_put_overwrite_witness :
    ∃ db2, KVDB_put (grown_handle (fresh_handle 1 1 1) [10] [1]) [10] [2] = .ret (0, db2) ∧
      (∀ vbuf, KVDB_get db2 [10] vbuf = (0, [2])) ∧
      db2.f.data.length = (grown_handle (fresh_handle 1 1 1) [10] [1]).f.data.length ∧
      db2.num_hash_tables = (grown_handle (fresh_handle 1 1 1) [10] [1]).num_hash_tables :=
  put_put_overwrite (fresh_handle 1 1 1) (Reachable.fresh fresh_111) [10] [1] [2] rfl rfl rfl
    (grown_handle (fresh_handle 1 1 1) [10] [1]) (by decide)

theorem reopen_reachable_witness :
    ∃ db2, KVDB_open (some (grown_handle (fresh_handle 1 1 1) [10] [1]).f.data)
        KVDB_OPEN_MODE_RDONLY 0 0 0 1 = .ret (0, db2) ∧
      db2.hash_table_size = 1 ∧ db2.key_size = 1 ∧ db2.value_size = 1 ∧
      db2.hash_table_size_bytes = 16 ∧ db2.num_hash_tables = 1 ∧
      db2.hash_tables = (grown_handle (fresh_handle 1 1 1) [10] [1]).hash_tables ∧
      db2.f.data = (grown_handle (fresh_handle 1 1 1) [10] [1]).f.data ∧
      (∀ key vbuf, KVDB_get db2 key vbuf
        = KVDB_get (grown_handle (fresh_handle 1 1 1) [10] [1]) key vbuf) ∧
      iterate_all db2 = iterate_all (grown_handle (fresh_handle 1 1 1) [10] [1]) :=
  reopen_reachable (grown_handle (fresh_handle 1 1 1) [10] [1])
    (@Reachable.put (fresh_handle 1 1 1) (grown_handle (fresh_handle 1 1 1) [10] [1]) [10] [1]
      (Reachable.fresh fresh_111) rfl rfl (by decide))
    KVDB_OPEN_MODE_RDONLY 0 0 0 1
    ⟨(grown_handle (fresh_handle 1 1 1) [10] [1]).f.data, false⟩ (by decide) (by decide)
    (by decide)

theorem collision_two_pages_witness :
    (∀ vbuf, KVDB_get (grown_handle (grown_handle (fresh_handle 1 1 1) [10] [1]) [11] [2])
        [10] vbuf = (0, [1])) ∧
      (∀ vbuf, KVDB_get (grown_handle (grown_handle (fresh_handle 1 1 1) [10] [1]) [11] [2])
        [11] vbuf = (0, [2])) ∧
      (grown_handle (grown_handle (fresh_handle 1 1 1) [10] [1]) [11] [2]).num_hash_tables = 2 ∧
      iterate_all (grown_handle (grown_handle (fresh_handle 1 1 1) [10] [1]) [11] [2])
        = [([10], [1]), ([11], [2])] :=
  collision_two_pages (fresh_handle 1 1 1) fresh_111 rfl [10] [11] [1] [2] rfl rfl rfl rfl
    (by decide) (grown_handle (fresh_handle 1 1 1) [10] [1])
    (grown_handle (grown_handle (fresh_handle 1 1 1) [10] [1]) [11] [2]) (by decide) (by decide)

set_option maxRecDepth 100000 in
/-- C4, failing run: `put(a, 1); put(b, 2); delete(a); put(b, 3)` on a fresh
database with `S = K = V = 1` (all four calls return 0).  The last put takes
the tombstone of `a` in page 0 for the record of `b` and leaves the record of
`b` in page 1 in place: a full iteration yields `(b, 3)` and the stale
`(b, 2)`, while `get(b)` returns `3`. -/
theorem iteration_yields_stale_pair :
    (run_ops (fresh_handle 1 1 1)
        [Op.put [10] [1], Op.put [11] [2], Op.delete [10], Op.put [11] [3]]).map
      (fun db => (iterate_all db, KVDB_get db [11] [0]))
      = some ([([11], [3]), ([11], [2])], (0, [3])) := by
  decide

/-- C5, failing run: `put(a, 1); delete(a); delete(c)` on a fresh database
with `S = K = V = 1`.  The key `c` was never put, yet all three calls return
0: `delete(c)` finds the tombstone of `a` in the slot and reports success. -/
theorem delete_of_missing_key_succeeds :
    (run_ops (fresh_handle 1 1 1) [Op.put [10] [1], Op.delete [10]]).map
      (fun db => ret_code (KVDB_delete db [12])) = some (some 0) := by
  decide

/-! ## The hash -/

theorem hash_loop_eq_spec (bs : List Byte) (h : Nat) : hash_loop bs h = djb2_spec bs h := by
  induction bs generalizing h with
  | nil => rfl
  | cons b bs ih =>
    unfold hash_loop djb2_spec
    rw [ih]
    congr 1
    rw [Nat.shiftLeft_eq, u64_eq]
    omega

/-- C19. `KVDB_hash` of a byte string of length `len` is the value obtained
from 5381 by replacing `h` with `(h * 33 + byte) mod 2 ^ 64` for each byte in
order; `KVDB_get` and `_kvdb_put` (put and delete) index every page at that
hash of the key modulo `S`, and for `S > 0` this index is below `S`, so cell
`i * (S + 1) + index` lies inside page `i` before its next-pointer cell. -/
theorem hash_and_slot_index (b : List Byte) (len : Nat) (hb : b.length = len) (db : KVDB)
    (hS : 0 < db.hash_table_size) (key value vbuf : List Byte) (delete : Bool) :
    KVDB_hash b len = djb2_spec b 5381 ∧
    KVDB_get db key vbuf = get_pages db key vbuf
      (djb2_spec (key.take db.key_size) 5381 % db.hash_table_size) db.num_hash_tables 0 ∧
    _kvdb_put db key value delete = put_pages db key value delete
      (djb2_spec (key.take db.key_size) 5381 % db.hash_table_size) db.num_hash_tables 0
      KVDB_HEADER_SIZE KVDB_HEADER_SIZE ∧
    djb2_spec (key.take db.key_size) 5381 % db.hash_table_size < db.hash_table_size ∧
    ∀ i, i * (db.hash_table_size + 1)
        + djb2_spec (key.take db.key_size) 5381 % db.hash_table_size
      < i * (db.hash_table_size + 1) + db.hash_table_size := by
  have hlt := Nat.mod_lt (djb2_spec (key.take db.key_size) 5381) hS
  refine ⟨?_, ?_, ?_, hlt, fun i => by omega⟩
  · unfold KVDB_hash
    rw [List.take_of_length_le (by omega), hash_loop_eq_spec]
  · unfold KVDB_get KVDB_hash
    rw [hash_loop_eq_spec]
  · unfold _kvdb_put KVDB_hash
    rw [hash_loop_eq_spec]

theorem hash_and_slot_index_witness :
    KVDB_hash [1, 2, 3] 3 = djb2_spec [1, 2, 3] 5381 ∧
      djb2_spec [1, 2, 3] 5381 = 193378155 :=
  ⟨(hash_and_slot_index [1, 2, 3] 3 rfl (fresh_handle 16 3 8) (by decide) [1, 2, 3] [] []
      false).1, by decide⟩

/-! ## Runs that show the effect of reusing a tombstone without comparing keys -/

set_option maxRecDepth 100000 in
/-- C13, failing run: `put(a, 1); put(b, 2); delete(a); put(b, 3)` on a fresh
database with `S = K = V = 1` (all four calls return 0).  The last put turns
the tombstone of `a` in page 0 into a live record of `b` while page 1 still
holds the live record of `b`: two filled slots point at live records with the
key `b`. -/
theorem two_live_slots_of_one_key :
    (run_ops (fresh_handle 1 1 1)
        [Op.put [10] [1], Op.put [11] [2], Op.delete [10], Op.put [11] [3]]).map
      (fun db => live_slots db [11]) = some 2 := by
  decide

set_option maxRecDepth 100000 in
/-- C15, failing run: `put(a, 1); put(b, 2); delete(a); delete(b)` on a fresh
database with `S = K = V = 1` (all four calls return 0).  `delete(b)` clears
the status byte of the tombstone of `a` in page 0 once more and leaves the
record of `b` in page 1 live: the `get(b)` that follows returns 0 with the
value. -/
theorem delete_leaves_key_live :
    (run_ops (fresh_handle 1 1 1)
        [Op.put [10] [1], Op.put [11] [2], Op.delete [10], Op.delete [11]]).map
      (fun db => KVDB_get db [11] [0]) = some (0, [2]) := by
  decide

set_option maxRecDepth 100000 in
/-- C16, failing run: after `put(a, 1); put(b, 2); delete(a); put(b, 3);
delete(b)` on a fresh database with `S = K = V = 1` (all calls return 0),
`get(b)` returns 1 (not found).  A `put(a, 9)` of the other key then returns 0
and takes the tombstone in page 0, and `get(b)` returns 0 with the stale value
`2` of the record in page 1. -/
theorem put_revives_other_key :
    (run_ops (fresh_handle 1 1 1)
        [Op.put [10] [1], Op.put [11] [2], Op.delete [10], Op.put [11] [3],
          Op.delete [11]]).map
      (fun db => (KVDB_get db [11] [0],
        (run_ops db [Op.put [10] [9]]).map (fun db1 => KVDB_get db1 [11] [0])))
      = some ((1, [0]), some (0, [2])) := by
  decide

set_option maxRecDepth 100000 in
/-- C14, counterexample: after `put(a, 1); delete(a)` on a fresh database with
`S = K = V = 1` the slot of page 0 is filled (offset 44) and its record has the
key `a`; the `put(c, 2)` that follows returns 0 and the record at that offset
has the key `c`. -/
theorem tombstone_key_overwritten :
    (run_ops (fresh_handle 1 1 1) [Op.put [10] [1], Op.delete [10]]).map
      (fun db => (cell_at db.hash_tables db.hash_table_size 0 0,
        rec_key db.f.data db.key_size 44,
        (run_ops db [Op.put [12] [2]]).map (fun db1 =>
          (cell_at db1.hash_tables db1.hash_table_size 0 0,
            rec_key db1.f.data db1.key_size 44))))
      = some (44, [10], some (44, [12])) := by
  decide

/-! ## Every outcome of `KVDB_delete` -/

/-- `KVDB_delete` on a handle that satisfies the invariant either finds no
slot to take (it meets an empty slot or the end of the chain after stepping
over live records of other keys) and returns the I/O code with the handle
untouched, or clears the status byte of the record of one slot and returns 0. -/
theorem delete_pages_total {db : KVDB} (I : Inv db) {key : List Byte} (value : List Byte)
    (hk : key.length = db.key_size)
    (fuel i : Nat) (hfi : i + fuel = db.num_hash_tables)
    (hsk : ∀ j, j < i → Skips db key j) :
    (put_pages db key value true (slot_of db key) fuel i
        (page_at db.hash_tables db.hash_table_size i)
        (page_at db.hash_tables db.hash_table_size (i - 1)) = .ret ( KVDB_ERROR_IO, db) ∧
      ∃ i1, i1 ≤ db.num_hash_tables ∧ (∀ j, j < i1 → Skips db key j) ∧
        (i1 < db.num_hash_tables → slot_off db key i1 = 0)) ∨
    ∃ i1, i1 < db.num_hash_tables ∧ slot_off db key i1 ≠ 0 ∧
      put_pages db key value true (slot_of db key) fuel i
        (page_at db.hash_tables db.hash_table_size i)
        (page_at db.hash_tables db.hash_table_size (i - 1))
      = .ret (0, with_file db ⟨pwrite db.f.data (slot_off db key i1) [0], true⟩) := by
  induction fuel generalizing i with
  | zero =>
    left
    refine ⟨?_, i, by omega, hsk, fun h => absurd h (by omega)⟩
    rw [put_pages]
    unfold put_new_page
    rw [if_pos rfl]
  | succ fuel ih =>
    have hi : i < db.num_hash_tables := by omega
    rw [put_pages_step db key value true fuel i _ _ hk I.layout.len_max
      (fun ho => (I.slot_in_file key hi ho).2)]
    by_cases h0 : slot_off db key i = 0
    · left
      rw [if_pos h0]
      refine ⟨?_, i, by omega, hsk, fun _ => h0⟩
      unfold put_empty
      rw [if_pos rfl]
    · rw [if_neg h0]
      by_cases hs : rec_status db.f.data (slot_off db key i) ≠ 0 ∧
          rec_key db.f.data db.key_size (slot_off db key i) ≠ key
      · rw [if_pos hs]
        apply ih (i + 1) (by omega)
        intro j hj
        by_cases e : j = i
        · subst e; exact ⟨h0, hs.1, hs.2⟩
        · exact hsk j (by omega)
      · right
        rw [if_neg hs]
        exact ⟨i, hi, h0, (put_found_delete I key value hi h0 _ _).1⟩

/-- C12. In every reachable database state `KVDB_delete` returns either the
(negative) I/O code, leaving the handle and with it every file byte and the
page array as they were, or 0, and then the page array, `num_hash_tables` and
the file length are unchanged, the byte at the offset of the matched record
is 0 and every other byte of the file is the same as before. -/
theorem delete_touches_one_byte (db : KVDB) (hr : Reachable db) (key : List Byte)
    (hk : key.length = db.key_size) :
    KVDB_delete db key = .ret ( KVDB_ERROR_IO, db) ∨
    ∃ i db1, i < db.num_hash_tables ∧ slot_off db key i ≠ 0 ∧
      KVDB_delete db key = .ret (0, db1) ∧
      db1.hash_tables = db.hash_tables ∧ db1.num_hash_tables = db.num_hash_tables ∧
      db1.f.data.length = db.f.data.length ∧
      db1.f.data[slot_off db key i]? = some 0 ∧
      ∀ x, x ≠ slot_off db key i → db1.f.data[x]? = db.f.data[x]? := by
  have I := hr.inv_holds
  rcases delete_pages_total I [] hk db.num_hash_tables 0 (by omega)
    (fun j hj => absurd hj (by omega)) with h | ⟨i, hi, ho, h⟩
  · exact Or.inl h.1
  · right
    have hin := I.slot_in_file key hi ho
    have hpos : slot_off db key i ≤ db.f.data.length := by omega
    refine ⟨i, _, hi, ho, h, rfl, rfl, ?_, ?_, ?_⟩
    · show (pwrite db.f.data (slot_off db key i) [0]).length = _
      rw [length_pwrite]; simp; omega
    · show (pwrite db.f.data (slot_off db key i) [0])[slot_off db key i]? = _
      rw [getElem?_pwrite [0] hpos, if_neg (by omega), if_pos (by simp)]
      simp
    · intro x hx
      show (pwrite db.f.data (slot_off db key i) [0])[x]? = _
      rw [getElem?_pwrite [0] hpos]
      by_cases h1 : x < slot_off db key i
      · rw [if_pos h1]
      · rw [if_neg h1, if_neg (by simp; omega)]

theorem delete_touches_one_byte_witness :
    KVDB_delete (grown_handle (fresh_handle 1 1 1) [10] [1]) [10]
        = .ret ( KVDB_ERROR_IO, grown_handle (fresh_handle 1 1 1) [10] [1]) ∨
    ∃ i db1, i < (grown_handle (fresh_handle 1 1 1) [10] [1]).num_hash_tables ∧
      slot_off (grown_handle (fresh_handle 1 1 1) [10] [1]) [10] i ≠ 0 ∧
      KVDB_delete (grown_handle (fresh_handle 1 1 1) [10] [1]) [10] = .ret (0, db1) ∧
      db1.hash_tables = (grown_handle (fresh_handle 1 1 1) [10] [1]).hash_tables ∧
      db1.num_hash_tables = (grown_handle (fresh_handle 1 1 1) [10] [1]).num_hash_tables ∧
      db1.f.data.length = (grown_handle (fresh_handle 1 1 1) [10] [1]).f.data.length ∧
      db1.f.data[slot_off (grown_handle (fresh_handle 1 1 1) [10] [1]) [10] i]? = some 0 ∧
      ∀ x, x ≠ slot_off (grown_handle (fresh_handle 1 1 1) [10] [1]) [10] i →
        db1.f.data[x]? = (grown_handle (fresh_handle 1 1 1) [10] [1]).f.data[x]? :=
  delete_touches_one_byte (grown_handle (fresh_handle 1 1 1) [10] [1])
    (@Reachable.put (fresh_handle 1 1 1) (grown_handle (fresh_handle 1 1 1) [10] [1]) [10] [1]
      (Reachable.fresh fresh_111) rfl rfl (by decide)) [10] rfl

/-! ## Every outcome of `KVDB_put` -/

theorem fwrite_item_none {f : FILE} {pos : Nat} {buf : List Byte} {size : Nat}
    (h : fwrite_item f pos buf size = none) (hw : f.writable = true) (h0 : 0 < size) :
    OFF_MAX < pos + size := by
  unfold fwrite_item at h
  split at h
  · cases h
  · rename_i hc
    by_contra hn
    exact hc ⟨hw, h0, by omega⟩

theorem fwrite_item_end {f f1 : FILE} {pos : Nat} {buf : List Byte} {size : Nat}
    (h : fwrite_item f pos buf size = some f1) (hp : pos = f.data.length) :
    f1.data = f.data ++ buf.take size ∧ f1.writable = true := by
  obtain ⟨w, _, _, e⟩ := fwrite_item_some h
  subst hp
  rw [e, pwrite_end, w]
  exact ⟨rfl, rfl⟩

theorem Kept.refl (db : KVDB) : Kept db db :=
  ⟨rfl, rfl, rfl, rfl, fun _ _ _ _ => rfl, [], by simp⟩

theorem Kept.of_file (db : KVDB) (f : FILE) (e : List Byte) (h : f.data = db.f.data ++ e) :
    Kept db (with_file db f) :=
  ⟨rfl, rfl, rfl, rfl, fun _ _ _ _ => rfl, e, h⟩

/-- `put_empty` as a put either returns 0 or fails on one of its writes at the
end of the file because the record does not fit below the largest offset. -/
theorem put_empty_total {db : KVDB} (I : Inv db) {key value : List Byte} {i : Nat}
    (hi : i < db.num_hash_tables)
    (hk : key.length = db.key_size) (hv : value.length = db.value_size) :
    (∃ db1, put_empty db key value false (slot_of db key) i
      (page_at db.hash_tables db.hash_table_size i) = .ret (0, db1)) ∨
    ∃ db1, put_empty db key value false (slot_of db key) i
        (page_at db.hash_tables db.hash_table_size i) = .ret ( KVDB_ERROR_IO, db1) ∧
      Kept db db1 ∧
      OFF_MAX < db.f.data.length + (1 + db.key_size + db.value_size) := by
  have hh := slot_of_lt db key I.S_pos
  have hpi := I.layout.page_in i hi
  have hmax := I.layout.len_max
  have hK := I.K_pos
  have hV := I.V_pos
  unfold put_empty
  rw [if_neg (by simp)]
  simp only
  split
  · rename_i h1
    have := fwrite_item_none h1 I.writable (by omega)
    exact Or.inr ⟨_, rfl, Kept.refl db, by omega⟩
  · rename_i f1 h1
    obtain ⟨d1, w1⟩ := fwrite_item_end h1 rfl
    have l1 : f1.data.length = db.f.data.length + 1 := by rw [d1]; simp
    split
    · rename_i h2
      have := fwrite_item_none h2 w1 hK
      exact Or.inr ⟨_, rfl, Kept.of_file db f1 _ d1, by omega⟩
    · rename_i f2 h2
      obtain ⟨d2, w2⟩ := fwrite_item_end h2 l1.symm
      have l2 : f2.data.length = db.f.data.length + 1 + db.key_size := by
        rw [d2, List.length_append, l1, List.length_take]; omega
      split
      · rename_i h3
        have := fwrite_item_none h3 w2 hV
        exact Or.inr ⟨_, rfl, Kept.of_file db f2 _ (by rw [d2, d1, List.append_assoc]),
          by omega⟩
      · rename_i f3 h3
        obtain ⟨d3, w3⟩ := fwrite_item_end h3 l2.symm
        have l3 : f3.data.length = db.f.data.length + 1 + db.key_size + db.value_size := by
          rw [d3, List.length_append, l2, List.length_take]; omega
        have m3 := (fwrite_item_some h3).2.2.1
        have hq : (page_at db.hash_tables db.hash_table_size i + 8 * slot_of db key) % U64
            = page_at db.hash_tables db.hash_table_size i + 8 * slot_of db key := by
          apply Nat.mod_eq_of_lt
          rw [off_max_eq] at hmax; rw [u64_eq]; omega
        rw [hq, if_neg (by simp; omega)]
        split
        · rename_i h4
          have := fwrite_item_none h4 w3 (by omega)
          omega
        · exact Or.inl ⟨_, rfl⟩

/-- `put_new_page` as a put either returns 0, or fails on one of its writes at
the end of the file because page and record do not fit below the largest
offset, or cannot build the page because its byte count has wrapped. -/
theorem put_new_page_total {db : KVDB} (I : Inv db) {key value : List Byte}
    (hk : key.length = db.key_size) (hv : value.length = db.value_size) :
    PutOutcome db (put_new_page db key value false (slot_of db key)
      (page_at db.hash_tables db.hash_table_size (db.num_hash_tables - 1))) := by
  have hh := slot_of_lt db key I.S_pos
  have hmax := I.layout.len_max
  have hK := I.K_pos
  have hV := I.V_pos
  unfold put_new_page
  rw [if_neg (by simp)]
  simp only
  split
  · rename_i hP
    refine Or.inr (Or.inr ⟨rfl, ?_, hP⟩)
    by_contra hn
    exact hP (I.psize_exact (by omega))
  · rename_i hP
    have hP : db.hash_table_size_bytes = 8 * (db.hash_table_size + 1) := by
      by_contra hn; exact hP hn
    rw [hP]
    have htk : db.hash_tables.take ((db.hash_table_size + 1) * db.num_hash_tables)
        = db.hash_tables := by
      apply List.take_of_length_le
      rw [I.layout.ht_len, Nat.mul_comm]
    rw [htk]
    generalize hpg : (List.replicate (db.hash_table_size + 1) 0).set (slot_of db key)
      ((db.f.data.length + 8 * (db.hash_table_size + 1)) % U64) = page
    have lpg : (cells_bytes page).length = 8 * (db.hash_table_size + 1) := by
      rw [length_cells_bytes, ← hpg]; simp
    have kept : ∀ (f : FILE) (e : List Byte), f.data = db.f.data ++ e →
        Kept db (with_file { db with hash_tables := db.hash_tables ++ page } f) := by
      intro f e he
      exact ⟨rfl, rfl, rfl, rfl,
        fun j c hj hc => cell_at_append_left page j c I.layout.ht_len hj hc, e, he⟩
    split
    · rename_i h1
      have := fwrite_item_none h1 I.writable (by omega)
      refine Or.inr (Or.inl ⟨_, rfl, ?_, by omega⟩)
      exact kept db.f [] (by simp)
    · rename_i f1 h1
      obtain ⟨d1, w1⟩ := fwrite_item_end h1 rfl
      have l1 : f1.data.length = db.f.data.length + 8 * (db.hash_table_size + 1) := by
        rw [d1, List.length_append, List.length_take, lpg]; omega
      split
      · rename_i h2
        have := fwrite_item_none h2 w1 (by omega)
        exact Or.inr (Or.inl ⟨_, rfl, kept f1 _ d1, by omega⟩)
      · rename_i f2 h2
        obtain ⟨d2, w2⟩ := fwrite_item_end h2 l1.symm
        have l2 : f2.data.length = db.f.data.length + 8 * (db.hash_table_size + 1) + 1 := by
          rw [d2, List.length_append, l1]; simp
        split
        · rename_i h3
          have := fwrite_item_none h3 w2 hK
          exact Or.inr (Or.inl ⟨_, rfl, kept f2 _ (by rw [d2, d1, List.append_assoc]),
            by omega⟩)
        · rename_i f3 h3
          obtain ⟨d3, w3⟩ := fwrite_item_end h3 l2.symm
          have l3 : f3.data.length
              = db.f.data.length + 8 * (db.hash_table_size + 1) + 1 + db.key_size := by
            rw [d3, List.length_append, l2, List.length_take]; omega
          split
          · rename_i h4
            have := fwrite_item_none h4 w3 hV
            exact Or.inr (Or.inl ⟨_, rfl,
              kept f3 _ (by rw [d3, d2, d1, List.append_assoc, List.append_assoc]), by omega⟩)
          · rename_i f4 h4
            obtain ⟨d4, w4⟩ := fwrite_item_end h4 l3.symm
            have m4 := (fwrite_item_some h4).2.2.1
            by_cases hn : db.num_hash_tables = 0
            · rw [if_neg (by simp [hn])]
              exact Or.inl ⟨_, rfl⟩
            · rw [if_pos hn]
              have hpi := I.layout.page_in (db.num_hash_tables - 1) (by omega)
              have hq : (page_at db.hash_tables db.hash_table_size (db.num_hash_tables - 1)
                  + 8 * db.hash_table_size) % U64
                  = page_at db.hash_tables db.hash_table_size (db.num_hash_tables - 1)
                    + 8 * db.hash_table_size := by
                apply Nat.mod_eq_of_lt
                rw [off_max_eq] at hmax; rw [u64_eq]; omega
              rw [hq, if_neg (by simp; omega)]
              split
              · rename_i h5
                have := fwrite_item_none h5 w4 (by omega)
                omega
              · exact Or.inl ⟨_, rfl⟩

/-- The loop of `KVDB_put` on a handle that satisfies the invariant, from any
page it can reach. -/
theorem put_pages_total {db : KVDB} (I : Inv db) {key value : List Byte}
    (hk : key.length = db.key_size) (hv : value.length = db.value_size)
    (fuel i : Nat) (hfi : i + fuel = db.num_hash_tables) :
    PutOutcome db (put_pages db key value false (slot_of db key) fuel i
      (page_at db.hash_tables db.hash_table_size i)
      (page_at db.hash_tables db.hash_table_size (i - 1))) := by
  induction fuel generalizing i with
  | zero =>
    rw [put_pages]
    have e : i = db.num_hash_tables := by omega
    subst e
    exact put_new_page_total I hk hv
  | succ fuel ih =>
    have hi : i < db.num_hash_tables := by omega
    rw [put_pages_step db key value false fuel i _ _ hk I.layout.len_max
      (fun ho => (I.slot_in_file key hi ho).2)]
    by_cases h0 : slot_off db key i = 0
    · rw [if_pos h0]
      rcases put_empty_total I hi hk hv with h | ⟨db1, h, hkept, hfit⟩
      · exact Or.inl h
      · exact Or.inr (Or.inl ⟨db1, h, hkept, by omega⟩)
    · rw [if_neg h0]
      by_cases hs : rec_status db.f.data (slot_off db key i) ≠ 0 ∧
          rec_key db.f.data db.key_size (slot_off db key i) ≠ key
      · rw [if_pos hs]
        exact ih (i + 1) (by omega)
      · rw [if_neg hs]
        exact Or.inl ⟨_, put_found_put I hi h0 hk hv _ (fun h => if_pos h)⟩

theorem KVDB_put_total {db : KVDB} (I : Inv db) {key value : List Byte}
    (hk : key.length = db.key_size) (hv : value.length = db.value_size) :
    PutOutcome db (KVDB_put db key value) :=
  put_pages_total I hk hv db.num_hash_tables 0 (by omega)

/-! ## What a call of the write interface keeps of the filled slots -/

/-- A `KVDB_put` that returns, with whatever code, keeps the geometry, does not
drop pages, and keeps every filled slot pointing where it pointed; the key
field of the record is the same unless the record is the tombstone the put
stops at: the first record in the slot chain of the key that is not a live
record of another key. -/
theorem put_keeps {db db1 : KVDB} {c : Int} (I : Inv db) {key value : List Byte}
    (hk : key.length = db.key_size) (hv : value.length = db.value_size)
    (hp : KVDB_put db key value = .ret (c, db1)) :
    db1.hash_table_size = db.hash_table_size ∧ db1.key_size = db.key_size ∧
    db.num_hash_tables ≤ db1.num_hash_tables ∧
    ∀ i h, i < db.num_hash_tables → h < db.hash_table_size →
      cell_at db.hash_tables db.hash_table_size i h ≠ 0 →
      cell_at db1.hash_tables db.hash_table_size i h
        = cell_at db.hash_tables db.hash_table_size i h ∧
      (¬ (h = slot_of db key ∧ (∀ j, j < i → Skips db key j) ∧
          rec_status db.f.data (cell_at db.hash_tables db.hash_table_size i h) = 0) →
        rec_key db1.f.data db.key_size (cell_at db.hash_tables db.hash_table_size i h)
          = rec_key db.f.data db.key_size (cell_at db.hash_tables db.hash_table_size i h)) := by
  have hh := slot_of_lt db key I.S_pos
  rcases KVDB_put_total I hk hv with ⟨db2, h2⟩ | ⟨db2, h2, hkept, _⟩ | ⟨h2, _⟩
  · rw [h2] at hp
    injection hp with hp
    injection hp with hc hd
    subst hd
    have pc := KVDB_put_ret I hk hv h2
    cases pc with
    | found i0 hi0 skips filled stop eq =>
      subst eq
      refine ⟨rfl, rfl, Nat.le_refl _, ?_⟩
      intro i h hi hh1 ho
      refine ⟨rfl, ?_⟩
      intro hst
      have spec := put_found_data_spec I.layout hi0 hh filled hk hv
        (rec_status db.f.data (slot_off db key i0)) rfl
      by_cases e : i = i0 ∧ h = slot_of db key
      · obtain ⟨e1, e2⟩ := e
        subst e1 e2
        have hs : rec_status db.f.data (slot_off db key i) ≠ 0 :=
          fun h0 => hst ⟨rfl, skips, h0⟩
        have := spec.2.2.2.1
        rw [if_neg hs] at this
        exact this
      · have hne : i ≠ i0 ∨ h ≠ slot_of db key := by
          by_contra hn
          push_neg at hn
          exact e hn
        have hd := I.layout.slot_slot i h i0 (slot_of db key) hi hh1 hi0 hh hne ho filled
        exact spec.2.2.2.2.2 _ _ (by
          show _ ≤ cell_at db.hash_tables db.hash_table_size i0 (slot_of db key) ∨
            cell_at db.hash_tables db.hash_table_size i0 (slot_of db key) + _ ≤ _
          omega)
    | empty i0 hi0 skips free fit eq =>
      subst eq
      refine ⟨rfl, rfl, Nat.le_refl _, ?_⟩
      intro i h hi hh1 ho
      constructor
      · rw [filled_cell db I key value hi0 i h (by omega), if_neg]
        rintro ⟨e1, e2⟩
        subst e1 e2
        exact ho free
      · intro _
        exact filled_frame db I key value hi0 i h hi hh1 ho _ _ (by omega) (by omega)
    | grown skips fit eq =>
      subst eq
      refine ⟨(grown_fields db key value).1, (grown_fields db key value).2.1, ?_, ?_⟩
      · rw [(grown_fields db key value).2.2.2]; omega
      · intro i h hi hh1 ho
        constructor
        · rw [grown_cell db I key value i h (by omega) (by omega), if_neg (by omega),
            if_neg (by omega)]
        · intro _
          exact grown_frame db I key value i h hi hh1 ho _ _ (by omega) (by omega)
  · rw [h2] at hp
    injection hp with hp
    injection hp with hc hd
    subst hd
    obtain ⟨k1, k2, _, k4, k5, e, k6⟩ := hkept
    refine ⟨k1, k2, by omega, ?_⟩
    intro i h hi hh1 ho
    refine ⟨k5 i h hi (by omega), fun _ => ?_⟩
    have hin := I.layout.slot_in i h hi hh1 ho
    unfold rec_key
    rw [k6]
    exact fslice_append_left e (by omega)
  · rw [h2] at hp
    cases hp

/-- A `KVDB_delete` that returns, with whatever code, keeps the geometry, the
page array and the key field of every record a filled slot points at. -/
theorem delete_keeps {db db1 : KVDB} {c : Int} (I : Inv db) {key : List Byte}
    (hk : key.length = db.key_size)
    (hp : KVDB_delete db key = .ret (c, db1)) :
    db1.hash_table_size = db.hash_table_size ∧ db1.key_size = db.key_size ∧
    db1.num_hash_tables = db.num_hash_tables ∧ db1.hash_tables = db.hash_tables ∧
    ∀ i h, i < db.num_hash_tables → h < db.hash_table_size →
      cell_at db.hash_tables db.hash_table_size i h ≠ 0 →
      rec_key db1.f.data db.key_size (cell_at db.hash_tables db.hash_table_size i h)
        = rec_key db.f.data db.key_size (cell_at db.hash_tables db.hash_table_size i h) := by
  have hh := slot_of_lt db key I.S_pos
  rcases delete_pages_total I [] hk db.num_hash_tables 0 (by omega)
    (fun j hj => absurd hj (by omega)) with ⟨h2, _⟩ | ⟨i0, hi0, ho0, h2⟩
  · have h3 : KVDB_delete db key = .ret ( KVDB_ERROR_IO, db) := h2
    rw [h3] at hp
    injection hp with hp
    injection hp with hc hd
    subst hd
    exact ⟨rfl, rfl, rfl, rfl, fun _ _ _ _ _ => rfl⟩
  · have h3 : KVDB_delete db key
        = .ret (0, with_file db ⟨pwrite db.f.data (slot_off db key i0) [0], true⟩) := h2
    rw [h3] at hp
    injection hp with hp
    injection hp with hc hd
    subst hd
    refine ⟨rfl, rfl, rfl, rfl, ?_⟩
    intro i h hi hh1 ho
    have hin0 := I.slot_in_file key hi0 ho0
    show fslice (pwrite db.f.data (slot_off db key i0) [0]) _ _ = fslice db.f.data _ _
    apply fslice_pwrite_disjoint [0] (by omega)
    by_cases e : i = i0 ∧ h = slot_of db key
    · obtain ⟨e1, e2⟩ := e
      subst e1 e2
      right
      show cell_at db.hash_tables db.hash_table_size i (slot_of db key) + _ ≤ _
      simp
    · have hne : i ≠ i0 ∨ h ≠ slot_of db key := by
        by_contra hn
        push_neg at hn
        exact e hn
      have hd := I.layout.slot_slot i h i0 (slot_of db key) hi hh1 hi0 hh hne ho ho0
      show _ ≤ cell_at db.hash_tables db.hash_table_size i0 (slot_of db key) ∨
        cell_at db.hash_tables db.hash_table_size i0 (slot_of db key) + _ ≤ _
      simp only [List.length_singleton]
      omega

/-- C17. In every reachable database state the filled slots of one slot index
form a prefix of the page chain (a filled slot in page `j` means a filled slot
in every earlier page, so nothing is filled behind the first empty slot), and
no call of `KVDB_put` or `KVDB_delete` that returns turns a filled slot into
an empty one. -/
theorem filled_slots_initial_segment (db : KVDB) (hr : Reachable db) :
    (∀ i j h, i < j → j < db.num_hash_tables → h < db.hash_table_size →
      cell_at db.hash_tables db.hash_table_size j h ≠ 0 →
      cell_at db.hash_tables db.hash_table_size i h ≠ 0) ∧
    (∀ i j h, i < j → j < db.num_hash_tables → h < db.hash_table_size →
      cell_at db.hash_tables db.hash_table_size i h = 0 →
      cell_at db.hash_tables db.hash_table_size j h = 0) ∧
    (∀ key value c db1, key.length = db.key_size → value.length = db.value_size →
      KVDB_put db key value = .ret (c, db1) →
      db1.hash_table_size = db.hash_table_size ∧ db.num_hash_tables ≤ db1.num_hash_tables ∧
      ∀ i h, i < db.num_hash_tables → h < db.hash_table_size →
        cell_at db.hash_tables db.hash_table_size i h ≠ 0 →
        cell_at db1.hash_tables db1.hash_table_size i h ≠ 0) ∧
    (∀ key c db1, key.length = db.key_size → KVDB_delete db key = .ret (c, db1) →
      db1.hash_table_size = db.hash_table_size ∧ db.num_hash_tables ≤ db1.num_hash_tables ∧
      ∀ i h, i < db.num_hash_tables → h < db.hash_table_size →
        cell_at db.hash_tables db.hash_table_size i h ≠ 0 →
        cell_at db1.hash_tables db1.hash_table_size i h ≠ 0) := by
  have I := hr.inv_holds
  refine ⟨I.layout.slot_prefix, ?_, ?_, ?_⟩
  · intro i j h hij hj hh h0
    by_contra hn
    exact I.layout.slot_prefix i j h hij hj hh hn h0
  · intro key value c db1 hk hv hp
    have k := put_keeps I hk hv hp
    refine ⟨k.1, k.2.2.1, ?_⟩
    intro i h hi hh ho
    rw [k.1, (k.2.2.2 i h hi hh ho).1]
    exact ho
  · intro key c db1 hk hp
    have k := delete_keeps I hk hp
    refine ⟨k.1, by omega, ?_⟩
    intro i h hi hh ho
    rw [k.1, k.2.2.2.1]
    exact ho

/-! ## The iterator on handles that satisfy the invariant -/

theorem sample_db_reachable : Reachable sample_db :=
  @Reachable.put (fresh_handle 1 1 1) sample_db [10] [1]
    (Reachable.fresh fresh_111) rfl rfl (by decide)

/-- The loops of `KVDB_iterator_next` with enough rounds for the slots left:
they end with 0 and a cursor outside the pages, or with 1 on a filled slot at
or after the cursor whose record is live, the buffers holding its key and
value and the cursor standing one slot further. -/
theorem iterator_loop_spec {db : KVDB} (I : Inv db) (fuel : Nat) :
    ∀ (a b : Nat) (kbuf vbuf : List Byte),
    (a < db.num_hash_tables → b < db.hash_table_size →
      db.num_hash_tables * db.hash_table_size < a * db.hash_table_size + b + fuel) →
    ((iterator_loop db kbuf vbuf fuel a b).code = 0 ∧
      ¬ ((iterator_loop db kbuf vbuf fuel a b).dbi.h_no < db.num_hash_tables ∧
        (iterator_loop db kbuf vbuf fuel a b).dbi.h_idx < db.hash_table_size)) ∨
    ((iterator_loop db kbuf vbuf fuel a b).code = 1 ∧
      a < db.num_hash_tables ∧ b < db.hash_table_size ∧
      (iterator_loop db kbuf vbuf fuel a b).dbi.h_idx < db.hash_table_size ∧
      ∃ i h, i < db.num_hash_tables ∧ h < db.hash_table_size ∧
        a * db.hash_table_size + b ≤ i * db.hash_table_size + h ∧
        cell_at db.hash_tables db.hash_table_size i h ≠ 0 ∧
        rec_status db.f.data (cell_at db.hash_tables db.hash_table_size i h) = 1 ∧
        (iterator_loop db kbuf vbuf fuel a b).kbuf
          = rec_key db.f.data db.key_size (cell_at db.hash_tables db.hash_table_size i h) ∧
        (iterator_loop db kbuf vbuf fuel a b).vbuf
          = rec_value db.f.data db.key_size db.value_size
              (cell_at db.hash_tables db.hash_table_size i h) ∧
        (iterator_loop db kbuf vbuf fuel a b).dbi.h_no * db.hash_table_size
            + (iterator_loop db kbuf vbuf fuel a b).dbi.h_idx
          = i * db.hash_table_size + h + 1) := by
  have hS := I.S_pos
  induction fuel with
  | zero =>
    intro a b kbuf vbuf hf
    left
    refine ⟨rfl, ?_⟩
    rintro ⟨ha, hb⟩
    have h1 := hf ha hb
    have h2 := idx_lt (W := db.hash_table_size) ha hb
    change a * db.hash_table_size + b < _ at h2
    omega
  | succ fuel ih =>
    intro a b kbuf vbuf hf
    rw [iterator_loop_step I]
    have em : (a + 1) * db.hash_table_size = a * db.hash_table_size + db.hash_table_size :=
      Nat.succ_mul _ _
    by_cases hr : a < db.num_hash_tables ∧ b < db.hash_table_size
    · have hf1 := hf hr.1 hr.2
      have hlt := idx_lt (W := db.hash_table_size) hr.1 hr.2
      rw [if_pos hr]
      by_cases h0 : cell_at db.hash_tables db.hash_table_size a b = 0
      · rw [if_pos h0]
        by_cases hb : b + 1 ≥ db.hash_table_size
        · rw [if_pos hb]
          by_cases ha : a + 1 ≥ db.num_hash_tables
          · rw [if_pos ha]
            left
            exact ⟨rfl, fun h => absurd h.1 (by show ¬ (a + 1 < _); omega)⟩
          · rw [if_neg ha]
            rcases ih (a + 1) 0 kbuf vbuf (fun _ _ => by omega) with h | ⟨c, _, _, hx, i, h, q⟩
            · exact Or.inl h
            · exact Or.inr ⟨c, hr.1, hr.2, hx, i, h, q.1, q.2.1, by omega, q.2.2.2⟩
        · rw [if_neg hb]
          rcases ih a (b + 1) kbuf vbuf (fun _ _ => by omega) with h | ⟨c, _, _, hx, i, h, q⟩
          · exact Or.inl h
          · exact Or.inr ⟨c, hr.1, hr.2, hx, i, h, q.1, q.2.1, by omega, q.2.2.2⟩
      · rw [if_neg h0]
        by_cases hst : rec_status db.f.data (cell_at db.hash_tables db.hash_table_size a b) = 0
        · rw [if_pos hst]
          by_cases hb : b + 1 ≥ db.hash_table_size
          · rw [if_pos hb, if_pos hb]
            rcases ih (a + 1) 0 _ _ (fun _ _ => by omega) with h | ⟨c, _, _, hx, i, h, q⟩
            · exact Or.inl h
            · exact Or.inr ⟨c, hr.1, hr.2, hx, i, h, q.1, q.2.1, by omega, q.2.2.2⟩
          · rw [if_neg hb, if_neg hb]
            rcases ih a (b + 1) _ _ (fun _ _ => by omega) with h | ⟨c, _, _, hx, i, h, q⟩
            · exact Or.inl h
            · exact Or.inr ⟨c, hr.1, hr.2, hx, i, h, q.1, q.2.1, by omega, q.2.2.2⟩
        · rw [if_neg hst]
          right
          have h1 : rec_status db.f.data (cell_at db.hash_tables db.hash_table_size a b) = 1 := by
            rcases I.layout.slot_status a b hr.1 hr.2 h0 with h | h
            · exact absurd (rec_status_of_slice h) hst
            · exact rec_status_of_slice h
          refine ⟨rfl, hr.1, hr.2, ?_, a, b, hr.1, hr.2, Nat.le_refl _, h0, h1, rfl, rfl, ?_⟩
          · show (if b + 1 ≥ db.hash_table_size then 0 else b + 1) < _
            split <;> omega
          · show (if b + 1 ≥ db.hash_table_size then a + 1 else a) * db.hash_table_size
              + (if b + 1 ≥ db.hash_table_size then 0 else b + 1) = _
            by_cases hb : b + 1 ≥ db.hash_table_size
            · rw [if_pos hb, if_pos hb]; omega
            · rw [if_neg hb, if_neg hb]; omega
    · rw [if_neg hr]
      left
      exact ⟨rfl, hr⟩

/-- One call of `KVDB_iterator_next` from any cursor. -/
theorem iterator_next_spec {db : KVDB} (I : Inv db) (a b : Nat) (kbuf vbuf : List Byte) :
    ((KVDB_iterator_next ⟨db, a, b⟩ kbuf vbuf).code = 0 ∧
      ¬ ((KVDB_iterator_next ⟨db, a, b⟩ kbuf vbuf).dbi.h_no < db.num_hash_tables ∧
        (KVDB_iterator_next ⟨db, a, b⟩ kbuf vbuf).dbi.h_idx < db.hash_table_size)) ∨
    ((KVDB_iterator_next ⟨db, a, b⟩ kbuf vbuf).code = 1 ∧
      a < db.num_hash_tables ∧ b < db.hash_table_size ∧
      (KVDB_iterator_next ⟨db, a, b⟩ kbuf vbuf).dbi.h_idx < db.hash_table_size ∧
      ∃ i h, i < db.num_hash_tables ∧ h < db.hash_table_size ∧
        a * db.hash_table_size + b ≤ i * db.hash_table_size + h ∧
        cell_at db.hash_tables db.hash_table_size i h ≠ 0 ∧
        rec_status db.f.data (cell_at db.hash_tables db.hash_table_size i h) = 1 ∧
        (KVDB_iterator_next ⟨db, a, b⟩ kbuf vbuf).kbuf
          = rec_key db.f.data db.key_size (cell_at db.hash_tables db.hash_table_size i h) ∧
        (KVDB_iterator_next ⟨db, a, b⟩ kbuf vbuf).vbuf
          = rec_value db.f.data db.key_size db.value_size
              (cell_at db.hash_tables db.hash_table_size i h) ∧
        (KVDB_iterator_next ⟨db, a, b⟩ kbuf vbuf).dbi.h_no * db.hash_table_size
            + (KVDB_iterator_next ⟨db, a, b⟩ kbuf vbuf).dbi.h_idx
          = i * db.hash_table_size + h + 1) :=
  iterator_loop_spec I (db.num_hash_tables * db.hash_table_size + 1) a b kbuf vbuf
    (fun _ _ => by omega)

theorem iterator_next_db (dbi : KVDB_ITERATOR) (kbuf vbuf : List Byte) :
    (KVDB_iterator_next dbi kbuf vbuf).dbi.db = dbi.db :=
  iterator_loop_db _ _ _ _ _ _

/-- A call on a cursor outside the pages returns 0 and moves nothing. -/
theorem iterator_next_done {db : KVDB} (I : Inv db) (a b : Nat) (kbuf vbuf : List Byte)
    (h : ¬ (a < db.num_hash_tables ∧ b < db.hash_table_size)) :
    KVDB_iterator_next ⟨db, a, b⟩ kbuf vbuf = ⟨0, ⟨db, a, b⟩, kbuf, vbuf⟩ := by
  unfold KVDB_iterator_next
  show iterator_loop db kbuf vbuf (db.num_hash_tables * db.hash_table_size + 1) a b = _
  rw [iterator_loop_step I, if_neg h]

theorem next_calls_done {db : KVDB} (I : Inv db) (m : Nat) (a b : Nat) (kbuf vbuf : List Byte)
    (h : ¬ (a < db.num_hash_tables ∧ b < db.hash_table_size)) :
    next_calls m ⟨0, ⟨db, a, b⟩, kbuf, vbuf⟩ = ⟨0, ⟨db, a, b⟩, kbuf, vbuf⟩ := by
  induction m with
  | zero => rfl
  | succ m ih =>
    show next_calls m (KVDB_iterator_next ⟨db, a, b⟩ kbuf vbuf) = _
    rw [iterator_next_done I a b kbuf vbuf h, ih]

theorem slots_left_le (db : KVDB) (a b : Nat) :
    slots_left db a b ≤ db.num_hash_tables * db.hash_table_size := by
  unfold slots_left
  split <;> omega

/-- A call that returns 1 leaves fewer slots ahead of the cursor. -/
theorem slots_left_next {db : KVDB} (I : Inv db) (a b : Nat) (kbuf vbuf : List Byte)
    (h : (KVDB_iterator_next ⟨db, a, b⟩ kbuf vbuf).code = 1) :
    slots_left db (KVDB_iterator_next ⟨db, a, b⟩ kbuf vbuf).dbi.h_no
      (KVDB_iterator_next ⟨db, a, b⟩ kbuf vbuf).dbi.h_idx + 1 ≤ slots_left db a b := by
  rcases iterator_next_spec I a b kbuf vbuf with ⟨h0, _⟩ | ⟨_, ha, hb, _, i, g, hi, hg, hle, _, _, _, _, e⟩
  · rw [h0] at h; cases h
  · have hlt := idx_lt (W := db.hash_table_size) hi hg
    have e2 : slots_left db a b
        = db.num_hash_tables * db.hash_table_size - (a * db.hash_table_size + b) := by
      unfold slots_left
      rw [if_pos ⟨ha, hb⟩]
    rw [e2]
    unfold slots_left
    split <;> omega

theorem iterator_next_eta (db : KVDB) (a b : Nat) (kbuf vbuf : List Byte) :
    (KVDB_iterator_next ⟨db, a, b⟩ kbuf vbuf).dbi
      = ⟨db, (KVDB_iterator_next ⟨db, a, b⟩ kbuf vbuf).dbi.h_no,
          (KVDB_iterator_next ⟨db, a, b⟩ kbuf vbuf).dbi.h_idx⟩ := by
  have := iterator_next_db ⟨db, a, b⟩ kbuf vbuf
  generalize (KVDB_iterator_next ⟨db, a, b⟩ kbuf vbuf).dbi = x at this ⊢
  cases x
  simp only at this
  subst this
  rfl

/-- The calls that return 1 in a row from the cursor `(a, b)` are at most as
many as the slots left. -/
theorem length_iterate_from {db : KVDB} (I : Inv db) (fuel : Nat) :
    ∀ (a b : Nat) (kbuf vbuf : List Byte),
    (iterate_from fuel ⟨db, a, b⟩ kbuf vbuf).length ≤ slots_left db a b := by
  induction fuel with
  | zero => intro a b kbuf vbuf; exact Nat.zero_le _
  | succ fuel ih =>
    intro a b kbuf vbuf
    rw [iterate_from]
    split
    · rename_i h
      rw [iterator_next_eta, List.length_cons]
      have := ih (KVDB_iterator_next ⟨db, a, b⟩ kbuf vbuf).dbi.h_no
        (KVDB_iterator_next ⟨db, a, b⟩ kbuf vbuf).dbi.h_idx
        (KVDB_iterator_next ⟨db, a, b⟩ kbuf vbuf).kbuf
        (KVDB_iterator_next ⟨db, a, b⟩ kbuf vbuf).vbuf
      have := slots_left_next I a b kbuf vbuf h
      omega
    · exact Nat.zero_le _

/-- More calls than slots left change nothing. -/
theorem iterate_from_succ {db : KVDB} (I : Inv db) (fuel : Nat) :
    ∀ (a b : Nat) (kbuf vbuf : List Byte), slots_left db a b < fuel →
    iterate_from (fuel + 1) ⟨db, a, b⟩ kbuf vbuf = iterate_from fuel ⟨db, a, b⟩ kbuf vbuf := by
  induction fuel with
  | zero => intro a b kbuf vbuf h; omega
  | succ fuel ih =>
    intro a b kbuf vbuf hf
    rw [iterate_from]
    conv_rhs => rw [iterate_from]
    split
    · rename_i h
      rw [iterator_next_eta]
      rw [ih _ _ _ _ (by have := slots_left_next I a b kbuf vbuf h; omega)]
    · rfl

theorem iterate_from_stable {db : KVDB} (I : Inv db) (a b : Nat) (kbuf vbuf : List Byte)
    (fuel : Nat) (h : slots_left db a b < fuel) (extra : Nat) :
    iterate_from (fuel + extra) ⟨db, a, b⟩ kbuf vbuf = iterate_from fuel ⟨db, a, b⟩ kbuf vbuf := by
  induction extra with
  | zero => rfl
  | succ e ih =>
    rw [← Nat.add_assoc, iterate_from_succ I _ _ _ _ _ (by omega), ih]

/-! ## Return codes of the read interface in reachable states -/

theorem get_pages_code {db : KVDB} (I : Inv db) {key : List Byte} (vbuf : List Byte)
    (hk : key.length = db.key_size) (fuel : Nat) :
    ∀ i, i + fuel = db.num_hash_tables →
    (get_pages db key vbuf (slot_of db key) fuel i).1 = 0 ∨
      (get_pages db key vbuf (slot_of db key) fuel i).1 = 1 := by
  induction fuel with
  | zero => intro i _; exact Or.inr rfl
  | succ fuel ih =>
    intro i hfi
    have hi : i < db.num_hash_tables := by omega
    rw [get_pages_step db key vbuf fuel i hk I.V_pos I.layout.len_max
      (fun ho => (I.slot_in_file key hi ho).2)]
    split
    · exact Or.inr rfl
    · split
      · exact ih (i + 1) (by omega)
      · split
        · exact Or.inr rfl
        · exact Or.inl rfl

theorem iter_result_eta (r : IterResult) (db : KVDB) (h0 : r.code = 0) (hdb : r.dbi.db = db) :
    r = ⟨0, ⟨db, r.dbi.h_no, r.dbi.h_idx⟩, r.kbuf, r.vbuf⟩ := by
  cases r with
  | mk code dbi kbuf vbuf =>
    cases dbi
    simp only at h0 hdb
    subst h0 hdb
    rfl

/-- C18. In every reachable database state every non-zero slot value `o` has
`28 ≤ o` and `o + 1 + K + V ≤` the file length, and the byte at `o` is 0 or 1.
So no read of a record falls short: `KVDB_get` returns 0 or 1,
`KVDB_iterator_next` returns 0 or 1, `KVDB_delete` returns 0 or reports with
the I/O code that it found an empty slot or the end of the chain, and
`KVDB_put` returns 0 unless the file has no room left below the largest
offset (or the page byte count has wrapped on an empty database); neither
`KVDB_put` nor `KVDB_delete` loops on a short key read. -/
theorem slots_point_at_whole_records (db : KVDB) (hr : Reachable db) :
    (∀ i h, i < db.num_hash_tables → h < db.hash_table_size →
      cell_at db.hash_tables db.hash_table_size i h ≠ 0 →
      28 ≤ cell_at db.hash_tables db.hash_table_size i h ∧
      cell_at db.hash_tables db.hash_table_size i h + 1 + db.key_size + db.value_size
        ≤ db.f.data.length ∧
      (db.f.data[cell_at db.hash_tables db.hash_table_size i h]? = some 0 ∨
        db.f.data[cell_at db.hash_tables db.hash_table_size i h]? = some 1)) ∧
    (∀ key vbuf, key.length = db.key_size →
      (KVDB_get db key vbuf).1 = 0 ∨ (KVDB_get db key vbuf).1 = 1) ∧
    (∀ a b kbuf vbuf, (KVDB_iterator_next ⟨db, a, b⟩ kbuf vbuf).code = 0 ∨
      (KVDB_iterator_next ⟨db, a, b⟩ kbuf vbuf).code = 1) ∧
    (∀ key, key.length = db.key_size →
      (KVDB_delete db key = .ret ( KVDB_ERROR_IO, db) ∧
        ∃ i, i ≤ db.num_hash_tables ∧ (∀ j, j < i → Skips db key j) ∧
          (i < db.num_hash_tables → slot_off db key i = 0)) ∨
      ∃ db1, KVDB_delete db key = .ret (0, db1)) ∧
    (∀ key value, key.length = db.key_size → value.length = db.value_size →
      PutOutcome db (KVDB_put db key value)) := by
  have I := hr.inv_holds
  refine ⟨?_, ?_, ?_, ?_, ?_⟩
  · intro i h hi hh ho
    have hin := I.layout.slot_in i h hi hh ho
    refine ⟨hin.1, by omega, ?_⟩
    have e := getElem?_fslice db.f.data (cell_at db.hash_tables db.hash_table_size i h) 1 0
    rw [if_pos (by omega), Nat.add_zero] at e
    rw [← e]
    rcases I.layout.slot_status i h hi hh ho with hs | hs
    · left; rw [hs]; rfl
    · right; rw [hs]; rfl
  · intro key vbuf hk
    exact get_pages_code I vbuf hk db.num_hash_tables 0 (by omega)
  · intro a b kbuf vbuf
    rcases iterator_next_spec I a b kbuf vbuf with h | h
    · exact Or.inl h.1
    · exact Or.inr h.1
  · intro key hk
    rcases delete_pages_total I [] hk db.num_hash_tables 0 (by omega)
      (fun j hj => absurd hj (by omega)) with h | ⟨i, _, _, h⟩
    · exact Or.inl h
    · exact Or.inr ⟨_, h⟩
  · intro key value hk hv
    exact KVDB_put_total I hk hv

theorem slots_point_at_whole_records_witness :
    Reachable sample_db ∧
    ∀ i h, i < sample_db.num_hash_tables → h < sample_db.hash_table_size →
      cell_at sample_db.hash_tables sample_db.hash_table_size i h ≠ 0 →
      28 ≤ cell_at sample_db.hash_tables sample_db.hash_table_size i h ∧
      cell_at sample_db.hash_tables sample_db.hash_table_size i h + 1 + sample_db.key_size
          + sample_db.value_size ≤ sample_db.f.data.length ∧
      (sample_db.f.data[cell_at sample_db.hash_tables sample_db.hash_table_size i h]? = some 0 ∨
        sample_db.f.data[cell_at sample_db.hash_tables sample_db.hash_table_size i h]?
          = some 1) :=
  ⟨sample_db_reachable, (slots_point_at_whole_records sample_db sample_db_reachable).1⟩

/-! ## Termination of `_kvdb_put` -/

/-- The key comparison needs one round for every 255 key bytes. -/
theorem key_compare_chunks (f : FILE) (fuel pos : Nat) (kptr : List Byte) (klen : Nat)
    (hfuel : klen ≤ 255 * fuel) (hk : kptr.length = klen) (hin : pos + klen ≤ f.data.length) :
    key_compare f fuel pos kptr klen =
      if fslice f.data pos klen = kptr then .matched (pos + klen) else .differs := by
  induction fuel generalizing pos kptr klen with
  | zero =>
    have h0 : klen = 0 := by omega
    subst h0
    have : kptr = [] := List.length_eq_zero.mp hk
    subst this
    simp [key_compare, fslice]
  | succ fuel ih =>
    unfold key_compare
    by_cases h0 : klen = 0
    · subst h0
      have : kptr = [] := List.length_eq_zero.mp hk
      subst this
      simp [fslice]
    · rw [if_neg h0]
      simp only [fread_bytes]
      generalize hc : (if klen > 255 then 255 else klen) = c
      have hc1 : 0 < c ∧ c ≤ klen ∧ klen - c ≤ 255 * fuel := by
        rw [← hc]; split <;> omega
      have hlen : (fslice f.data pos c).length = c := length_fslice_of_le (by omega)
      rw [hlen, if_pos hc1.1]
      have hsplit : fslice f.data pos klen
          = fslice f.data pos c ++ fslice f.data (pos + c) (klen - c) := by
        have := fslice_add f.data pos c (klen - c)
        rwa [show c + (klen - c) = klen by omega] at this
      by_cases hne : kptr.take c ≠ fslice f.data pos c
      · rw [if_pos hne, if_neg]
        intro e
        apply hne
        rw [← e, hsplit, List.take_left' hlen]
      · rw [if_neg hne]
        have he : kptr.take c = fslice f.data pos c := by
          by_contra h; exact hne h
        rw [ih (pos + c) (kptr.drop c) (klen - c) hc1.2.2 (by simp [hk]) (by omega)]
        have hpos : pos + c + (klen - c) = pos + klen := by omega
        rw [hpos, hsplit]
        have hkk : kptr = kptr.take c ++ kptr.drop c := (List.take_append_drop c kptr).symm
        by_cases e2 : fslice f.data (pos + c) (klen - c) = kptr.drop c
        · rw [if_pos e2, if_pos]
          rw [e2, ← he]; exact hkk.symm
        · rw [if_neg e2, if_neg]
          intro e3
          apply e2
          rw [hkk, he] at e3
          exact List.append_cancel_left e3

theorem put_found_returns (db : KVDB) (key value : List Byte) (delete : Bool)
    (offset : Nat) (tmp0 : Byte) (pos : Nat) :
    ∃ c db1, put_found db key value delete offset tmp0 pos = .ret (c, db1) := by
  unfold put_found
  repeat' split
  all_goals exact ⟨_, _, rfl⟩

theorem put_empty_returns (db : KVDB) (key value : List Byte) (delete : Bool)
    (hash i htoffset : Nat) :
    ∃ c db1, put_empty db key value delete hash i htoffset = .ret (c, db1) := by
  unfold put_empty
  split
  · exact ⟨_, _, rfl⟩
  · simp only
    repeat' split
    all_goals exact ⟨_, _, rfl⟩

theorem put_new_page_returns (db : KVDB) (key value : List Byte) (delete : Bool)
    (hash lasthtoffset : Nat) :
    (∃ c db1, put_new_page db key value delete hash lasthtoffset = .ret (c, db1)) ∨
    (put_new_page db key value delete hash lasthtoffset = .ub ∧ delete = false ∧
      db.hash_table_size_bytes ≠ 8 * (db.hash_table_size + 1)) := by
  unfold put_new_page
  by_cases hd : delete = true
  · rw [if_pos hd]
    exact Or.inl ⟨_, _, rfl⟩
  · rw [if_neg hd]
    simp only
    by_cases hP : db.hash_table_size_bytes ≠ 8 * (db.hash_table_size + 1)
    · rw [if_pos hP]
      exact Or.inr ⟨rfl, by simpa using hd, hP⟩
    · rw [if_neg hP]
      left
      repeat' split
      all_goals exact ⟨_, _, rfl⟩

/-! ## What the iterator steps over -/

theorem pos_next {S a b : Nat} (hb : b < S) :
    (if b + 1 ≥ S then a + 1 else a) * S + (if b + 1 ≥ S then 0 else b + 1) = a * S + b + 1 ∧
    (if b + 1 ≥ S then 0 else b + 1) < S := by
  have em : (a + 1) * S = a * S + S := Nat.succ_mul _ _
  by_cases h : b + 1 ≥ S
  · rw [if_pos h, if_pos h]; constructor <;> omega
  · rw [if_neg h, if_neg h]; constructor <;> omega

/-- The loops of `KVDB_iterator_next` from a cursor inside a page: the slot
index of the cursor they leave is inside a page again, and every slot from
the cursor on that they have passed (all slots when they end with 0, the
slots before the one handed out when they end with 1) is empty or points at a
tombstone. -/
theorem iterator_loop_skips {db : KVDB} (I : Inv db) (fuel : Nat) :
    ∀ (a b : Nat) (kbuf vbuf : List Byte), b < db.hash_table_size →
    (a < db.num_hash_tables → b < db.hash_table_size →
      db.num_hash_tables * db.hash_table_size < a * db.hash_table_size + b + fuel) →
    (iterator_loop db kbuf vbuf fuel a b).dbi.h_idx < db.hash_table_size ∧
    ∀ i h, i < db.num_hash_tables → h < db.hash_table_size →
      a * db.hash_table_size + b ≤ i * db.hash_table_size + h →
      ((iterator_loop db kbuf vbuf fuel a b).code = 0 ∨
        ((iterator_loop db kbuf vbuf fuel a b).code = 1 ∧
          i * db.hash_table_size + h + 1
            < (iterator_loop db kbuf vbuf fuel a b).dbi.h_no * db.hash_table_size
              + (iterator_loop db kbuf vbuf fuel a b).dbi.h_idx)) →
      cell_at db.hash_tables db.hash_table_size i h = 0 ∨
        rec_status db.f.data (cell_at db.hash_tables db.hash_table_size i h) = 0 := by
  have hS := I.S_pos
  have outside : ∀ a b i h, ¬ (a < db.num_hash_tables ∧ b < db.hash_table_size) →
      b < db.hash_table_size → i < db.num_hash_tables → h < db.hash_table_size →
      a * db.hash_table_size + b ≤ i * db.hash_table_size + h → False := by
    intro a b i h hout hb hi hh hle
    have ha : db.num_hash_tables ≤ a := by
      by_contra hn
      exact hout ⟨by omega, hb⟩
    have h1 := Nat.mul_le_mul_right db.hash_table_size ha
    have h2 := idx_lt (W := db.hash_table_size) hi hh
    omega
  induction fuel with
  | zero =>
    intro a b kbuf vbuf hb hf
    refine ⟨hb, ?_⟩
    intro i h hi hh hle _
    refine (outside a b i h ?_ hb hi hh hle).elim
    rintro ⟨ha, _⟩
    have h1 := hf ha hb
    have h2 := idx_lt (W := db.hash_table_size) ha hb
    omega
  | succ fuel ih =>
    intro a b kbuf vbuf hb hf
    rw [iterator_loop_step I]
    have em : (a + 1) * db.hash_table_size = a * db.hash_table_size + db.hash_table_size :=
      Nat.succ_mul _ _
    obtain ⟨pn, bn⟩ := pos_next (S := db.hash_table_size) (a := a) hb
    by_cases hr : a < db.num_hash_tables ∧ b < db.hash_table_size
    · have hf1 := hf hr.1 hr.2
      rw [if_pos hr]
      -- the slot under the cursor is stepped over and the loop goes on
      have go : ∀ (a1 b1 : Nat) (k v : List Byte),
          a1 * db.hash_table_size + b1 = a * db.hash_table_size + b + 1 →
          b1 < db.hash_table_size →
          (cell_at db.hash_tables db.hash_table_size a b = 0 ∨
            rec_status db.f.data (cell_at db.hash_tables db.hash_table_size a b) = 0) →
          (iterator_loop db k v fuel a1 b1).dbi.h_idx < db.hash_table_size ∧
          ∀ i h, i < db.num_hash_tables → h < db.hash_table_size →
            a * db.hash_table_size + b ≤ i * db.hash_table_size + h →
            ((iterator_loop db k v fuel a1 b1).code = 0 ∨
              ((iterator_loop db k v fuel a1 b1).code = 1 ∧
                i * db.hash_table_size + h + 1
                  < (iterator_loop db k v fuel a1 b1).dbi.h_no * db.hash_table_size
                    + (iterator_loop db k v fuel a1 b1).dbi.h_idx)) →
            cell_at db.hash_tables db.hash_table_size i h = 0 ∨
              rec_status db.f.data (cell_at db.hash_tables db.hash_table_size i h) = 0 := by
        intro a1 b1 k v hpos hb1 cur
        obtain ⟨r1, r2⟩ := ih a1 b1 k v hb1 (fun _ _ => by omega)
        refine ⟨r1, ?_⟩
        intro i h hi hh hle hc
        by_cases e : a * db.hash_table_size + b = i * db.hash_table_size + h
        · obtain ⟨e1, e2⟩ := idx_inj hr.2 hh e
          subst e1 e2
          exact cur
        · exact r2 i h hi hh (by omega) hc
      by_cases h0 : cell_at db.hash_tables db.hash_table_size a b = 0
      · rw [if_pos h0]
        by_cases hb1 : b + 1 ≥ db.hash_table_size
        · rw [if_pos hb1]
          by_cases ha : a + 1 ≥ db.num_hash_tables
          · rw [if_pos ha]
            refine ⟨hS, ?_⟩
            intro i h hi hh hle _
            by_cases e : a * db.hash_table_size + b = i * db.hash_table_size + h
            · obtain ⟨e1, e2⟩ := idx_inj hr.2 hh e
              subst e1 e2
              exact Or.inl h0
            · have h1 := Nat.mul_le_mul_right db.hash_table_size ha
              have h2 := idx_lt (W := db.hash_table_size) hi hh
              omega
          · rw [if_neg ha]
            exact go (a + 1) 0 kbuf vbuf (by omega) hS (Or.inl h0)
        · rw [if_neg hb1]
          exact go a (b + 1) kbuf vbuf (by omega) (by omega) (Or.inl h0)
      · rw [if_neg h0]
        by_cases hst : rec_status db.f.data (cell_at db.hash_tables db.hash_table_size a b) = 0
        · rw [if_pos hst]
          exact go _ _ _ _ pn bn (Or.inr hst)
        · rw [if_neg hst]
          refine ⟨bn, ?_⟩
          intro i h hi hh hle hc
          rcases hc with hc | ⟨_, hc⟩
          · cases hc
          · have hc1 : i * db.hash_table_size + h + 1
                < (if b + 1 ≥ db.hash_table_size then a + 1 else a) * db.hash_table_size
                  + (if b + 1 ≥ db.hash_table_size then 0 else b + 1) := hc
            omega
    · rw [if_neg hr]
      refine ⟨hb, ?_⟩
      intro i h hi hh hle _
      exact (outside a b i h hr hb hi hh hle).elim

/-- C11. In every reachable database state, a call of `KVDB_iterator_next`
from a cursor whose slot index is inside a page (as `KVDB_iterator_init` and
every call leave it) again leaves such a cursor and returns 0 or 1, the slots
being taken in the order page by page, slot by slot.  It returns 1 on the first
slot at or after the cursor that is non-zero and points at a record with
status byte 1: every slot before it is zero or points at a tombstone, the
buffers hold the key and the value of that record, and the cursor stands one
slot further.  It returns 0 only when no slot at or after the cursor is
non-zero with a live record, and then every later call on the iterator returns
0 and leaves the iterator as it is.  From `KVDB_iterator_init` at most
`num_hash_tables * hash_table_size` calls return 1 in a row, and the pairs
handed out do not depend on how many further calls are allowed. -/
theorem iterator_protocol (db : KVDB) (hr : Reachable db) :
    (∀ a b kbuf vbuf, b < db.hash_table_size →
      (KVDB_iterator_next ⟨db, a, b⟩ kbuf vbuf).dbi.db = db ∧
      (KVDB_iterator_next ⟨db, a, b⟩ kbuf vbuf).dbi.h_idx < db.hash_table_size ∧
      (((KVDB_iterator_next ⟨db, a, b⟩ kbuf vbuf).code = 0 ∧
          (∀ i h, i < db.num_hash_tables → h < db.hash_table_size →
            a * db.hash_table_size + b ≤ i * db.hash_table_size + h →
            cell_at db.hash_tables db.hash_table_size i h = 0 ∨
              rec_status db.f.data (cell_at db.hash_tables db.hash_table_size i h) = 0) ∧
          (∀ kbuf1 vbuf1,
            KVDB_iterator_next (KVDB_iterator_next ⟨db, a, b⟩ kbuf vbuf).dbi kbuf1 vbuf1
              = ⟨0, (KVDB_iterator_next ⟨db, a, b⟩ kbuf vbuf).dbi, kbuf1, vbuf1⟩) ∧
          ∀ m, (next_calls m (KVDB_iterator_next ⟨db, a, b⟩ kbuf vbuf)).code = 0) ∨
        ((KVDB_iterator_next ⟨db, a, b⟩ kbuf vbuf).code = 1 ∧
          ∃ i h, i < db.num_hash_tables ∧ h < db.hash_table_size ∧
            a * db.hash_table_size + b ≤ i * db.hash_table_size + h ∧
            (∀ i1 h1, i1 < db.num_hash_tables → h1 < db.hash_table_size →
              a * db.hash_table_size + b ≤ i1 * db.hash_table_size + h1 →
              i1 * db.hash_table_size + h1 < i * db.hash_table_size + h →
              cell_at db.hash_tables db.hash_table_size i1 h1 = 0 ∨
                rec_status db.f.data (cell_at db.hash_tables db.hash_table_size i1 h1) = 0) ∧
            cell_at db.hash_tables db.hash_table_size i h ≠ 0 ∧
            rec_status db.f.data (cell_at db.hash_tables db.hash_table_size i h) = 1 ∧
            (KVDB_iterator_next ⟨db, a, b⟩ kbuf vbuf).kbuf
              = rec_key db.f.data db.key_size
                  (cell_at db.hash_tables db.hash_table_size i h) ∧
            (KVDB_iterator_next ⟨db, a, b⟩ kbuf vbuf).vbuf
              = rec_value db.f.data db.key_size db.value_size
                  (cell_at db.hash_tables db.hash_table_size i h) ∧
            (KVDB_iterator_next ⟨db, a, b⟩ kbuf vbuf).dbi.h_no * db.hash_table_size
                + (KVDB_iterator_next ⟨db, a, b⟩ kbuf vbuf).dbi.h_idx
              = i * db.hash_table_size + h + 1))) ∧
    (∀ fuel kbuf vbuf, (iterate_from fuel (KVDB_iterator_init db) kbuf vbuf).length
      ≤ db.num_hash_tables * db.hash_table_size) ∧
    (∀ fuel, db.num_hash_tables * db.hash_table_size + 1 ≤ fuel →
      iterate_from fuel (KVDB_iterator_init db) [] [] = iterate_all db) := by
  have I := hr.inv_holds
  refine ⟨?_, ?_, ?_⟩
  · intro a b kbuf vbuf hb
    obtain ⟨hidx, hskip⟩ := iterator_loop_skips I
      (db.num_hash_tables * db.hash_table_size + 1) a b kbuf vbuf hb (fun _ _ => by omega)
    have hskip1 : ∀ i h, i < db.num_hash_tables → h < db.hash_table_size →
        a * db.hash_table_size + b ≤ i * db.hash_table_size + h →
        ((KVDB_iterator_next ⟨db, a, b⟩ kbuf vbuf).code = 0 ∨
          ((KVDB_iterator_next ⟨db, a, b⟩ kbuf vbuf).code = 1 ∧
            i * db.hash_table_size + h + 1
              < (KVDB_iterator_next ⟨db, a, b⟩ kbuf vbuf).dbi.h_no * db.hash_table_size
                + (KVDB_iterator_next ⟨db, a, b⟩ kbuf vbuf).dbi.h_idx)) →
        cell_at db.hash_tables db.hash_table_size i h = 0 ∨
          rec_status db.f.data (cell_at db.hash_tables db.hash_table_size i h) = 0 := hskip
    refine ⟨iterator_next_db ⟨db, a, b⟩ kbuf vbuf, hidx, ?_⟩
    rcases iterator_next_spec I a b kbuf vbuf with
      ⟨h0, hout⟩ | ⟨h1, _, _, _, i, h, hi, hh, hle, q⟩
    · left
      have hdb := iterator_next_db ⟨db, a, b⟩ kbuf vbuf
      have he := iterator_next_eta db a b kbuf vbuf
      refine ⟨h0, fun i h hi hh hle => hskip1 i h hi hh hle (Or.inl h0), ?_⟩
      clear hskip hskip1 hidx
      generalize KVDB_iterator_next ⟨db, a, b⟩ kbuf vbuf = r at h0 hout hdb he
      refine ⟨?_, ?_⟩
      · intro kbuf1 vbuf1
        rw [he]
        exact iterator_next_done I _ _ kbuf1 vbuf1 hout
      · intro m
        rw [iter_result_eta r db h0 hdb, next_calls_done I m _ _ _ _ hout]
    · right
      refine ⟨h1, i, h, hi, hh, hle, ?_, q.1, q.2.1, q.2.2.1, q.2.2.2.1, q.2.2.2.2⟩
      intro i1 g1 hi1 hg1 hle1 hlt
      exact hskip1 i1 g1 hi1 hg1 hle1 (Or.inr ⟨h1, by rw [q.2.2.2.2]; omega⟩)
  · intro fuel kbuf vbuf
    exact Nat.le_trans (length_iterate_from I fuel 0 0 kbuf vbuf) (slots_left_le db 0 0)
  · intro fuel hf
    obtain ⟨e, rfl⟩ : ∃ e, fuel = db.num_hash_tables * db.hash_table_size + 1 + e :=
      ⟨fuel - (db.num_hash_tables * db.hash_table_size + 1), by omega⟩
    exact iterate_from_stable I 0 0 [] [] _
      (by have := slots_left_le db 0 0; omega) e

theorem iterator_protocol_witness :
    Reachable sample_db ∧
    KVDB_iterator_next ⟨sample_db, 0, 0⟩ [] [] = ⟨1, ⟨sample_db, 1, 0⟩, [10], [1]⟩ ∧
    KVDB_iterator_next ⟨sample_db, 1, 0⟩ [10] [1] = ⟨0, ⟨sample_db, 1, 0⟩, [10], [1]⟩ ∧
    (∃ i h, i < sample_db.num_hash_tables ∧ h < sample_db.hash_table_size ∧
      0 * sample_db.hash_table_size + 0 ≤ i * sample_db.hash_table_size + h ∧
      (∀ i1 h1, i1 < sample_db.num_hash_tables → h1 < sample_db.hash_table_size →
        0 * sample_db.hash_table_size + 0 ≤ i1 * sample_db.hash_table_size + h1 →
        i1 * sample_db.hash_table_size + h1 < i * sample_db.hash_table_size + h →
        cell_at sample_db.hash_tables sample_db.hash_table_size i1 h1 = 0 ∨
          rec_status sample_db.f.data
            (cell_at sample_db.hash_tables sample_db.hash_table_size i1 h1) = 0) ∧
      cell_at sample_db.hash_tables sample_db.hash_table_size i h ≠ 0 ∧
      rec_status sample_db.f.data
        (cell_at sample_db.hash_tables sample_db.hash_table_size i h) = 1 ∧
      (KVDB_iterator_next ⟨sample_db, 0, 0⟩ [] []).kbuf
        = rec_key sample_db.f.data sample_db.key_size
            (cell_at sample_db.hash_tables sample_db.hash_table_size i h) ∧
      (KVDB_iterator_next ⟨sample_db, 0, 0⟩ [] []).vbuf
        = rec_value sample_db.f.data sample_db.key_size sample_db.value_size
            (cell_at sample_db.hash_tables sample_db.hash_table_size i h) ∧
      (KVDB_iterator_next ⟨sample_db, 0, 0⟩ [] []).dbi.h_no * sample_db.hash_table_size
          + (KVDB_iterator_next ⟨sample_db, 0, 0⟩ [] []).dbi.h_idx
        = i * sample_db.hash_table_size + h + 1) :=
  ⟨sample_db_reachable, by decide, by decide,
    ((iterator_protocol sample_db sample_db_reachable).1 0 0 [] [] (by decide)).2.2.elim
      (fun h0 => absurd h0.1 (by decide)) (fun h1 => h1.2)⟩

/-! ## The record a put stops at -/

theorem tombstone_db_reachable : Reachable tombstone_db :=
  @Reachable.delete sample_db tombstone_db [10] sample_db_reachable rfl (by decide)

theorem two_page_db_reachable : Reachable two_page_db :=
  @Reachable.put sample_db two_page_db [11] [2] sample_db_reachable rfl rfl (by decide)

/-- `KVDB_put` stops at the first page whose slot holds a tombstone or the
key's record, and rewrites that record. -/
theorem put_stops_at {db : KVDB} (I : Inv db) {key value : List Byte}
    (hk : key.length = db.key_size) (hv : value.length = db.value_size) {i : Nat}
    (hi : i < db.num_hash_tables) (hsk : ∀ j, j < i → Skips db key j)
    (ho : slot_off db key i ≠ 0)
    (hstop : rec_status db.f.data (slot_off db key i) = 0 ∨
      rec_key db.f.data db.key_size (slot_off db key i) = key) :
    KVDB_put db key value = .ret (0, with_file db ⟨put_found_data db.f.data db.key_size
      (slot_off db key i) (rec_status db.f.data (slot_off db key i)) key value, true⟩) := by
  show put_pages db key value false (slot_of db key) db.num_hash_tables 0
    KVDB_HEADER_SIZE KVDB_HEADER_SIZE = _
  rw [put_pages_skip I value false hk i (by omega) hsk]
  obtain ⟨fuel, hf⟩ : ∃ fuel, db.num_hash_tables - i = fuel + 1 :=
    ⟨db.num_hash_tables - i - 1, by omega⟩
  rw [hf, put_pages_step db key value false fuel i _ _ hk I.layout.len_max
    (fun ho => (I.slot_in_file key hi ho).2), if_neg ho, if_neg (by tauto)]
  exact put_found_put I hi ho hk hv _ (fun h => if_pos h)

/-- C14 (amended). In every reachable database state, after any call of
`KVDB_put` or `KVDB_delete` that returns, every filled slot still holds the
same record offset.  `KVDB_delete` leaves the key field of every such record
as it was.  `KVDB_put` leaves it as it was for every record but one: when the
first slot in the chain of the key that is not a live record of another key
points at a tombstone, the put returns 0 and the key field of that tombstone
holds the key that was put. -/
theorem key_field_kept_unless_tombstone (db : KVDB) (hr : Reachable db) :
    (∀ key value c db1, key.length = db.key_size → value.length = db.value_size →
      KVDB_put db key value = .ret (c, db1) →
      ∀ i h, i < db.num_hash_tables → h < db.hash_table_size →
        cell_at db.hash_tables db.hash_table_size i h ≠ 0 →
        cell_at db1.hash_tables db.hash_table_size i h
          = cell_at db.hash_tables db.hash_table_size i h ∧
        ((h = slot_of db key ∧ (∀ j, j < i → Skips db key j) ∧
            rec_status db.f.data (cell_at db.hash_tables db.hash_table_size i h) = 0) →
          c = 0 ∧
          rec_key db1.f.data db.key_size (cell_at db.hash_tables db.hash_table_size i h)
            = key) ∧
        (¬ (h = slot_of db key ∧ (∀ j, j < i → Skips db key j) ∧
            rec_status db.f.data (cell_at db.hash_tables db.hash_table_size i h) = 0) →
          rec_key db1.f.data db.key_size (cell_at db.hash_tables db.hash_table_size i h)
            = rec_key db.f.data db.key_size
                (cell_at db.hash_tables db.hash_table_size i h))) ∧
    (∀ key c db1, key.length = db.key_size → KVDB_delete db key = .ret (c, db1) →
      ∀ i h, i < db.num_hash_tables → h < db.hash_table_size →
        cell_at db.hash_tables db.hash_table_size i h ≠ 0 →
        cell_at db1.hash_tables db.hash_table_size i h
          = cell_at db.hash_tables db.hash_table_size i h ∧
        rec_key db1.f.data db.key_size (cell_at db.hash_tables db.hash_table_size i h)
          = rec_key db.f.data db.key_size (cell_at db.hash_tables db.hash_table_size i h)) := by
  have I := hr.inv_holds
  constructor
  · intro key value c db1 hk hv hp i h hi hh ho
    have k := (put_keeps I hk hv hp).2.2.2 i h hi hh ho
    refine ⟨k.1, ?_, k.2⟩
    rintro ⟨e, hsk, hst⟩
    subst e
    have ho1 : slot_off db key i ≠ 0 := ho
    have hst1 : rec_status db.f.data (slot_off db key i) = 0 := hst
    have hs := @put_stops_at db I key value hk hv i hi hsk ho1 (Or.inl hst1)
    rw [hs] at hp
    injection hp with hp
    injection hp with hc hd
    subst hd
    refine ⟨hc.symm, ?_⟩
    have spec := put_found_data_spec I.layout hi (slot_of_lt db key I.S_pos) ho hk hv
      (rec_status db.f.data (slot_off db key i)) rfl
    have := spec.2.2.2.1
    rw [if_pos hst1] at this
    exact this
  · intro key c db1 hk hp i h hi hh ho
    have := delete_keeps I hk hp
    exact ⟨by rw [this.2.2.2.1], this.2.2.2.2 i h hi hh ho⟩

theorem key_field_kept_unless_tombstone_witness :
    Reachable tombstone_db ∧
    KVDB_put tombstone_db [12] [2]
      = .ret (0, with_file tombstone_db
          ⟨put_found_data tombstone_db.f.data 1 44 0 [12] [2], true⟩) ∧
    cell_at tombstone_db.hash_tables tombstone_db.hash_table_size 0 0 = 44 ∧
    rec_status tombstone_db.f.data 44 = 0 ∧
    rec_key tombstone_db.f.data tombstone_db.key_size 44 = [10] ∧
    cell_at (with_file tombstone_db
        ⟨put_found_data tombstone_db.f.data 1 44 0 [12] [2], true⟩).hash_tables
        tombstone_db.hash_table_size 0 0
      = cell_at tombstone_db.hash_tables tombstone_db.hash_table_size 0 0 ∧
    ((0 : Int) = 0 ∧
      rec_key (with_file tombstone_db
          ⟨put_found_data tombstone_db.f.data 1 44 0 [12] [2], true⟩).f.data
          tombstone_db.key_size
          (cell_at tombstone_db.hash_tables tombstone_db.hash_table_size 0 0)
        = [12]) :=
  ⟨tombstone_db_reachable, by decide, by decide, by decide, by decide,
    ((key_field_kept_unless_tombstone tombstone_db tombstone_db_reachable).1 [12] [2] 0 _
      rfl rfl (by decide) 0 0 (by decide) (by decide) (by decide)).1,
    ((key_field_kept_unless_tombstone tombstone_db tombstone_db_reachable).1 [12] [2] 0 _
      rfl rfl (by decide) 0 0 (by decide) (by decide) (by decide)).2.1
      ⟨by decide, fun j hj => absurd hj (Nat.not_lt_zero j), by decide⟩⟩

set_option maxRecDepth 100000 in
theorem filled_slots_initial_segment_witness :
    Reachable two_page_db ∧
    two_page_db.num_hash_tables = 2 ∧
    cell_at two_page_db.hash_tables two_page_db.hash_table_size 1 0 ≠ 0 ∧
    cell_at two_page_db.hash_tables two_page_db.hash_table_size 0 0 ≠ 0 ∧
    KVDB_delete two_page_db [10]
      = .ret (0, with_file two_page_db ⟨pwrite two_page_db.f.data 44 [0], true⟩) ∧
    cell_at (with_file two_page_db ⟨pwrite two_page_db.f.data 44 [0], true⟩).hash_tables
      (with_file two_page_db ⟨pwrite two_page_db.f.data 44 [0], true⟩).hash_table_size 1 0
      ≠ 0 ∧
    KVDB_put two_page_db [12] [3] = .ret (0, grown_handle two_page_db [12] [3]) ∧
    cell_at (grown_handle two_page_db [12] [3]).hash_tables
      (grown_handle two_page_db [12] [3]).hash_table_size 0 0 ≠ 0 :=
  ⟨two_page_db_reachable, by decide, by decide,
    (filled_slots_initial_segment two_page_db two_page_db_reachable).1 0 1 0
      (by decide) (by decide) (by decide) (by decide),
    by decide,
    ((filled_slots_initial_segment two_page_db two_page_db_reachable).2.2.2 [10] 0 _ rfl
      (by decide)).2.2 1 0 (by decide) (by decide) (by decide),
    by decide,
    ((filled_slots_initial_segment two_page_db two_page_db_reachable).2.2.1 [12] [3] 0 _ rfl rfl
      (by decide)).2.2 0 0 (by decide) (by decide) (by decide)⟩

/-! ## The pages `_kvdb_put` visits -/

/-- One round of the page loop of `_kvdb_put` on a filled slot whose record
has its status byte and key field inside the file, in any handle. -/
theorem put_pages_round (db : KVDB) (key value : List Byte) (delete : Bool)
    (hk : key.length = db.key_size) (fuel i htoffset lasthtoffset : Nat)
    (ho : slot_off db key i ≠ 0)
    (hin : slot_off db key i + 1 + db.key_size ≤ db.f.data.length) :
    put_pages db key value delete (slot_of db key) (fuel + 1) i htoffset lasthtoffset =
      if ¬ slot_off db key i ≤ OFF_MAX then .ret ( KVDB_ERROR_IO, db)
      else if rec_status db.f.data (slot_off db key i) ≠ 0 then
        if rec_key db.f.data db.key_size (slot_off db key i) = key then
          put_found db key value delete (slot_off db key i)
            (rec_status db.f.data (slot_off db key i)) (slot_off db key i + 1 + db.key_size)
        else
          put_pages db key value delete (slot_of db key) fuel (i + 1)
            (cell_at db.hash_tables db.hash_table_size i db.hash_table_size) htoffset
      else
        put_found db key value delete (slot_off db key i)
          (rec_status db.f.data (slot_off db key i)) (slot_off db key i + 1) := by
  conv_lhs => rw [put_pages]
  have e : db.hash_tables.getD (i * (db.hash_table_size + 1) + slot_of db key) 0
      = slot_off db key i := rfl
  have e2 : db.hash_tables.getD (i * (db.hash_table_size + 1) + db.hash_table_size) 0
      = cell_at db.hash_tables db.hash_table_size i db.hash_table_size := rfl
  simp only [e, e2]
  rw [if_pos ho]
  by_cases hmax : ¬ slot_off db key i ≤ OFF_MAX
  · rw [if_pos hmax, if_pos hmax]
  · rw [if_neg hmax, if_neg hmax, fread_item_in (by omega) (by omega)]
    have e3 : (fslice db.f.data (slot_off db key i) 1).getD 0 0
        = rec_status db.f.data (slot_off db key i) := rfl
    simp only [e3]
    by_cases hst : rec_status db.f.data (slot_off db key i) ≠ 0
    · rw [if_pos hst, if_pos hst,
        key_compare_eq db.f db.key_size (slot_off db key i + 1) key db.key_size
          (Nat.le_refl _) hk (by omega)]
      have e4 : fslice db.f.data (slot_off db key i + 1) db.key_size
          = rec_key db.f.data db.key_size (slot_off db key i) := rfl
      rw [e4]
      by_cases hkey : rec_key db.f.data db.key_size (slot_off db key i) = key
      · rw [if_pos hkey, if_pos hkey]
      · rw [if_neg hkey, if_neg hkey]
    · rw [if_neg hst, if_neg hst]

/-- The page loop of `_kvdb_put` ends when every filled slot it visits has the
status byte and the key field of its record inside the file. -/
theorem put_pages_returns (db : KVDB) (key value : List Byte) (delete : Bool)
    (hk : key.length = db.key_size) (fuel : Nat) :
    ∀ i htoffset lasthtoffset,
    (∀ j, i ≤ j → j < i + fuel → (∀ k, i ≤ k → k < j → Passes db key k) →
      slot_off db key j ≠ 0 → slot_off db key j + 1 + db.key_size ≤ db.f.data.length) →
    (∃ c db1, put_pages db key value delete (slot_of db key) fuel i htoffset lasthtoffset
      = .ret (c, db1)) ∨
    (put_pages db key value delete (slot_of db key) fuel i htoffset lasthtoffset = .ub ∧
      delete = false ∧ db.hash_table_size_bytes ≠ 8 * (db.hash_table_size + 1)) := by
  induction fuel with
  | zero =>
    intro i htoffset lasthtoffset _
    rw [put_pages]
    exact put_new_page_returns db key value delete _ _
  | succ fuel ih =>
    intro i htoffset lasthtoffset hpre
    by_cases h0 : slot_off db key i ≠ 0
    · have hin := hpre i (Nat.le_refl _) (by omega) (fun k h1 h2 => absurd h2 (by omega)) h0
      rw [put_pages_round db key value delete hk fuel i htoffset lasthtoffset h0 hin]
      by_cases hmax : ¬ slot_off db key i ≤ OFF_MAX
      · rw [if_pos hmax]
        exact Or.inl ⟨_, _, rfl⟩
      · rw [if_neg hmax]
        by_cases hst : rec_status db.f.data (slot_off db key i) ≠ 0
        · rw [if_pos hst]
          by_cases hkey : rec_key db.f.data db.key_size (slot_off db key i) = key
          · rw [if_pos hkey]
            exact Or.inl (put_found_returns db key value delete _ _ _)
          · rw [if_neg hkey]
            have hpass : Passes db key i := ⟨h0, by omega, hst, hkey⟩
            apply ih (i + 1)
            intro j h1 h2 hp
            apply hpre j (by omega) (by omega)
            intro k hk1 hk2
            by_cases e : k = i
            · subst e; exact hpass
            · exact hp k (by omega) hk2
        · rw [if_neg hst]
          exact Or.inl (put_found_returns db key value delete _ _ _)
    · rw [put_pages]
      have e : db.hash_tables.getD (i * (db.hash_table_size + 1) + slot_of db key) 0
          = slot_off db key i := rfl
      simp only [e]
      rw [if_neg h0]
      exact Or.inl (put_empty_returns db key value delete _ _ _)

/-- The page loop of `_kvdb_put` visits page `i` when it leaves every page
before it for the next one. -/
theorem put_pages_reach (db : KVDB) (key value : List Byte) (delete : Bool)
    (hk : key.length = db.key_size)
    (hpre : ∀ i, i < db.num_hash_tables → (∀ j, j < i → Passes db key j) →
      slot_off db key i ≠ 0 → slot_off db key i + 1 + db.key_size ≤ db.f.data.length)
    (i : Nat) (hi : i ≤ db.num_hash_tables) (hp : ∀ j, j < i → Passes db key j) :
    ∃ htoffset lasthtoffset, _kvdb_put db key value delete
      = put_pages db key value delete (slot_of db key) (db.num_hash_tables - i) i
          htoffset lasthtoffset := by
  induction i with
  | zero => exact ⟨_, _, rfl⟩
  | succ i ih =>
    obtain ⟨hto, lhto, e⟩ := ih (by omega) (fun j hj => hp j (by omega))
    have hpi := hp i (by omega)
    have hin := hpre i (by omega) (fun j hj => hp j (by omega)) hpi.1
    obtain ⟨fuel, hf⟩ : ∃ fuel, db.num_hash_tables - i = fuel + 1 :=
      ⟨db.num_hash_tables - i - 1, by omega⟩
    rw [hf, put_pages_round db key value delete hk fuel i hto lhto hpi.1 hin,
      if_neg (by have := hpi.2.1; omega), if_pos hpi.2.2.1, if_neg hpi.2.2.2] at e
    have hf2 : db.num_hash_tables - (i + 1) = fuel := by omega
    rw [hf2]
    exact ⟨_, _, e⟩

/-- C20. For every handle, key of `key_size` bytes and value such that every
filled slot the page loop visits (the slot of the key's index in a page that
is reached because each page before it held a live record of another key) has
at least `1 + key_size` bytes of file from its offset on, `_kvdb_put`, as put
and as delete, ends: it returns (or, as a put, stops at the first page it
cannot build because the page byte count has wrapped) after its `for` loop
over at most `num_hash_tables` pages.  At each visited slot the key comparison
is settled within `⌈key_size / 255⌉` chunk reads, and every chunk read inside
the key field returns at least one byte.  The precondition is needed: on a
slot whose record is cut off after the status byte the put never returns. -/
theorem put_terminates (db : KVDB) (key value : List Byte) (delete : Bool)
    (hk : key.length = db.key_size)
    (hpre : ∀ i, i < db.num_hash_tables → (∀ j, j < i → Passes db key j) →
      slot_off db key i ≠ 0 → slot_off db key i + 1 + db.key_size ≤ db.f.data.length) :
    ((∃ c db1, _kvdb_put db key value delete = .ret (c, db1)) ∨
      (_kvdb_put db key value delete = .ub ∧ delete = false ∧
        db.hash_table_size_bytes ≠ 8 * (db.hash_table_size + 1))) ∧
    _kvdb_put db key value delete ≠ .hang ∧
    (∀ i, i ≤ db.num_hash_tables → (∀ j, j < i → Passes db key j) →
      ∃ htoffset lasthtoffset, _kvdb_put db key value delete
        = put_pages db key value delete (slot_of db key) (db.num_hash_tables - i) i
            htoffset lasthtoffset) ∧
    (∀ i, i < db.num_hash_tables → (∀ j, j < i → Passes db key j) →
      slot_off db key i ≠ 0 →
      ∀ fuel, (db.key_size + 254) / 255 ≤ fuel →
        key_compare db.f fuel (slot_off db key i + 1) key db.key_size
          = key_compare db.f db.key_size (slot_off db key i + 1) key db.key_size ∧
        key_compare db.f fuel (slot_off db key i + 1) key db.key_size ≠ .short) ∧
    (∀ i, i < db.num_hash_tables → (∀ j, j < i → Passes db key j) →
      slot_off db key i ≠ 0 →
      ∀ pos klen, slot_off db key i + 1 ≤ pos → 0 < klen →
        pos + klen ≤ slot_off db key i + 1 + db.key_size →
        0 < (fread_bytes db.f pos (if klen > 255 then 255 else klen)).length) ∧
    KVDB_put short_record_db [10] [1] = .hang := by
  have hout := put_pages_returns db key value delete hk db.num_hash_tables 0
    KVDB_HEADER_SIZE KVDB_HEADER_SIZE
    (fun j _ h2 hp => hpre j (by omega) (fun k hk1 => hp k (Nat.zero_le _) hk1))
  refine ⟨hout, ?_, ?_, ?_, ?_, by decide⟩
  · intro hh
    rcases hout with ⟨c, db1, h⟩ | ⟨h, _⟩
    · rw [show _kvdb_put db key value delete = _ from h] at hh; cases hh
    · rw [show _kvdb_put db key value delete = _ from h] at hh; cases hh
  · intro i hi hp
    exact put_pages_reach db key value delete hk hpre i hi hp
  · intro i hi hp ho fuel hf
    have hin := hpre i hi hp ho
    rw [key_compare_chunks db.f fuel _ key db.key_size (by omega) hk (by omega),
      key_compare_eq db.f db.key_size _ key db.key_size (Nat.le_refl _) hk (by omega)]
    refine ⟨rfl, ?_⟩
    split <;> simp
  · intro i hi hp ho pos klen hpos h0 hle
    have hin := hpre i hi hp ho
    unfold fread_bytes
    rw [length_fslice_of_le (by split <;> omega)]
    split <;> omega

theorem put_terminates_witness :
    (∀ i, i < cut_tail_db.num_hash_tables → (∀ j, j < i → Passes cut_tail_db [10] j) →
      slot_off cut_tail_db [10] i ≠ 0 →
      slot_off cut_tail_db [10] i + 1 + cut_tail_db.key_size ≤ cut_tail_db.f.data.length) ∧
    (slot_off cut_tail_db [10] 1 ≠ 0 ∧
      ¬ slot_off cut_tail_db [10] 1 + 1 + cut_tail_db.key_size
        ≤ cut_tail_db.f.data.length) ∧
    ((∃ c db1, _kvdb_put cut_tail_db [10] [5] false = .ret (c, db1)) ∨
      (_kvdb_put cut_tail_db [10] [5] false = .ub ∧ false = false ∧
        cut_tail_db.hash_table_size_bytes ≠ 8 * (cut_tail_db.hash_table_size + 1))) :=
  ⟨by decide, by decide, (put_terminates cut_tail_db [10] [5] false rfl (by decide)).1⟩

/-- A page of `2 ^ 63 + 8` bytes cannot be allocated: with `S = 2 ^ 60` both
creating and reopening the database write or read the header and then return
the allocation code. -/
theorem open_page_too_large :
    KVDB_open none KVDB_OPEN_MODE_RWCREAT (2 ^ 60) 1 1 0
        = .ret (KVDB_ERROR_MALLOC, fresh_handle (2 ^ 60) 1 1) ∧
      KVDB_open (some (header_bytes (2 ^ 60) 1 1)) KVDB_OPEN_MODE_RDWR 0 0 0 0
        = .ret (KVDB_ERROR_MALLOC, fresh_handle (2 ^ 60) 1 1) := by
  decide

end Kvdb
